import Mathlib

/-!
# Lunar Digital Twin: the optimal path finder and the link pass

A shallow embedding of `findOptimalPath` (scratch_helpers/optimalPathFinder.cc)
and of the link pass of `startSimulation` (scratch/LDT_main.cc).

Numbers: there are two embeddings of `findOptimalPath`.  In the first the C++
`double` is read as an element of a linearly ordered commutative ring `D` with
a square-root function `sqrt : D → D` passed as a parameter;
`numeric_limits<double>::infinity()` is the top element of `WithTop D`.  The
definitions are computable for computable `D` (the integers with the integer
square root); the results are proved for every `D` whose `sqrt` is
non-negative (and, where a root has to be exact, squares back), and stated for
the real numbers with the real square root.  Rounding is not modelled there.
The second embedding (namespace `Fp`) serves the results on which rounding and
overflow bear, the emptiness of the result and the direct link: its arithmetic
is a parameter of which only laws that hold of `double` are assumed.

Containers: `unordered_map<string, V>` given as input is an association list
(first binding of a key wins); the maps `dist` and `prev` built by the search
are functions `String → Option V`.  `std::priority_queue` is the binary heap of
libstdc++ (`std::push_heap`, `std::pop_heap` over a vector), with the
comparator reading the distance map as it is at the time of the call.
-/

namespace LunarDT

/-! ## Data model -/

/-- Record `NodePosition` of optimalPathFinder.cc. -/
structure NodePosition (D : Type) where
  x : D
  y : D
  z : D
deriving DecidableEq, Repr

/-- Result of running code that may throw or loop: normal completion, the
exception `std::out_of_range` of `unordered_map::at`, or a loop that is still
running when the fuel is used up. -/
inductive Outcome (α : Type) where
  | done (a : α)
  | outOfRange
  | timeout
deriving DecidableEq, Repr

/-- The input map `nodes`. -/
abbrev NodeMap (D : Type) := List (String × NodePosition D)

/-- The input map `adjacency`. -/
abbrev AdjMap := List (String × List String)

/-- The map `dist`; `none` is an absent key. -/
abbrev DistMap (D : Type) := String → Option (WithTop D)

/-- The map `prev`; `none` is an absent key. -/
abbrev PrevMap := String → Option String

/-- Assignment `m[k] = v`. -/
def mapSet {V : Type} (m : String → Option V) (k : String) (v : V) : String → Option V :=
  fun k' => if k' = k then some v else m k'

section Search

variable {D : Type} [LinearOrderedCommRing D]

/-- Function `distanceBetween`: Euclidean distance of two positions. -/
def distanceBetween (sqrt : D → D) (a b : NodePosition D) : D :=
  let dx := a.x - b.x
  let dy := a.y - b.y
  let dz := a.z - b.z
  sqrt (dx * dx + dy * dy + dz * dz)

/-- Read access `dist[k]`: `operator[]` value-initialises an absent key to 0.0. -/
def distAt (dist : DistMap D) (k : String) : WithTop D :=
  (dist k).getD 0

/-- The lambda `cmp` of `findOptimalPath`: `dist[a] > dist[b]`. -/
def cmp (dist : DistMap D) (a b : String) : Bool :=
  decide (distAt dist b < distAt dist a)

/-! ## The priority queue (binary heap over a vector) -/

/-- Loop of `std::__push_heap` with top index 0: the hole climbs while the
parent compares greater than the value; `fuel` starts at the hole index. -/
def pushHeapLoop (lt : String → String → Bool) (value : String) :
    Nat → List String → Nat → List String
  | 0, c, hole => c.set hole value
  | fuel + 1, c, hole =>
    let parent := (hole - 1) / 2
    if 0 < hole ∧ lt (c.getD parent "") value = true then
      pushHeapLoop lt value fuel (c.set hole (c.getD parent "")) parent
    else
      c.set hole value

/-- `std::push_heap` on the whole vector: the last element is the new value. -/
def pushHeap (lt : String → String → Bool) (c : List String) : List String :=
  pushHeapLoop lt (c.getD (c.length - 1) "") (c.length - 1) c (c.length - 1)

/-- `priority_queue::push`: `push_back` then `push_heap`. -/
def pqPush (lt : String → String → Bool) (c : List String) (x : String) : List String :=
  pushHeap lt (c ++ [x])

/-- First loop of `std::__adjust_heap`: the hole descends to the larger child
while it has two children inside the first `len` slots. -/
def adjustHeapLoop (lt : String → String → Bool) (len : Nat) :
    Nat → List String → Nat → List String × Nat
  | 0, c, hole => (c, hole)
  | fuel + 1, c, hole =>
    if hole < (len - 1) / 2 then
      let second := 2 * (hole + 1)
      let child := if lt (c.getD second "") (c.getD (second - 1) "") = true
        then second - 1 else second
      adjustHeapLoop lt len fuel (c.set hole (c.getD child "")) child
    else
      (c, hole)

/-- `std::__adjust_heap` from hole 0 over the first `len` slots, ending with
`std::__push_heap` of the value. The index type of the source is signed, so
the test on an only child fails for `len = 0`. -/
def adjustHeap (lt : String → String → Bool) (c : List String) (len : Nat)
    (value : String) : List String :=
  let r := adjustHeapLoop lt len len c 0
  let r2 : List String × Nat :=
    if len % 2 = 0 ∧ 2 ≤ len ∧ r.2 = (len - 2) / 2 then
      (r.1.set r.2 (r.1.getD (2 * (r.2 + 1) - 1) ""), 2 * (r.2 + 1) - 1)
    else r
  pushHeapLoop lt value r2.2 r2.1 r2.2

/-- `std::pop_heap`: the top goes to the last slot and the former last
element is re-inserted among the others. -/
def popHeap (lt : String → String → Bool) (c : List String) : List String :=
  if 1 < c.length then
    let last := c.length - 1
    adjustHeap lt (c.set last (c.getD 0 "")) last (c.getD last "")
  else c

/-- `priority_queue::pop`: `pop_heap` then `pop_back`. -/
def pqPop (lt : String → String → Bool) (c : List String) : List String :=
  (popHeap lt c).dropLast

/-! ## The search -/

/-- Local state of `findOptimalPath`. -/
structure SearchState (D : Type) where
  dist : DistMap D
  prev : PrevMap
  pq : List String

/-- The loop `for (auto& n : nodes) dist[n.first] = infinity`. -/
def initInfinity (nodes : NodeMap D) : DistMap D :=
  nodes.foldl (fun d n => mapSet d n.1 ⊤) (fun _ => none)

/-- State on entry to the main loop. -/
def initState (nodes : NodeMap D) (start : String) : SearchState D :=
  let dist := mapSet (initInfinity nodes) start 0
  { dist := dist, prev := fun _ => none, pq := pqPush (cmp dist) [] start }

/-- One pass of the body of `for (const string& v : adjacency.at(u))`. -/
def relaxStep (sqrt : D → D) (nodes : NodeMap D) (u v : String)
    (st : SearchState D) : Outcome (SearchState D) :=
  match nodes.lookup v with
  | none => .done st
  | some pv =>
    match nodes.lookup u with
    | none => .outOfRange
    | some pu =>
      let alt : WithTop D := distAt st.dist u + ((distanceBetween sqrt pu pv : D) : WithTop D)
      if alt < distAt st.dist v then
        let dist := mapSet st.dist v alt
        .done { dist := dist, prev := mapSet st.prev v u, pq := pqPush (cmp dist) st.pq v }
      else
        .done st

/-- The loop `for (const string& v : adjacency.at(u))`. -/
def relax (sqrt : D → D) (nodes : NodeMap D) (u : String) :
    List String → SearchState D → Outcome (SearchState D)
  | [], st => .done st
  | v :: vs, st =>
    match relaxStep sqrt nodes u v st with
    | .done st1 => relax sqrt nodes u vs st1
    | .outOfRange => .outOfRange
    | .timeout => .timeout

/-- The loop `while (!pq.empty())`, at most `fuel` iterations. -/
def searchLoop (sqrt : D → D) (nodes : NodeMap D) (adjacency : AdjMap) (goal : String) :
    Nat → SearchState D → Outcome (SearchState D)
  | fuel, st =>
    match st.pq with
    | [] => .done st
    | u :: _ =>
      match fuel with
      | 0 => .timeout
      | fuel + 1 =>
        let st1 : SearchState D := { st with pq := pqPop (cmp st.dist) st.pq }
        if u = goal then .done st1
        else
          match adjacency.lookup u with
          | none => searchLoop sqrt nodes adjacency goal fuel st1
          | some links =>
            match relax sqrt nodes u links st1 with
            | .done st2 => searchLoop sqrt nodes adjacency goal fuel st2
            | .outOfRange => .outOfRange
            | .timeout => .timeout

/-- The loop `for (string at = goal; !at.empty(); at = prev.count(at) ? prev[at] : "")`,
at most `fuel` iterations. -/
def walkBack (prev : PrevMap) : Nat → String → List String → Outcome (List String)
  | fuel, cur, path =>
    if cur = "" then .done path
    else
      match fuel with
      | 0 => .timeout
      | fuel + 1 =>
        walkBack prev fuel (match prev cur with | some p => p | none => "") (path ++ [cur])

/-- Function `findOptimalPath`; `fuel` bounds the iterations of each loop. -/
def findOptimalPath (sqrt : D → D) (fuel : Nat) (nodes : NodeMap D) (adjacency : AdjMap)
    (start goal : String) : Outcome (List String) :=
  match searchLoop sqrt nodes adjacency goal fuel (initState nodes start) with
  | .done st =>
    if distAt st.dist goal = ⊤ then .done []
    else
      match walkBack st.prev fuel goal [] with
      | .done path => .done path.reverse
      | .outOfRange => .outOfRange
      | .timeout => .timeout
  | .outOfRange => .outOfRange
  | .timeout => .timeout

/-- Read access `nodes[k]` of the caller: an absent key is value-initialised. -/
def posAt (nodes : NodeMap D) (k : String) : NodePosition D :=
  (nodes.lookup k).getD ⟨0, 0, 0⟩

/-- The loop of `startOptimalPathFinder` that sums `totalDist` over the path. -/
def totalDistLoop (sqrt : D → D) (nodes : NodeMap D) : D → List String → D
  | acc, a :: b :: rest =>
    totalDistLoop sqrt nodes
      (acc + sqrt (((posAt nodes a).x - (posAt nodes b).x) ^ 2 +
        ((posAt nodes a).y - (posAt nodes b).y) ^ 2 +
        ((posAt nodes a).z - (posAt nodes b).z) ^ 2)) (b :: rest)
  | acc, _ => acc

/-- The value of `totalDist` the caller prints for a path. -/
def totalDist (sqrt : D → D) (nodes : NodeMap D) (path : List String) : D :=
  totalDistLoop sqrt nodes 0 path

/-! ## Graph notions used in the statements -/

/-- The test `nodes.find(k) != nodes.end()`: the name has a position record. -/
def hasPos (nodes : NodeMap D) (k : String) : Prop :=
  (nodes.lookup k).isSome = true

instance decHasPos (nodes : NodeMap D) (k : String) : Decidable (hasPos nodes k) :=
  inferInstanceAs (Decidable ((nodes.lookup k).isSome = true))

/-- The declared link list of a name (empty when the name has none). -/
def linksOf (adjacency : AdjMap) (u : String) : List String :=
  (adjacency.lookup u).getD []

/-- Euclidean length of the link from `u` to `v`. -/
def edgeLen (sqrt : D → D) (nodes : NodeMap D) (u v : String) : D :=
  distanceBetween sqrt (posAt nodes u) (posAt nodes v)

/-- A chain of declared links through nodes with positions. -/
def IsRoute (nodes : NodeMap D) (adjacency : AdjMap) (p : List String) : Prop :=
  (∀ x ∈ p, hasPos nodes x) ∧ p.Chain' (fun a b => b ∈ linksOf adjacency a)

/-- Some chain of declared links through nodes with positions leads from
`start` to `goal`. -/
def Reachable (nodes : NodeMap D) (adjacency : AdjMap) (start goal : String) : Prop :=
  ∃ p, IsRoute nodes adjacency p ∧ p.head? = some start ∧ p.getLast? = some goal

/-! ## Invariants of the search -/

/-- Length of a path listed backwards (last node first). -/
def revLen (sqrt : D → D) (nodes : NodeMap D) : List String → D
  | v :: u :: rest => revLen sqrt nodes (u :: rest) + edgeLen sqrt nodes u v
  | _ => 0

/-- The list follows `prev` from its head back to `start`. -/
def PrevChain (prev : PrevMap) (start : String) : List String → Prop
  | [] => False
  | [x] => x = start
  | x :: y :: rest => prev x = some y ∧ PrevChain prev start (y :: rest)

/-- A repetition-free backward path of positioned nodes whose length is the
tentative distance of its head `v`, and none of whose tails is shorter than
the tentative distance of that tail's head. -/
def Witness (sqrt : D → D) (nodes : NodeMap D) (dist : DistMap D) (v : String)
    (P : List String) : Prop :=
  P.head? = some v ∧ P.Nodup ∧ (∀ x ∈ P, hasPos nodes x) ∧
    ((revLen sqrt nodes P : D) : WithTop D) = distAt dist v ∧
    ∀ y Q, (y :: Q) <:+ P → distAt dist y ≤ ((revLen sqrt nodes (y :: Q) : D) : WithTop D)

/-- What holds of the state of `findOptimalPath` between any two statements
of the main loop. -/
structure Inv (sqrt : D → D) (nodes : NodeMap D) (adjacency : AdjMap) (start : String)
    (st : SearchState D) : Prop where
  start_zero : distAt st.dist start = 0
  nonneg : ∀ k, 0 ≤ distAt st.dist k
  queued : ∀ k ∈ st.pq, hasPos nodes k ∧ distAt st.dist k < ⊤
  prev_edge : ∀ v u, st.prev v = some u →
    hasPos nodes u ∧ hasPos nodes v ∧ v ∈ linksOf adjacency u ∧
      distAt st.dist u + ((edgeLen sqrt nodes u v : D) : WithTop D) ≤ distAt st.dist v ∧
      distAt st.dist v < ⊤
  prev_start : st.prev start = none
  chain : ∀ v, hasPos nodes v → distAt st.dist v < ⊤ →
    ∃ C, PrevChain st.prev start (v :: C)
  witness : ∀ v, hasPos nodes v → distAt st.dist v < ⊤ →
    ∃ P, Witness sqrt nodes st.dist v P

/-- Every positioned name with a finite tentative distance that is neither
queued nor the goal has passed a finite distance on to all its positioned links. -/
def Closed (nodes : NodeMap D) (adjacency : AdjMap) (goal : String)
    (st : SearchState D) : Prop :=
  ∀ u, hasPos nodes u → distAt st.dist u < ⊤ → u ∉ st.pq → u ≠ goal →
    ∀ v ∈ linksOf adjacency u, hasPos nodes v → distAt st.dist v < ⊤

/-- All lists of length at most `n` over the given names. -/
def listsUpTo (keys : List String) : Nat → List (List String)
  | 0 => [[]]
  | n + 1 => [] :: keys.flatMap (fun k => (listsUpTo keys n).map (fun l => k :: l))

/-- The backward path is strictly shorter than the tentative distance of its head. -/
def undercuts (sqrt : D → D) (nodes : NodeMap D) (dist : DistMap D) : List String → Bool
  | [] => false
  | v :: rest => decide (((revLen sqrt nodes (v :: rest) : D) : WithTop D) < distAt dist v)

/-- Number of candidate paths that still undercut a tentative distance. -/
def slack (sqrt : D → D) (nodes : NodeMap D) (dist : DistMap D) : Nat :=
  (listsUpTo (nodes.map Prod.fst) nodes.length).countP (undercuts sqrt nodes dist)

/-- Bound on the number of iterations of the main loop still to come. -/
def potential (sqrt : D → D) (nodes : NodeMap D) (st : SearchState D) : Nat :=
  slack sqrt nodes st.dist + st.pq.length

/-- The candidate `alt = dist[u] + distanceBetween(nodes.at(u), nodes.at(v))`. -/
def altDist (sqrt : D → D) (nodes : NodeMap D) (dist : DistMap D) (u v : String) : WithTop D :=
  distAt dist u + ((edgeLen sqrt nodes u v : D) : WithTop D)

/-- The state after a successful test `alt < dist[v]`. -/
def improve (st : SearchState D) (u v : String) (alt : WithTop D) : SearchState D :=
  { dist := mapSet st.dist v alt, prev := mapSet st.prev v u,
    pq := pqPush (cmp (mapSet st.dist v alt)) st.pq v }

/-- How the state can change in the course of the main loop: distances only
drop, queued names stay queued, a name whose distance dropped is queued, and
the bound on the iterations to come does not grow. -/
structure Advances (sqrt : D → D) (nodes : NodeMap D) (st st' : SearchState D) : Prop where
  le : ∀ k, distAt st'.dist k ≤ distAt st.dist k
  sub : ∀ k ∈ st.pq, k ∈ st'.pq
  fresh : ∀ k, distAt st'.dist k < distAt st.dist k → k ∈ st'.pq
  pot : potential sqrt nodes st' ≤ potential sqrt nodes st

end Search

/-! ## Concrete number model for the worked examples -/

/-- Search loop of the integer square root. -/
def intSqrtLoop (n : Nat) : Nat → Nat → Nat
  | 0, r => r
  | fuel + 1, r => if (r + 1) * (r + 1) ≤ n then intSqrtLoop n fuel (r + 1) else r

/-- Integer square root, exact on perfect squares. -/
def intSqrt (z : ℤ) : ℤ :=
  (intSqrtLoop z.toNat z.toNat 0 : Nat)

/-! ## The link pass of `startSimulation` -/

/-- Record `NodeConfig` of `startSimulation`. -/
structure NodeConfig (D : Type) where
  name : String
  type : String
  x : D
  y : D
  z : D
  freqMHz : D
  txPowerBm : D
  txRate : String
  rxRate : String
  links : List String

/-- Arguments of one call `simulateTransmission(distance, freqMHz, txPowerdBm, rate)`. -/
structure SimCall (D : Type) where
  distance : D
  freqMHz : D
  txPowerdBm : D
  rate : String

/-- What the link pass does to the outside: a call of the transmission
simulator, or a warning line naming a target that was not found. -/
inductive Effect (D : Type) where
  | sim (call : SimCall D)
  | warn (target : String)

/-- State of the link pass: the node vector and the effects so far. -/
structure SimState (D : Type) where
  nodes : List (NodeConfig D)
  trace : List (Effect D)

/-- The lambda `findNode`: the first node of the vector with the given name. -/
def findNode {D : Type} : List (NodeConfig D) → String → Option (NodeConfig D)
  | [], _ => none
  | n :: rest, name => if n.name = name then some n else findNode rest name

/-- The choice `(tx.txRate < rx->rxRate) ? tx.txRate : rx->rxRate`; `operator<`
of `std::string` compares the character sequences lexicographically. -/
def effectiveRate (txRate rxRate : String) : String :=
  if txRate.data < rxRate.data then txRate else rxRate

section LinkPass

variable {D : Type} [LinearOrderedCommRing D]

/-- The arguments computed for a transmitter and a found receiver. -/
def simCallOf (sqrt : D → D) (tx rx : NodeConfig D) : SimCall D :=
  let dx := tx.x - rx.x
  let dy := tx.y - rx.y
  let dz := tx.z - rx.z
  { distance := sqrt (dx * dx + dy * dy + dz * dz), freqMHz := tx.freqMHz,
    txPowerdBm := tx.txPowerBm, rate := effectiveRate tx.txRate rx.rxRate }

/-- Body of `for (auto &targetName : tx.links)`. -/
def linkStep (sqrt : D → D) (tx : NodeConfig D) (targetName : String)
    (s : SimState D) : SimState D :=
  match findNode s.nodes targetName with
  | none => { s with trace := s.trace ++ [Effect.warn targetName] }
  | some rx => { s with trace := s.trace ++ [Effect.sim (simCallOf sqrt tx rx)] }

/-- The loop `for (auto &targetName : tx.links)`. -/
def linkLoop (sqrt : D → D) (tx : NodeConfig D) : List String → SimState D → SimState D
  | [], s => s
  | targetName :: rest, s => linkLoop sqrt tx rest (linkStep sqrt tx targetName s)

/-- The loop `for (auto &tx : nodes)` over the remaining nodes. -/
def nodeLoop (sqrt : D → D) : List (NodeConfig D) → SimState D → SimState D
  | [], s => s
  | tx :: rest, s => nodeLoop sqrt rest (linkLoop sqrt tx tx.links s)

/-- Step 2 of `startSimulation`: simulate each link. -/
def linkPass (sqrt : D → D) (s : SimState D) : SimState D :=
  nodeLoop sqrt s.nodes s

/-- The simulator calls among the effects, in order. -/
def simCalls : List (Effect D) → List (SimCall D)
  | [] => []
  | Effect.sim c :: rest => c :: simCalls rest
  | Effect.warn _ :: rest => simCalls rest

/-- The warnings among the effects, in order. -/
def warnings : List (Effect D) → List String
  | [] => []
  | Effect.sim _ :: rest => warnings rest
  | Effect.warn t :: rest => t :: warnings rest

/-- The enumeration in the words of the specification: for each node `tx` in
parse order and each entry of `tx.links` in declaration order that names an
existing node `rx`, one invocation with the distance between the positions,
the frequency and power of `tx`, and the effective rate. -/
def expectedCalls (sqrt : D → D) (nodes : List (NodeConfig D)) : List (SimCall D) :=
  nodes.flatMap (fun tx =>
    tx.links.filterMap (fun target =>
      (nodes.find? (fun n => decide (n.name = target))).map (fun rx =>
        { distance := distanceBetween sqrt ⟨tx.x, tx.y, tx.z⟩ ⟨rx.x, rx.y, rx.z⟩,
          freqMHz := tx.freqMHz, txPowerdBm := tx.txPowerBm,
          rate := effectiveRate tx.txRate rx.rxRate })))

/-- The effect of one link entry. -/
def effectOf (sqrt : D → D) (nodes : List (NodeConfig D)) (tx : NodeConfig D)
    (target : String) : Effect D :=
  match findNode nodes target with
  | none => Effect.warn target
  | some rx => Effect.sim (simCallOf sqrt tx rx)

/-- All effects of the pass over a node list, in order. -/
def passEffects (sqrt : D → D) (nodes : List (NodeConfig D)) : List (Effect D) :=
  nodes.flatMap (fun tx => tx.links.map (effectOf sqrt nodes tx))

/-- Two records that agree on everything but the link list. -/
def SameButLinks (a b : NodeConfig D) : Prop :=
  a.name = b.name ∧ a.type = b.type ∧ a.x = b.x ∧ a.y = b.y ∧ a.z = b.z ∧
    a.freqMHz = b.freqMHz ∧ a.txPowerBm = b.txPowerBm ∧ a.txRate = b.txRate ∧
    a.rxRate = b.rxRate

end LinkPass

/-! ## Concrete graphs for the worked examples -/

/-- The three-node scenario: A(0,0,0), B(3,4,0), C(3,4,5). -/
def nodesABC (D : Type) [LinearOrderedCommRing D] : NodeMap D :=
  [("A", ⟨0, 0, 0⟩), ("B", ⟨3, 4, 0⟩), ("C", ⟨3, 4, 5⟩)]

/-- The three-node scenario: A → B, B → C. -/
def adjABC : AdjMap :=
  [("A", ["B"]), ("B", ["C"])]

/-- Six nodes on a line: S at 0, A at -2, U at 2, G at 3, V at 4, X at 6. -/
def lineNodes : NodeMap ℤ :=
  [("S", ⟨0, 0, 0⟩), ("A", ⟨-2, 0, 0⟩), ("U", ⟨2, 0, 0⟩), ("G", ⟨3, 0, 0⟩),
    ("V", ⟨4, 0, 0⟩), ("X", ⟨6, 0, 0⟩)]

/-- Links S → A, U; A → V, G, X; U → V; V → G. -/
def lineAdj : AdjMap :=
  [("S", ["A", "U"]), ("A", ["V", "G", "X"]), ("U", ["V"]), ("V", ["G"])]

/-- Three nodes on a line, the middle one stored under the empty name. -/
def blankNodes (D : Type) [LinearOrderedCommRing D] : NodeMap D :=
  [("S", ⟨0, 0, 0⟩), ("", ⟨1, 0, 0⟩), ("G", ⟨2, 0, 0⟩)]

/-- Links S → "" and "" → G. -/
def blankAdj : AdjMap :=
  [("S", [""]), ("", ["G"])]

/-- A single node A at the origin. -/
def loneNodes (D : Type) [LinearOrderedCommRing D] : NodeMap D :=
  [("A", ⟨0, 0, 0⟩)]

/-- A node map that has B but not A. -/
def onlyBNodes (D : Type) [LinearOrderedCommRing D] : NodeMap D :=
  [("B", ⟨1, 0, 0⟩)]

/-- A link list declared for A, which has no position. -/
def onlyBAdj : AdjMap :=
  [("A", ["B"])]

/-- A node that links to the unknown name Ghost and then to B. -/
def ghostA : NodeConfig ℤ :=
  { name := "A", type := "Gateway", x := 0, y := 0, z := 0, freqMHz := 2100, txPowerBm := 33,
    txRate := "6Mbps", rxRate := "6Mbps", links := ["Ghost", "B"] }

/-- A node that links back to A. -/
def ghostB : NodeConfig ℤ :=
  { name := "B", type := "gNB", x := 3, y := 4, z := 0, freqMHz := 2100, txPowerBm := 33,
    txRate := "54Mbps", rxRate := "54Mbps", links := ["A"] }

/-! ## Text handling of the configuration parsers

Lines are the strings delivered by `getline`. The C++ library's conversion
of text to `double` (`num_get` behind `operator>>`, `strtod` behind `stod`)
is a parameter `readNum`: applied to a text that starts with a number it
gives the value and the text left over, and `none` otherwise. -/

/-- Result of code that may end in an uncaught `std::invalid_argument`. -/
inductive Parsed (α : Type) where
  | ok (a : α)
  | invalidArgument
  deriving DecidableEq, Repr

/-- The test `line.find(w) != string::npos`: the text `w` occurs in the line. -/
def hasSub (w : List Char) : List Char → Bool
  | [] => w.isPrefixOf []
  | c :: rest => w.isPrefixOf (c :: rest) || hasSub w rest

/-- The expression `line.substr(line.find(':') + 1)`: the text after the first
colon. Without a colon `npos + 1` wraps to 0 and the whole line is taken. -/
def afterColon (s : List Char) : List Char :=
  match s.dropWhile (fun c => c != ':') with
  | [] => s
  | _ :: rest => rest

/-- Membership in the character set `" \t\r\n\""` of the lambda `trim`. -/
def isTrimChar (c : Char) : Bool :=
  c == ' ' || c == '\t' || c == '\r' || c == '\n' || c == '"'

/-- The lambda `trim`: `s.erase(0, s.find_first_not_of(set))` followed by
`s.erase(s.find_last_not_of(set) + 1)`. -/
def trim (s : List Char) : List Char :=
  ((s.dropWhile isTrimChar).reverse.dropWhile isTrimChar).reverse

/-- The classification `isspace` of the C locale: space, tab, line feed,
vertical tab, form feed, carriage return. -/
def isSpace (c : Char) : Bool :=
  c == ' ' || c == '\t' || c == '\n' || c == Char.ofNat 11 || c == Char.ofNat 12 || c == '\r'

/-- The call `replace(s.begin(), s.end(), ',', ' ')`. -/
def commasToSpaces (s : List Char) : List Char :=
  s.map (fun c => if c == ',' then ' ' else c)

/-- The loop `while (ss >> name)` over the rest of a stream: each extraction
skips white space and reads up to the next white space; `cur` holds the
characters of the token being read, last one first. -/
def tokensFrom : List Char → List Char → List (List Char)
  | [], cur => if cur = [] then [] else [cur.reverse]
  | c :: rest, cur =>
    if isSpace c then
      (if cur = [] then tokensFrom rest [] else cur.reverse :: tokensFrom rest [])
    else tokensFrom rest (c :: cur)

/-- All strings that `while (ss >> name)` extracts from a `stringstream` over `s`. -/
def tokens (s : List Char) : List (List Char) :=
  tokensFrom s []

/-- The idiom `s.erase(remove(s.begin(), s.end(), '\"'), s.end())`. -/
def withoutQuotes (s : List Char) : List Char :=
  s.filter (fun c => c != '"')

/-- The idiom `s.erase(remove_if(s.begin(), s.end(), ::isspace), s.end())`. -/
def withoutSpaces (s : List Char) : List Char :=
  s.filter (fun c => !isSpace c)

section Numbers

variable {D : Type} [LinearOrderedCommRing D]

/-- One extraction `ss >> v` into a `double` that held `old`. The stream is
`none` once it has failed, else the text not yet read. A failed stream, or one
that ends while white space is skipped, leaves `v` as it was; text that starts
with no number stores zero and fails the stream. -/
def extractNum (readNum : List Char → Option (D × List Char)) (ss : Option (List Char))
    (old : D) : Option (List Char) × D :=
  match ss with
  | none => (none, old)
  | some text =>
    match text.dropWhile isSpace with
    | [] => (none, old)
    | c :: rest =>
      match readNum (c :: rest) with
      | none => (none, 0)
      | some (v, rest') => (some rest', v)

/-- The statement `ss >> x >> y >> z` on a fresh stream over `text`, the three
variables holding `x`, `y`, `z` before. -/
def extract3 (readNum : List Char → Option (D × List Char)) (text : List Char)
    (x y z : D) : D × D × D :=
  let r1 := extractNum readNum (some text) x
  let r2 := extractNum readNum r1.1 y
  let r3 := extractNum readNum r2.1 z
  (r1.2, r2.2, r3.2)

/-- The call `stod(s)`: leading white space is skipped, a leading number is
converted and what follows it is ignored; without one the call throws
`std::invalid_argument`. For a number beyond the range of `double` the call
throws `std::out_of_range`, which is not told apart here: `readNum` stands for
the conversion of numbers within the range. -/
def stod (readNum : List Char → Option (D × List Char)) (s : List Char) : Parsed D :=
  match readNum (s.dropWhile isSpace) with
  | none => Parsed.invalidArgument
  | some (v, _) => Parsed.ok v

end Numbers

/-- Digits of a whole number, `acc` being the value read so far. -/
def readDigits : List Char → Nat → Nat × List Char
  | [], acc => (acc, [])
  | c :: rest, acc =>
    if c.isDigit then readDigits rest (acc * 10 + (c.toNat - 48)) else (acc, c :: rest)

/-- A reader for texts whose numbers are whole: an optional minus sign and
decimal digits. It stands for the library conversion in the worked examples. -/
def readInt (s : List Char) : Option (ℤ × List Char) :=
  match s with
  | [] => none
  | c :: rest =>
    if c.isDigit then
      some (((readDigits (c :: rest) 0).1 : ℤ), (readDigits (c :: rest) 0).2)
    else if c == '-' then
      match rest with
      | [] => none
      | d :: _ =>
        if d.isDigit then some (-((readDigits rest 0).1 : ℤ), (readDigits rest 0).2) else none
    else none

/-! ## The parser of `startSimulation` -/

deriving instance DecidableEq for NodeConfig

deriving instance DecidableEq for SimCall

/-- The variables `nodes` and `current` of the parse loop. -/
structure SimParse (D : Type) where
  nodes : List (NodeConfig D)
  current : NodeConfig D

/-- The names a `Linked Nodes:` line adds to `current.links`: the text after the
colon is trimmed, commas become spaces, and each extracted token is trimmed
and kept when it is not empty. -/
def parseLinks (l : List Char) : List String :=
  (((tokens (commasToSpaces (trim (afterColon l)))).map trim).filter
    (fun t => decide (t ≠ []))).map String.mk

section SimParser

variable {D : Type} [LinearOrderedCommRing D]

/-- The value-initialised record `NodeConfig()`. -/
def blankConfig : NodeConfig D :=
  { name := "", type := "", x := 0, y := 0, z := 0, freqMHz := 0, txPowerBm := 0,
    txRate := "", rxRate := "", links := [] }

/-- Body of `while (getline(file, line))` in `startSimulation`. -/
def simLine (readNum : List Char → Option (D × List Char)) (st : SimParse D)
    (line : String) : Parsed (SimParse D) :=
  if hasSub "NODECONFIGHEADER".data line.data then
    Parsed.ok { nodes := if st.current.name = "" then st.nodes else st.nodes ++ [st.current],
                current := blankConfig }
  else if hasSub "Name:".data line.data then
    Parsed.ok { st with current := { st.current with name := String.mk (afterColon line.data) } }
  else if hasSub "Type:".data line.data then
    Parsed.ok { st with current := { st.current with type := String.mk (afterColon line.data) } }
  else if hasSub "Location:".data line.data then
    let p := extract3 readNum (commasToSpaces (afterColon line.data))
      st.current.x st.current.y st.current.z
    Parsed.ok { st with current := { st.current with x := p.1, y := p.2.1, z := p.2.2 } }
  else if hasSub "Transmission Frequency:".data line.data then
    match stod readNum (afterColon line.data) with
    | Parsed.ok v => Parsed.ok { st with current := { st.current with freqMHz := v } }
    | Parsed.invalidArgument => Parsed.invalidArgument
  else if hasSub "Transmission Power:".data line.data then
    match stod readNum (afterColon line.data) with
    | Parsed.ok v => Parsed.ok { st with current := { st.current with txPowerBm := v } }
    | Parsed.invalidArgument => Parsed.invalidArgument
  else if hasSub "Transmission Data Rate:".data line.data then
    Parsed.ok { st with current := { st.current with txRate := String.mk (afterColon line.data) } }
  else if hasSub "Receiver Data Rate:".data line.data then
    Parsed.ok { st with current := { st.current with rxRate := String.mk (afterColon line.data) } }
  else if hasSub "Linked Nodes:".data line.data then
    Parsed.ok { st with current :=
      { st.current with links := st.current.links ++ parseLinks line.data } }
  else Parsed.ok st

/-- The loop `while (getline(file, line))` of `startSimulation`. -/
def simLoop (readNum : List Char → Option (D × List Char)) :
    List String → SimParse D → Parsed (SimParse D)
  | [], st => Parsed.ok st
  | line :: rest, st =>
    match simLine readNum st line with
    | Parsed.ok st' => simLoop readNum rest st'
    | Parsed.invalidArgument => Parsed.invalidArgument

/-- Body of the loop under the comment "Clean whitespace/quotes". -/
def cleanConfig (n : NodeConfig D) : NodeConfig D :=
  { n with name := String.mk (trim n.name.data), type := String.mk (trim n.type.data),
           txRate := String.mk (trim n.txRate.data), rxRate := String.mk (trim n.rxRate.data) }

/-- The records in `nodes` after the statement
`if (!current.name.empty()) nodes.push_back(current)` that follows the loop. -/
def closeLast (st : SimParse D) : List (NodeConfig D) :=
  if st.current.name = "" then st.nodes else st.nodes ++ [st.current]

/-- The declaration `NodeConfig current;`: the strings and the vector are
empty, the numbers are not initialised; `uninit` supplies what they hold. -/
def firstConfig (uninit : NodeConfig D) : NodeConfig D :=
  { uninit with name := "", type := "", txRate := "", rxRate := "", links := [] }

/-- Step 1 of `startSimulation`: the node vector built from the lines of the
configuration file. -/
def parseNodes (readNum : List Char → Option (D × List Char)) (uninit : NodeConfig D)
    (lines : List String) : Parsed (List (NodeConfig D)) :=
  match simLoop readNum lines { nodes := [], current := firstConfig uninit } with
  | Parsed.ok st => Parsed.ok ((closeLast st).map cleanConfig)
  | Parsed.invalidArgument => Parsed.invalidArgument

end SimParser

/-! ## The parser of `startOptimalPathFinder` -/

/-- The assignment `m[k] = v` on a map kept as a list of bindings. -/
def assign {V : Type} : List (String × V) → String → V → List (String × V)
  | [], k, v => [(k, v)]
  | (k', v') :: rest, k, v => if k' = k then (k, v) :: rest else (k', v') :: assign rest k v

/-- The statement `adjacency[currentNode].push_back(node)`. -/
def pushBack (adjacency : AdjMap) (currentNode node : String) : AdjMap :=
  assign adjacency currentNode (((adjacency.lookup currentNode).getD []) ++ [node])

/-- The variables `nodes`, `adjacency` and `currentNode` of the parse loop. -/
structure PathParse (D : Type) where
  nodes : NodeMap D
  adjacency : AdjMap
  currentNode : String

/-- The value of `currentNode` after a `Name:` line: the text after the colon
with every double quote and then every white-space character taken out. -/
def pathName (l : List Char) : String :=
  String.mk (withoutSpaces (withoutQuotes (afterColon l)))

/-- The tokens a `Linked Nodes:` line gives the path finder: commas become
spaces, and the double quotes are taken out of each extracted token. -/
def pathLinks (l : List Char) : List String :=
  (tokens (commasToSpaces (afterColon l))).map (fun t => String.mk (withoutQuotes t))

section PathParser

variable {D : Type} [LinearOrderedCommRing D]

/-- The position `{x, y, z}` a `Location:` line stores. The locals
`double x, y, z;` are not initialised; `stale` supplies what they hold. -/
def pathPos (readNum : List Char → Option (D × List Char)) (stale : NodePosition D)
    (l : List Char) : NodePosition D :=
  let p := extract3 readNum (commasToSpaces (afterColon l)) stale.x stale.y stale.z
  { x := p.1, y := p.2.1, z := p.2.2 }

/-- Body of `while (getline(file, line))` in `startOptimalPathFinder`. -/
def pathLine (readNum : List Char → Option (D × List Char)) (stale : NodePosition D)
    (st : PathParse D) (line : String) : PathParse D :=
  if hasSub "Name:".data line.data then
    { st with currentNode := pathName line.data }
  else if hasSub "Location:".data line.data = true ∧ st.currentNode ≠ "" then
    { st with nodes := assign st.nodes st.currentNode (pathPos readNum stale line.data) }
  else if hasSub "Linked Nodes:".data line.data = true ∧ st.currentNode ≠ "" then
    { st with adjacency :=
        (List.foldl (fun adj node => pushBack adj st.currentNode node) st.adjacency
          (pathLinks line.data)) }
  else st

/-- The loop `while (getline(file, line))` of `startOptimalPathFinder`. -/
def pathLoop (readNum : List Char → Option (D × List Char)) (stale : NodePosition D) :
    List String → PathParse D → PathParse D
  | [], st => st
  | line :: rest, st => pathLoop readNum stale rest (pathLine readNum stale st line)

/-- The maps `nodes` and `adjacency` that `startOptimalPathFinder` passes to
`findOptimalPath`. -/
def parseGraph (readNum : List Char → Option (D × List Char)) (stale : NodePosition D)
    (lines : List String) : NodeMap D × AdjMap :=
  let st := pathLoop readNum stale lines { nodes := [], adjacency := [], currentNode := "" }
  (st.nodes, st.adjacency)

end PathParser

/-- Links with a self-link and a cycle: A → A, B; B → A, C. -/
def loopAdj : AdjMap :=
  [("A", ["A", "B"]), ("B", ["A", "C"])]

/-- A transmitter A that links to B. -/
def dupA : NodeConfig ℤ :=
  { name := "A", type := "", x := 0, y := 0, z := 0, freqMHz := 0, txPowerBm := 0,
    txRate := "6Mbps", rxRate := "", links := ["B"] }

/-- The earlier record named B. -/
def dupB1 : NodeConfig ℤ :=
  { name := "B", type := "", x := 3, y := 4, z := 0, freqMHz := 0, txPowerBm := 0,
    txRate := "", rxRate := "54Mbps", links := [] }

/-- The later record named B. -/
def dupB2 : NodeConfig ℤ :=
  { name := "B", type := "", x := 0, y := 0, z := 10, freqMHz := 0, txPowerBm := 0,
    txRate := "", rxRate := "1Mbps", links := [] }

/-- A transmitter A and two records named B, in block order. -/
def dupNodes : List (NodeConfig ℤ) :=
  [dupA, dupB1, dupB2]

/-- A configuration text whose second and third block carry the same name. -/
def dupLines : List String :=
  ["NODECONFIGHEADER", "Name: \"A\"", "Location: 0, 0, 0", "Transmission Data Rate: \"6Mbps\"",
    "Linked Nodes: \"B\"",
    "NODECONFIGHEADER", "Name: \"B\"", "Location: 3, 4, 0", "Receiver Data Rate: \"54Mbps\"",
    "NODECONFIGHEADER", "Name: \"B\"", "Location: 0, 0, 10", "Receiver Data Rate: \"1Mbps\""]

/-- A line that `startOptimalPathFinder` passes over: it contains none of the
three labels the loop tests. -/
def pathIgnores (line : String) : Prop :=
  hasSub "Name:".data line.data = false ∧ hasSub "Location:".data line.data = false ∧
    hasSub "Linked Nodes:".data line.data = false

instance decPathIgnores (line : String) : Decidable (pathIgnores line) :=
  inferInstanceAs (Decidable (_ ∧ _ ∧ _))

/-- A line that `startSimulation` passes over: it contains none of the nine
labels the loop tests. -/
def simIgnores (line : String) : Prop :=
  hasSub "NODECONFIGHEADER".data line.data = false ∧ hasSub "Name:".data line.data = false ∧
    hasSub "Type:".data line.data = false ∧ hasSub "Location:".data line.data = false ∧
    hasSub "Transmission Frequency:".data line.data = false ∧
    hasSub "Transmission Power:".data line.data = false ∧
    hasSub "Transmission Data Rate:".data line.data = false ∧
    hasSub "Receiver Data Rate:".data line.data = false ∧
    hasSub "Linked Nodes:".data line.data = false

instance decSimIgnores (line : String) : Decidable (simIgnores line) :=
  inferInstanceAs (Decidable (_ ∧ _ ∧ _ ∧ _ ∧ _ ∧ _ ∧ _ ∧ _ ∧ _))

/-- One block with the labels in the spelling of the source. -/
def properCaseLines : List String :=
  ["NODECONFIGHEADER", "Name: \"A\"", "Location: 1, 2, 3", "Linked Nodes: \"B\""]

/-- The same block with the labels in other letter case. -/
def otherCaseLines : List String :=
  ["nodeconfigheader", "name: \"A\"", "LOCATION: 1, 2, 3", "linked nodes: \"B\""]

/-- A block whose name has a space inside and whose link list starts with a
quoted empty token. -/
def spacedNameLines : List String :=
  ["NODECONFIGHEADER", "Name: \"Base Station\"", "Location: 1, 2, 3",
    "Linked Nodes: \"\", \"B\""]

/-- A block whose location line holds two numbers. -/
def shortLocationLines : List String :=
  ["NODECONFIGHEADER", "Name: \"A\"", "Location: 1, 2"]

/-- A block whose location line holds no number. -/
def wordLocationLines : List String :=
  ["NODECONFIGHEADER", "Name: \"A\"", "Location: abc"]

/-- A block with a second location line that holds one number and a word. -/
def staleLocationLines : List String :=
  ["NODECONFIGHEADER", "Name: \"A\"", "Location: 5, 6, 7", "Location: 1, north"]

/-! ## Writing a link list -/

/-- A name between two double quotes. -/
def quoted (n : String) : List Char :=
  '"' :: (n.data ++ ['"'])

/-- The line in the words of the specification: `Linked Nodes: ` followed by
the names, each wrapped in double quotes and separated by `, `. -/
def writeLinks (names : List String) : String :=
  String.mk ("Linked Nodes: ".data ++
    match names with
    | [] => []
    | n :: ns => quoted n ++ ns.flatMap (fun m => ',' :: ' ' :: quoted m))

/-- A character that is neither white space nor a comma nor a double quote. -/
def isNameChar (c : Char) : Bool :=
  !isSpace c && c != ',' && c != '"'

/-- A name as the round trip takes it: not empty and free of white space,
commas and double quotes. -/
def linkName (n : String) : Prop :=
  n.data ≠ [] ∧ ∀ c ∈ n.data, isNameChar c = true

instance decLinkName (n : String) : Decidable (linkName n) :=
  inferInstanceAs (Decidable (_ ∧ _))

/-- The text `a`, then for each name a closing quote, `sep`, an opening quote
and the name: what stands between the first and the last quote of a written
link list when `a` is the first name. -/
def linkText (sep : List Char) (a : List Char) : List String → List Char
  | [] => a
  | m :: ms => a ++ '"' :: (sep ++ linkText sep ('"' :: m.data) ms)

/-- A space does not follow the letter n or r. -/
def spaceRule (a b : Char) : Prop :=
  b = ' ' → a ≠ 'n' ∧ a ≠ 'r'

instance decSpaceRule (a b : Char) : Decidable (spaceRule a b) :=
  inferInstanceAs (Decidable (_ → _))

/-- The text `t` starts with no white space and is converted to `v` by
`readNum` when white space or the end of the text follows it. -/
def ReadsAs {D : Type} (readNum : List Char → Option (D × List Char)) (t : List Char)
    (v : D) : Prop :=
  (∃ c r, t = c :: r ∧ isSpace c = false) ∧
    ∀ rest : List Char, (∀ c, rest.head? = some c → isSpace c = true) →
      readNum (t ++ rest) = some (v, rest)

/-- Three nodes of which A and B share a position: S(0,0,0), A(1,0,0), B(1,0,0). -/
def sharedNodes (D : Type) [LinearOrderedCommRing D] : NodeMap D :=
  [("S", ⟨0, 0, 0⟩), ("A", ⟨1, 0, 0⟩), ("B", ⟨1, 0, 0⟩)]

/-- Links S → A and, with length zero, A → B and B → A. -/
def sharedAdj : AdjMap :=
  [("S", ["A"]), ("A", ["B"]), ("B", ["A"])]

/-! ## The search in the arithmetic of `double`

A second embedding of `findOptimalPath` in which the arithmetic is not exact.
`F` stands for the values of `double`, in their order, with the two zeros
taken as one value and NaN as one value above infinity. The comparisons of the
code, `alt < dist[v]`, `dist[a] > dist[b]` and `dist[goal] == infinity`, have a
tentative distance on every side but the left one of the first, and a
tentative distance is never above infinity (`Fp.Inv.le_inf`); on such values,
with or without NaN on the left of `<`, the comparisons of `double` are those
of the order of `F`. The operations are parameters; the theorems assume of
them only the laws `Fp.Laws`. -/

/-- The operations on `double` that `findOptimalPath` and its caller use:
`+`, `-`, `*`, `sqrt`, `pow(x, 2)`, and the constant infinity. -/
structure Arith (F : Type) where
  add : F → F → F
  sub : F → F → F
  mul : F → F → F
  sqrt : F → F
  sq : F → F
  inf : F

namespace Fp

/-- The map `dist`; `none` is an absent key. -/
abbrev DistMap (F : Type) := String → Option F

/-- Local state of `findOptimalPath`. -/
structure SearchState (F : Type) where
  dist : DistMap F
  prev : PrevMap
  pq : List String

section Defs

variable {F : Type} [LinearOrder F] [Zero F]

/-- Function `distanceBetween`, each operation rounding as `double` does. -/
def distanceBetween (A : Arith F) (a b : NodePosition F) : F :=
  let dx := A.sub a.x b.x
  let dy := A.sub a.y b.y
  let dz := A.sub a.z b.z
  A.sqrt (A.add (A.add (A.mul dx dx) (A.mul dy dy)) (A.mul dz dz))

/-- Read access `dist[k]`: `operator[]` value-initialises an absent key to 0.0. -/
def distAt (dist : DistMap F) (k : String) : F :=
  (dist k).getD 0

/-- The lambda `cmp` of `findOptimalPath`: `dist[a] > dist[b]`. -/
def cmp (dist : DistMap F) (a b : String) : Bool :=
  decide (distAt dist b < distAt dist a)

/-- The loop `for (auto& n : nodes) dist[n.first] = infinity`. -/
def initInfinity (A : Arith F) (nodes : NodeMap F) : DistMap F :=
  nodes.foldl (fun d n => mapSet d n.1 A.inf) (fun _ => none)

/-- State on entry to the main loop. -/
def initState (A : Arith F) (nodes : NodeMap F) (start : String) : SearchState F :=
  let dist := mapSet (initInfinity A nodes) start 0
  { dist := dist, prev := fun _ => none, pq := pqPush (cmp dist) [] start }

/-- One pass of the body of `for (const string& v : adjacency.at(u))`. -/
def relaxStep (A : Arith F) (nodes : NodeMap F) (u v : String)
    (st : SearchState F) : Outcome (SearchState F) :=
  match nodes.lookup v with
  | none => .done st
  | some pv =>
    match nodes.lookup u with
    | none => .outOfRange
    | some pu =>
      let alt : F := A.add (distAt st.dist u) (distanceBetween A pu pv)
      if alt < distAt st.dist v then
        let dist := mapSet st.dist v alt
        .done { dist := dist, prev := mapSet st.prev v u, pq := pqPush (cmp dist) st.pq v }
      else
        .done st

/-- The loop `for (const string& v : adjacency.at(u))`. -/
def relax (A : Arith F) (nodes : NodeMap F) (u : String) :
    List String → SearchState F → Outcome (SearchState F)
  | [], st => .done st
  | v :: vs, st =>
    match relaxStep A nodes u v st with
    | .done st1 => relax A nodes u vs st1
    | .outOfRange => .outOfRange
    | .timeout => .timeout

/-- The loop `while (!pq.empty())`, at most `fuel` iterations. -/
def searchLoop (A : Arith F) (nodes : NodeMap F) (adjacency : AdjMap) (goal : String) :
    Nat → SearchState F → Outcome (SearchState F)
  | fuel, st =>
    match st.pq with
    | [] => .done st
    | u :: _ =>
      match fuel with
      | 0 => .timeout
      | fuel + 1 =>
        let st1 : SearchState F := { st with pq := pqPop (cmp st.dist) st.pq }
        if u = goal then .done st1
        else
          match adjacency.lookup u with
          | none => searchLoop A nodes adjacency goal fuel st1
          | some links =>
            match relax A nodes u links st1 with
            | .done st2 => searchLoop A nodes adjacency goal fuel st2
            | .outOfRange => .outOfRange
            | .timeout => .timeout

/-- Function `findOptimalPath`; `fuel` bounds the iterations of each loop. -/
def findOptimalPath (A : Arith F) (fuel : Nat) (nodes : NodeMap F) (adjacency : AdjMap)
    (start goal : String) : Outcome (List String) :=
  match searchLoop A nodes adjacency goal fuel (initState A nodes start) with
  | .done st =>
    if distAt st.dist goal = A.inf then .done []
    else
      match walkBack st.prev fuel goal [] with
      | .done path => .done path.reverse
      | .outOfRange => .outOfRange
      | .timeout => .timeout
  | .outOfRange => .outOfRange
  | .timeout => .timeout

/-- Read access `nodes[k]` of the caller: an absent key is value-initialised. -/
def posAt (nodes : NodeMap F) (k : String) : NodePosition F :=
  (nodes.lookup k).getD ⟨0, 0, 0⟩

/-- The term `sqrt(pow(dx, 2) + pow(dy, 2) + pow(dz, 2))` of the caller. -/
def callerDist (A : Arith F) (a b : NodePosition F) : F :=
  A.sqrt (A.add (A.add (A.sq (A.sub a.x b.x)) (A.sq (A.sub a.y b.y))) (A.sq (A.sub a.z b.z)))

/-- The loop of `startOptimalPathFinder` that sums `totalDist` over the path. -/
def totalDistLoop (A : Arith F) (nodes : NodeMap F) : F → List String → F
  | acc, a :: b :: rest =>
    totalDistLoop A nodes (A.add acc (callerDist A (posAt nodes a) (posAt nodes b))) (b :: rest)
  | acc, _ => acc

/-- The value of `totalDist` the caller prints for a path. -/
def totalDist (A : Arith F) (nodes : NodeMap F) (path : List String) : F :=
  totalDistLoop A nodes 0 path

/-- The test `nodes.find(k) != nodes.end()`: the name has a position record. -/
def hasPos (nodes : NodeMap F) (k : String) : Prop :=
  (nodes.lookup k).isSome = true

instance decHasPos (nodes : NodeMap F) (k : String) : Decidable (hasPos nodes k) :=
  inferInstanceAs (Decidable ((nodes.lookup k).isSome = true))

/-- Computed length of the link from `u` to `v`. -/
def edgeLen (A : Arith F) (nodes : NodeMap F) (u v : String) : F :=
  distanceBetween A (posAt nodes u) (posAt nodes v)

/-- A chain of declared links through nodes with positions. -/
def IsRoute (nodes : NodeMap F) (adjacency : AdjMap) (p : List String) : Prop :=
  (∀ x ∈ p, hasPos nodes x) ∧ p.Chain' (fun a b => b ∈ linksOf adjacency a)

/-- Some chain of declared links through nodes with positions leads from
`start` to `goal`. -/
def Reachable (nodes : NodeMap F) (adjacency : AdjMap) (start goal : String) : Prop :=
  ∃ p, IsRoute nodes adjacency p ∧ p.head? = some start ∧ p.getLast? = some goal

/-- Computed length of a path listed backwards (last node first): the link
lengths added one after the other from the far end on, as `alt` adds them. -/
def revLen (A : Arith F) (nodes : NodeMap F) : List String → F
  | v :: u :: rest => A.add (revLen A nodes (u :: rest)) (edgeLen A nodes u v)
  | _ => 0

/-- Computed length of a route: the link lengths added in order from its
first node on. -/
def routeLen (A : Arith F) (nodes : NodeMap F) (r : List String) : F :=
  revLen A nodes r.reverse

/-- The candidate `alt = dist[u] + distanceBetween(nodes.at(u), nodes.at(v))`. -/
def altDist (A : Arith F) (nodes : NodeMap F) (dist : DistMap F) (u v : String) : F :=
  A.add (distAt dist u) (edgeLen A nodes u v)

/-- The state after a successful test `alt < dist[v]`. -/
def improve (st : SearchState F) (u v : String) (alt : F) : SearchState F :=
  { dist := mapSet st.dist v alt, prev := mapSet st.prev v u,
    pq := pqPush (cmp (mapSet st.dist v alt)) st.pq v }

/-- A backward path from `v` to `start` along declared links through
positioned nodes whose computed length is at most `bound`. -/
def BackRoute (A : Arith F) (nodes : NodeMap F) (adjacency : AdjMap) (start v : String)
    (bound : F) (P : List String) : Prop :=
  P.head? = some v ∧ P.getLast? = some start ∧ (∀ x ∈ P, hasPos nodes x) ∧
    P.Chain' (fun b a => b ∈ linksOf adjacency a) ∧ revLen A nodes P ≤ bound

/-- What holds of the state of `findOptimalPath` between any two statements
of the main loop. -/
structure Inv (A : Arith F) (nodes : NodeMap F) (adjacency : AdjMap) (start : String)
    (st : SearchState F) : Prop where
  start_zero : distAt st.dist start = 0
  nonneg : ∀ k, 0 ≤ distAt st.dist k
  le_inf : ∀ k, distAt st.dist k ≤ A.inf
  queued : ∀ k ∈ st.pq, hasPos nodes k ∧ distAt st.dist k < A.inf
  prev_edge : ∀ v u, st.prev v = some u →
    hasPos nodes u ∧ hasPos nodes v ∧ v ∈ linksOf adjacency u ∧
      altDist A nodes st.dist u v ≤ distAt st.dist v ∧ distAt st.dist v < A.inf
  prev_start : st.prev start = none
  chain : ∀ v, hasPos nodes v → distAt st.dist v < A.inf →
    ∃ C, PrevChain st.prev start (v :: C)
  route : ∀ v, hasPos nodes v → distAt st.dist v < A.inf →
    ∃ P, BackRoute A nodes adjacency start v (distAt st.dist v) P

/-- Every positioned name with a finite tentative distance that is neither
queued nor the goal has offered its candidate to all its positioned links. -/
def Closed (A : Arith F) (nodes : NodeMap F) (adjacency : AdjMap) (goal : String)
    (st : SearchState F) : Prop :=
  ∀ u, hasPos nodes u → distAt st.dist u < A.inf → u ∉ st.pq → u ≠ goal →
    ∀ v ∈ linksOf adjacency u, hasPos nodes v →
      distAt st.dist v ≤ altDist A nodes st.dist u v

/-- Bound on the number of iterations of the main loop still to come: the
ranks of the tentative distances of the nodes, and the length of the queue. -/
def potential (rank : F → Nat) (nodes : NodeMap F) (st : SearchState F) : Nat :=
  ((nodes.map Prod.fst).map (fun k => rank (distAt st.dist k))).sum + st.pq.length

/-- How the state can change in the course of the main loop: distances only
drop, queued names stay queued, a name whose distance dropped is queued, and
the bound on the iterations to come does not grow. -/
structure Advances (rank : F → Nat) (nodes : NodeMap F) (st st' : SearchState F) : Prop where
  le : ∀ k, distAt st'.dist k ≤ distAt st.dist k
  sub : ∀ k ∈ st.pq, k ∈ st'.pq
  fresh : ∀ k, distAt st'.dist k < distAt st.dist k → k ∈ st'.pq
  pot : potential rank nodes st' ≤ potential rank nodes st

/-- The goal is recorded as reached straight from start. -/
def DirectKept (A : Arith F) (nodes : NodeMap F) (start goal : String)
    (st : SearchState F) : Prop :=
  st.prev goal = some start ∧ distAt st.dist goal = edgeLen A nodes start goal

/-- The laws of the arithmetic of `double` that the proofs use, for values
that are not negative: a square root is not negative, a sum is not below its
first term and grows with it, zero plus a value is that value, infinity is
above zero, and the values can be counted in their order (`rank`; there are
finitely many values of `double`). -/
structure Laws (A : Arith F) (rank : F → Nat) : Prop where
  sqrt_nonneg : ∀ x, 0 ≤ A.sqrt x
  add_le : ∀ a b, 0 ≤ a → 0 ≤ b → a ≤ A.add a b
  add_mono : ∀ a a' b, 0 ≤ a → a ≤ a' → 0 ≤ b → A.add a b ≤ A.add a' b
  zero_add : ∀ b, 0 ≤ b → A.add 0 b = b
  inf_pos : 0 < A.inf
  rank_lt : ∀ a b, 0 ≤ a → a < b → rank a < rank b

end Defs

end Fp

/-- Whole numbers with exact operations and the whole-number square root, for
the worked examples: a model of the laws in which nothing is rounded. -/
def intArith : Arith ℤ :=
  { add := fun a b => a + b, sub := fun a b => a - b, mul := fun a b => a * b,
    sqrt := intSqrt, sq := fun a => a * a, inf := 1000000 }

/-- A single declared link, from A to B. -/
def oneLinkAdj : AdjMap :=
  [("A", ["B"])]

/-! # Theorems -/

set_option linter.unusedSectionVars false

/-! ## The heap operations keep the stored names -/

/-- Overwriting slot `i` with `a` trades one occurrence of the old entry for one of `a`. -/
theorem count_set_add (l : List String) (i : Nat) (h : i < l.length) (a x : String) :
    (l.set i a).count x + (if l.getD i "" = x then 1 else 0)
      = l.count x + (if a = x then 1 else 0) := by
  induction l generalizing i with
  | nil => simp at h
  | cons b l ih =>
    cases i with
    | zero =>
      simp only [List.set_cons_zero, List.count_cons, List.getD_cons_zero, beq_iff_eq]
      omega
    | succ i =>
      have h' : i < l.length := by simpa using h
      have := ih i h'
      simp only [List.set_cons_succ, List.count_cons, List.getD_cons_succ, beq_iff_eq]
      omega

theorem getD_set_ne (l : List String) (i j : Nat) (a : String) (h : i ≠ j) :
    (l.set i a).getD j "" = l.getD j "" := by
  simp [List.getD_eq_getElem?_getD, List.getElem?_set, h]

theorem getD_set_self (l : List String) (i : Nat) (a : String) (h : i < l.length) :
    (l.set i a).getD i "" = a := by
  simp [List.getD_eq_getElem?_getD, List.getElem?_set, h]

/-- Moving the hole from `i` to `j` (slot `i` receives the entry of `j`) does
not change the multiset obtained by filling the hole with `value`. -/
theorem hole_move_perm (c : List String) (i j : Nat) (value : String)
    (hi : i < c.length) (hj : j < c.length) (hij : i ≠ j) :
    ((c.set i (c.getD j "")).set j value).Perm (c.set i value) := by
  rw [List.perm_iff_count]
  intro x
  have h1 := count_set_add (c.set i (c.getD j "")) j (by simpa using hj) value x
  have h2 := count_set_add c i hi (c.getD j "") x
  have h3 := count_set_add c i hi value x
  rw [getD_set_ne c i j _ hij] at h1
  omega

/-- The loop of `std::__push_heap` permutes the vector with the value put in
the hole, and leaves the slots above the hole alone. -/
theorem pushHeapLoop_spec (lt : String → String → Bool) (value : String) :
    ∀ (fuel : Nat) (c : List String) (hole : Nat), hole < c.length →
      (pushHeapLoop lt value fuel c hole).Perm (c.set hole value) ∧
      ∀ k, hole < k → (pushHeapLoop lt value fuel c hole).getD k "" = c.getD k "" := by
  intro fuel
  induction fuel with
  | zero =>
    intro c hole _
    refine ⟨List.Perm.refl _, fun k hk => ?_⟩
    simp only [pushHeapLoop]
    exact getD_set_ne c hole k value (by omega)
  | succ fuel ih =>
    intro c hole hlt
    simp only [pushHeapLoop]
    split
    · rename_i hc
      have hp : (hole - 1) / 2 < hole := by omega
      have hlen : (hole - 1) / 2 < (c.set hole (c.getD ((hole - 1) / 2) "")).length := by
        simp; omega
      obtain ⟨h1, h2⟩ := ih (c.set hole (c.getD ((hole - 1) / 2) "")) ((hole - 1) / 2) hlen
      refine ⟨h1.trans (hole_move_perm c hole _ value hlt (by omega) (by omega)), ?_⟩
      intro k hk
      rw [h2 k (by omega)]
      exact getD_set_ne c hole k _ (by omega)
    · refine ⟨List.Perm.refl _, fun k hk => ?_⟩
      exact getD_set_ne c hole k value (by omega)

/-- The descent loop of `std::__adjust_heap` keeps the multiset of the vector
with the hole filled, stays below `len`, and leaves the slots from `len` on alone. -/
theorem adjustHeapLoop_spec (lt : String → String → Bool) (len : Nat) (value : String) :
    ∀ (fuel : Nat) (c : List String) (hole : Nat), hole < len → len ≤ c.length →
      ((adjustHeapLoop lt len fuel c hole).1.set (adjustHeapLoop lt len fuel c hole).2 value).Perm
          (c.set hole value) ∧
      (adjustHeapLoop lt len fuel c hole).2 < len ∧
      (adjustHeapLoop lt len fuel c hole).1.length = c.length ∧
      ∀ k, len ≤ k → (adjustHeapLoop lt len fuel c hole).1.getD k "" = c.getD k "" := by
  intro fuel
  induction fuel with
  | zero =>
    intro c hole h1 _
    exact ⟨List.Perm.refl _, h1, rfl, fun _ _ => rfl⟩
  | succ fuel ih =>
    intro c hole h1 h2
    simp only [adjustHeapLoop]
    split
    · rename_i hc
      split
      · have hch : 2 * (hole + 1) - 1 < len := by omega
        obtain ⟨p1, p2, p3, p4⟩ := ih (c.set hole (c.getD (2 * (hole + 1) - 1) ""))
          (2 * (hole + 1) - 1) hch (by simpa using h2)
        refine ⟨p1.trans (hole_move_perm c hole _ value (by omega) (by omega) (by omega)),
          p2, by simpa using p3, ?_⟩
        intro k hk
        rw [p4 k hk]
        exact getD_set_ne c hole k _ (by omega)
      · have hch : 2 * (hole + 1) < len := by omega
        obtain ⟨p1, p2, p3, p4⟩ := ih (c.set hole (c.getD (2 * (hole + 1)) ""))
          (2 * (hole + 1)) hch (by simpa using h2)
        refine ⟨p1.trans (hole_move_perm c hole _ value (by omega) (by omega) (by omega)),
          p2, by simpa using p3, ?_⟩
        intro k hk
        rw [p4 k hk]
        exact getD_set_ne c hole k _ (by omega)
    · exact ⟨List.Perm.refl _, h1, rfl, fun _ _ => rfl⟩

/-- `std::__adjust_heap` permutes the vector with the value put at slot 0 and
leaves the slots from `len` on alone. -/
theorem adjustHeap_spec (lt : String → String → Bool) (c : List String) (len : Nat)
    (value : String) (h0 : 0 < len) (hlen : len ≤ c.length) :
    (adjustHeap lt c len value).Perm (c.set 0 value) ∧
      ∀ k, len ≤ k → (adjustHeap lt c len value).getD k "" = c.getD k "" := by
  obtain ⟨p1, p2, p3, p4⟩ := adjustHeapLoop_spec lt len value len c 0 h0 hlen
  simp only [adjustHeap]
  split
  · rename_i hc
    set r := adjustHeapLoop lt len len c 0 with hr
    have hch : 2 * (r.2 + 1) - 1 < len := by omega
    have hl : 2 * (r.2 + 1) - 1 < (r.1.set r.2 (r.1.getD (2 * (r.2 + 1) - 1) "")).length := by
      simp; omega
    obtain ⟨q1, q2⟩ := pushHeapLoop_spec lt value (2 * (r.2 + 1) - 1)
      (r.1.set r.2 (r.1.getD (2 * (r.2 + 1) - 1) "")) (2 * (r.2 + 1) - 1) hl
    refine ⟨(q1.trans (hole_move_perm r.1 r.2 _ value (by omega) (by omega) (by omega))).trans p1,
      ?_⟩
    intro k hk
    rw [q2 k (by omega), getD_set_ne r.1 r.2 k _ (by omega), p4 k hk]
  · set r := adjustHeapLoop lt len len c 0 with hr
    obtain ⟨q1, q2⟩ := pushHeapLoop_spec lt value r.2 r.1 r.2 (by omega)
    exact ⟨q1.trans p1, fun k hk => by rw [q2 k (by omega), p4 k hk]⟩

/-- `priority_queue::push` adds exactly the pushed name. -/
theorem pqPush_perm (lt : String → String → Bool) (c : List String) (x : String) :
    (pqPush lt c x).Perm (x :: c) := by
  have hlen : (c ++ [x]).length - 1 = c.length := by simp
  have hv : (c ++ [x]).getD c.length "" = x := by
    simp [List.getD_eq_getElem?_getD]
  have hs : (c ++ [x]).set c.length x = c ++ [x] := by
    simp [List.set_append]
  obtain ⟨h1, _⟩ := pushHeapLoop_spec lt x c.length (c ++ [x]) c.length (by simp)
  simp only [pqPush, pushHeap, hlen, hv]
  rw [hs] at h1
  exact h1.trans (List.perm_append_singleton x c)

/-- `priority_queue::pop` removes exactly one copy of the top. -/
theorem pqPop_perm (lt : String → String → Bool) (u : String) (rest : List String) :
    (pqPop lt (u :: rest)).Perm rest := by
  simp only [pqPop, popHeap]
  split
  · rename_i hlen
    have hlen' : 0 < rest.length := by simpa using hlen
    set c := u :: rest with hc
    set last := c.length - 1 with hlast
    have hl1 : last < c.length := by simp [hlast, hc]
    have hl0 : 0 < last := by simp [hlast, hc]; omega
    obtain ⟨h1, h2⟩ := adjustHeap_spec lt (c.set last (c.getD 0 "")) last (c.getD last "")
      hl0 (by simp; omega)
    set r := adjustHeap lt (c.set last (c.getD 0 "")) last (c.getD last "") with hr
    have hperm : r.Perm c := by
      refine h1.trans ?_
      have := hole_move_perm c last 0 (c.getD last "") hl1 (by omega) (by omega)
      refine this.trans ?_
      rw [List.perm_iff_count]
      intro x
      have := count_set_add c last hl1 (c.getD last "") x
      omega
    have hrlen : r.length = c.length := hperm.length_eq
    have hrne : r ≠ [] := by
      intro h; rw [h] at hrlen; simp [hc] at hrlen
    have hget : r.getLast hrne = u := by
      have h3 := h2 last (le_refl _)
      rw [getD_set_self c last _ hl1] at h3
      rw [List.getLast_eq_getElem]
      have : r.length - 1 = last := by rw [hrlen]
      have h4 : r.getD last "" = r[last] := List.getD_eq_getElem _ _ (by omega)
      simp only [this]
      rw [← h4, h3]; simp [hc]
    have hsplit := List.dropLast_concat_getLast hrne
    rw [hget] at hsplit
    have : (r.dropLast ++ [u]).Perm (u :: rest) := by rw [hsplit]; exact hperm
    exact (List.perm_cons u).1 ((List.perm_append_singleton u r.dropLast).symm.trans this)
  · rename_i hlen
    have : rest = [] := by
      cases rest with
      | nil => rfl
      | cons a t => simp at hlen
    subst this
    simp

section Basics

variable {D : Type} [LinearOrderedCommRing D]

/-! ## Elementary facts about the maps and path lengths -/

theorem distAt_mapSet (dist : DistMap D) (v k : String) (a : WithTop D) :
    distAt (mapSet dist v a) k = if k = v then a else distAt dist k := by
  unfold distAt mapSet
  split <;> simp

theorem distAt_mapSet_le (dist : DistMap D) (v k : String) (a : WithTop D)
    (h : a ≤ distAt dist v) : distAt (mapSet dist v a) k ≤ distAt dist k := by
  rw [distAt_mapSet]
  split
  · rename_i hk; subst hk; exact h
  · exact le_refl _

theorem lookup_cons_self {V : Type} (k : String) (a : V) (t : List (String × V)) :
    List.lookup k ((k, a) :: t) = some a := by
  simp [List.lookup]

theorem lookup_cons_ne {V : Type} (k k' : String) (a : V) (t : List (String × V))
    (h : k ≠ k') : List.lookup k ((k', a) :: t) = List.lookup k t := by
  have : (k == k') = false := by simpa using h
  rw [List.lookup, this]

theorem foldl_infinity_apply (nodes : NodeMap D) (d0 : DistMap D) (k : String) :
    nodes.foldl (fun d n => mapSet d n.1 ⊤) d0 k
      = if (nodes.lookup k).isSome = true then some ⊤ else d0 k := by
  induction nodes generalizing d0 with
  | nil => simp
  | cons a t ih =>
    rw [List.foldl_cons, ih]
    obtain ⟨a1, a2⟩ := a
    by_cases hk : k = a1
    · subst hk
      rw [lookup_cons_self]
      simp [mapSet]
    · rw [lookup_cons_ne k a1 a2 t hk]
      simp [mapSet, hk]

theorem initInfinity_apply (nodes : NodeMap D) (k : String) :
    initInfinity nodes k = if (nodes.lookup k).isSome = true then some ⊤ else none :=
  foldl_infinity_apply nodes _ k

theorem hasPos_iff (nodes : NodeMap D) (k : String) :
    hasPos nodes k ↔ ∃ p, nodes.lookup k = some p := by
  unfold hasPos
  exact Option.isSome_iff_exists

theorem lookup_mem_keys (nodes : NodeMap D) (k : String) (p : NodePosition D)
    (hp : nodes.lookup k = some p) : k ∈ nodes.map Prod.fst := by
  induction nodes with
  | nil => simp at hp
  | cons a t ih =>
    obtain ⟨a1, a2⟩ := a
    by_cases hk : k = a1
    · subst hk; simp
    · rw [lookup_cons_ne k a1 a2 t hk] at hp
      simp only [List.map_cons, List.mem_cons]
      exact Or.inr (ih hp)

theorem hasPos_mem_keys (nodes : NodeMap D) (k : String) (h : hasPos nodes k) :
    k ∈ nodes.map Prod.fst := by
  obtain ⟨p, hp⟩ := (hasPos_iff nodes k).1 h
  exact lookup_mem_keys nodes k p hp

theorem posAt_of_lookup (nodes : NodeMap D) (k : String) (p : NodePosition D)
    (h : nodes.lookup k = some p) : posAt nodes k = p := by
  simp [posAt, h]

theorem edgeLen_nonneg (sqrt : D → D) (hs : ∀ x, 0 ≤ sqrt x) (nodes : NodeMap D)
    (u v : String) : 0 ≤ edgeLen sqrt nodes u v := by
  unfold edgeLen distanceBetween
  exact hs _

theorem revLen_cons_cons (sqrt : D → D) (nodes : NodeMap D) (v u : String)
    (rest : List String) :
    revLen sqrt nodes (v :: u :: rest) = revLen sqrt nodes (u :: rest) + edgeLen sqrt nodes u v :=
  rfl

theorem revLen_nonneg (sqrt : D → D) (hs : ∀ x, 0 ≤ sqrt x) (nodes : NodeMap D) :
    ∀ P : List String, 0 ≤ revLen sqrt nodes P
  | [] => le_refl _
  | [_] => le_refl _
  | v :: u :: rest => by
    rw [revLen_cons_cons]
    exact add_nonneg (revLen_nonneg sqrt hs nodes (u :: rest)) (edgeLen_nonneg sqrt hs nodes u v)

theorem revLen_le_cons (sqrt : D → D) (hs : ∀ x, 0 ≤ sqrt x) (nodes : NodeMap D)
    (x : String) (P : List String) : revLen sqrt nodes P ≤ revLen sqrt nodes (x :: P) := by
  cases P with
  | nil => exact revLen_nonneg sqrt hs nodes _
  | cons u rest =>
    rw [revLen_cons_cons]
    exact le_add_of_nonneg_right (edgeLen_nonneg sqrt hs nodes u x)

theorem revLen_suffix_le (sqrt : D → D) (hs : ∀ x, 0 ≤ sqrt x) (nodes : NodeMap D)
    (Q P : List String) (h : Q <:+ P) : revLen sqrt nodes Q ≤ revLen sqrt nodes P := by
  obtain ⟨t, rfl⟩ := h
  induction t with
  | nil => simp
  | cons x t ih => exact ih.trans (revLen_le_cons sqrt hs nodes x (t ++ Q))

theorem prevChain_cons_cons (prev : PrevMap) (start x y : String) (rest : List String) :
    PrevChain prev start (x :: y :: rest) ↔ prev x = some y ∧ PrevChain prev start (y :: rest) :=
  Iff.rfl

/-- Every list of at most `n` of the given names is among `listsUpTo`. -/
theorem mem_listsUpTo (keys : List String) :
    ∀ (n : Nat) (l : List String), l.length ≤ n → (∀ x ∈ l, x ∈ keys) → l ∈ listsUpTo keys n := by
  intro n
  induction n with
  | zero =>
    intro l hl _
    have : l = [] := List.length_eq_zero.1 (Nat.le_zero.1 hl)
    simp [this, listsUpTo]
  | succ n ih =>
    intro l hl hk
    cases l with
    | nil => simp [listsUpTo]
    | cons a t =>
      simp only [listsUpTo, List.mem_cons, List.mem_flatMap, List.mem_map]
      right
      refine ⟨a, hk a (by simp), t, ih t (by simpa using hl) (fun x hx => hk x (by simp [hx])), rfl⟩

/-- A repetition-free list of positioned names is a candidate path. -/
theorem nodup_mem_listsUpTo (nodes : NodeMap D) (P : List String) (hn : P.Nodup)
    (hp : ∀ x ∈ P, hasPos nodes x) :
    P ∈ listsUpTo (nodes.map Prod.fst) nodes.length := by
  have hsub : P ⊆ nodes.map Prod.fst := fun x hx => hasPos_mem_keys nodes x (hp x hx)
  have hlen : P.length ≤ nodes.length := by
    have := (List.subperm_of_subset hn hsub).length_le
    simpa using this
  exact mem_listsUpTo _ _ P hlen (fun x hx => hsub hx)

/-- Strict monotonicity of `countP` in the predicate. -/
theorem countP_lt_of_imp (L : List (List String)) (p q : List String → Bool)
    (himp : ∀ x ∈ L, p x = true → q x = true) (w : List String) (hw : w ∈ L)
    (hq : q w = true) (hp : p w = false) : L.countP p < L.countP q := by
  induction L with
  | nil => simp at hw
  | cons a t ih =>
    have hmono : t.countP p ≤ t.countP q :=
      List.countP_mono_left (fun x hx => himp x (List.mem_cons_of_mem _ hx))
    rcases List.mem_cons.1 hw with rfl | hw'
    · simp only [List.countP_cons, hq, hp]
      simp; omega
    · have := ih (fun x hx => himp x (List.mem_cons_of_mem _ hx)) hw'
      simp only [List.countP_cons]
      by_cases hpa : p a = true
      · simp [hpa, himp a (by simp) hpa]; omega
      · simp [hpa]; split <;> omega

end Basics
section Relax

variable {D : Type} [LinearOrderedCommRing D]

/-! ## One relaxation -/

/-- The two ways a pass of the inner loop can go when `u` has a position:
nothing changes, or `v` is improved through `u`. -/
theorem relaxStep_cases (sqrt : D → D) (nodes : NodeMap D) (u v : String)
    (st : SearchState D) (hu : hasPos nodes u) :
    (relaxStep sqrt nodes u v st = .done st ∧
        (hasPos nodes v → ¬ altDist sqrt nodes st.dist u v < distAt st.dist v)) ∨
      (hasPos nodes v ∧ altDist sqrt nodes st.dist u v < distAt st.dist v ∧
        relaxStep sqrt nodes u v st = .done (improve st u v (altDist sqrt nodes st.dist u v))) := by
  obtain ⟨pu, hpu⟩ := (hasPos_iff nodes u).1 hu
  cases hpv : nodes.lookup v with
  | none =>
    left
    refine ⟨by simp [relaxStep, hpv], fun h => ?_⟩
    obtain ⟨p, hp⟩ := (hasPos_iff nodes v).1 h
    rw [hpv] at hp; cases hp
  | some pv =>
    have he : altDist sqrt nodes st.dist u v
        = distAt st.dist u + ((distanceBetween sqrt pu pv : D) : WithTop D) := by
      simp [altDist, edgeLen, posAt_of_lookup nodes u pu hpu, posAt_of_lookup nodes v pv hpv]
    by_cases hlt : altDist sqrt nodes st.dist u v < distAt st.dist v
    · right
      refine ⟨(hasPos_iff nodes v).2 ⟨pv, hpv⟩, hlt, ?_⟩
      have hlt' := hlt
      rw [he] at hlt'
      simp only [relaxStep, hpv, hpu, hlt', if_true, improve, he]
    · left
      refine ⟨?_, fun _ => hlt⟩
      have hlt' := hlt
      rw [he] at hlt'
      simp only [relaxStep, hpv, hpu, hlt', if_false]

theorem altDist_nonneg (sqrt : D → D) (hs : ∀ x, 0 ≤ sqrt x) (nodes : NodeMap D)
    (dist : DistMap D) (u v : String) (h : 0 ≤ distAt dist u) :
    0 ≤ altDist sqrt nodes dist u v := by
  unfold altDist
  exact add_nonneg h (WithTop.coe_nonneg.2 (edgeLen_nonneg sqrt hs nodes u v))

theorem le_altDist (sqrt : D → D) (hs : ∀ x, 0 ≤ sqrt x) (nodes : NodeMap D)
    (dist : DistMap D) (u v : String) : distAt dist u ≤ altDist sqrt nodes dist u v := by
  unfold altDist
  exact le_add_of_nonneg_right (WithTop.coe_nonneg.2 (edgeLen_nonneg sqrt hs nodes u v))

/-- Along a chain of predecessors the tentative distance does not grow. -/
theorem inv_chain_le {sqrt : D → D} {nodes : NodeMap D} {adjacency : AdjMap} {start : String}
    {st : SearchState D} (hs : ∀ x, 0 ≤ sqrt x) (hinv : Inv sqrt nodes adjacency start st) :
    ∀ (C : List String) (y : String), PrevChain st.prev start (y :: C) →
      ∀ z ∈ y :: C, distAt st.dist z ≤ distAt st.dist y := by
  intro C
  induction C with
  | nil =>
    intro y _ z hz
    have : z = y := by simpa using hz
    rw [this]
  | cons y' C ih =>
    intro y hc z hz
    obtain ⟨hp, hc'⟩ := (prevChain_cons_cons _ _ _ _ _).1 hc
    have hstep : distAt st.dist y' ≤ distAt st.dist y :=
      (le_altDist sqrt hs nodes st.dist y' y).trans (hinv.prev_edge y y' hp).2.2.2.1
    rcases List.mem_cons.1 hz with rfl | hz'
    · exact le_refl _
    · exact (ih y' hc' z hz').trans hstep

/-- A chain that avoids `v` is still a chain after `prev[v]` is reassigned. -/
theorem prevChain_avoid (prev : PrevMap) (start v u : String) :
    ∀ (C : List String) (y : String), PrevChain prev start (y :: C) →
      (∀ z ∈ y :: C, z ≠ v) → PrevChain (mapSet prev v u) start (y :: C) := by
  intro C
  induction C with
  | nil => intro y h _; exact h
  | cons y' C ih =>
    intro y hc hav
    obtain ⟨hp, hc'⟩ := (prevChain_cons_cons _ _ _ _ _).1 hc
    refine (prevChain_cons_cons _ _ _ _ _).2 ⟨?_, ih y' hc' (fun z hz => hav z (List.mem_cons_of_mem _ hz))⟩
    have : y ≠ v := hav y (by simp)
    simp [mapSet, this, hp]

/-- Every old chain yields a chain after `prev[v] = u`, once `u` has one. -/
theorem prevChain_reroute (prev : PrevMap) (start v u : String) (CU : List String)
    (hU : PrevChain (mapSet prev v u) start (u :: CU)) :
    ∀ (C : List String) (x : String), PrevChain prev start (x :: C) →
      ∃ C', PrevChain (mapSet prev v u) start (x :: C') := by
  intro C
  induction C with
  | nil => intro x h; exact ⟨[], h⟩
  | cons y C ih =>
    intro x hc
    obtain ⟨hp, hc'⟩ := (prevChain_cons_cons _ _ _ _ _).1 hc
    by_cases hx : x = v
    · refine ⟨u :: CU, (prevChain_cons_cons _ _ _ _ _).2 ⟨by simp [mapSet, hx], hU⟩⟩
    · obtain ⟨C', hC'⟩ := ih y hc'
      exact ⟨y :: C', (prevChain_cons_cons _ _ _ _ _).2 ⟨by simp [mapSet, hx, hp], hC'⟩⟩

end Relax
section Improve

variable {D : Type} [LinearOrderedCommRing D]

/-! ## A successful relaxation keeps the invariants -/

theorem revLen_cons_head (sqrt : D → D) (nodes : NodeMap D) (v u : String) (P : List String)
    (h : P.head? = some u) :
    revLen sqrt nodes (v :: P) = revLen sqrt nodes P + edgeLen sqrt nodes u v := by
  cases P with
  | nil => simp at h
  | cons a t =>
    have : a = u := by simpa using h
    subst this
    rfl

/-- The witness path of `u` does not pass through a node that `u` improves,
and extends to a witness path of that node. -/
theorem inv_witness_extend {sqrt : D → D} {nodes : NodeMap D} {adjacency : AdjMap}
    {start : String} {st : SearchState D} (hs : ∀ x, 0 ≤ sqrt x)
    (hinv : Inv sqrt nodes adjacency start st) (u v : String)
    (hu : hasPos nodes u) (hv : hasPos nodes v)
    (hlt : altDist sqrt nodes st.dist u v < distAt st.dist v) :
    ∃ P, P.head? = some u ∧ (v :: P).Nodup ∧ (∀ x ∈ v :: P, hasPos nodes x) ∧
      ((revLen sqrt nodes (v :: P) : D) : WithTop D) = altDist sqrt nodes st.dist u v ∧
      ∀ y Q, (y :: Q) <:+ P → distAt st.dist y ≤ ((revLen sqrt nodes (y :: Q) : D) : WithTop D) := by
  have hfin : distAt st.dist u < ⊤ :=
    lt_of_le_of_lt (le_altDist sqrt hs nodes st.dist u v) (lt_of_lt_of_le hlt le_top)
  obtain ⟨P, hhead, hnd, hpos, hlen, hsuf⟩ := hinv.witness u hu hfin
  have hnot : v ∉ P := by
    intro hmem
    obtain ⟨s, t, rfl⟩ := List.append_of_mem hmem
    have h1 := hsuf v t ⟨s, rfl⟩
    have h2 : ((revLen sqrt nodes (v :: t) : D) : WithTop D)
        ≤ ((revLen sqrt nodes (s ++ v :: t) : D) : WithTop D) :=
      WithTop.coe_le_coe.2 (revLen_suffix_le sqrt hs nodes _ _ ⟨s, rfl⟩)
    have h3 := (h1.trans h2).trans (le_of_eq hlen)
    exact absurd (lt_of_lt_of_le hlt (h3.trans (le_altDist sqrt hs nodes st.dist u v)))
      (lt_irrefl _)
  refine ⟨P, hhead, List.nodup_cons.2 ⟨hnot, hnd⟩, ?_, ?_, hsuf⟩
  · intro x hx
    rcases List.mem_cons.1 hx with rfl | hx'
    · exact hv
    · exact hpos x hx'
  · rw [revLen_cons_head sqrt nodes v u P hhead, WithTop.coe_add, hlen]
    rfl

theorem inv_improve {sqrt : D → D} {nodes : NodeMap D} {adjacency : AdjMap}
    {start : String} {st : SearchState D} (hs : ∀ x, 0 ≤ sqrt x)
    (hinv : Inv sqrt nodes adjacency start st) (u v : String)
    (hu : hasPos nodes u) (hv : hasPos nodes v) (hl : v ∈ linksOf adjacency u)
    (hlt : altDist sqrt nodes st.dist u v < distAt st.dist v) :
    Inv sqrt nodes adjacency start (improve st u v (altDist sqrt nodes st.dist u v)) := by
  have halt0 : 0 ≤ altDist sqrt nodes st.dist u v :=
    altDist_nonneg sqrt hs nodes st.dist u v (hinv.nonneg u)
  have haltTop : altDist sqrt nodes st.dist u v < ⊤ := lt_of_lt_of_le hlt le_top
  have hufin : distAt st.dist u < ⊤ :=
    lt_of_le_of_lt (le_altDist sqrt hs nodes st.dist u v) haltTop
  have hvs : v ≠ start := by
    intro h
    have h0 : distAt st.dist v = 0 := by rw [h]; exact hinv.start_zero
    rw [h0] at hlt
    exact absurd (lt_of_lt_of_le hlt halt0) (lt_irrefl _)
  have hmono : ∀ k, distAt (mapSet st.dist v (altDist sqrt nodes st.dist u v)) k
      ≤ distAt st.dist k := fun k => distAt_mapSet_le st.dist v k _ (le_of_lt hlt)
  have hself : distAt (mapSet st.dist v (altDist sqrt nodes st.dist u v)) v
      = altDist sqrt nodes st.dist u v := by simp [distAt_mapSet]
  have hother : ∀ k, k ≠ v → distAt (mapSet st.dist v (altDist sqrt nodes st.dist u v)) k
      = distAt st.dist k := fun k hk => by simp [distAt_mapSet, hk]
  -- the chain of `u` avoids `v`
  obtain ⟨CU, hCU⟩ := hinv.chain u hu hufin
  have hCU' : PrevChain (mapSet st.prev v u) start (u :: CU) := by
    refine prevChain_avoid st.prev start v u CU u hCU ?_
    intro z hz hzv
    have h1 := inv_chain_le hs hinv CU u hCU z hz
    rw [hzv] at h1
    exact absurd (lt_of_lt_of_le hlt (h1.trans (le_altDist sqrt hs nodes st.dist u v)))
      (lt_irrefl _)
  refine ⟨?_, ?_, ?_, ?_, ?_, ?_, ?_⟩
  · show distAt (mapSet st.dist v _) start = 0
    rw [hother start (Ne.symm hvs)]
    exact hinv.start_zero
  · intro k
    show 0 ≤ distAt (mapSet st.dist v _) k
    by_cases hk : k = v
    · rw [hk, hself]; exact halt0
    · rw [hother k hk]; exact hinv.nonneg k
  · intro k hk
    have hk' : k ∈ v :: st.pq := (pqPush_perm _ st.pq v).mem_iff.1 hk
    show hasPos nodes k ∧ distAt (mapSet st.dist v _) k < ⊤
    rcases List.mem_cons.1 hk' with rfl | hk''
    · exact ⟨hv, by rw [hself]; exact haltTop⟩
    · exact ⟨(hinv.queued k hk'').1, lt_of_le_of_lt (hmono k) (hinv.queued k hk'').2⟩
  · intro a b hab
    show hasPos nodes b ∧ hasPos nodes a ∧ a ∈ linksOf adjacency b ∧
      distAt (mapSet st.dist v _) b + ((edgeLen sqrt nodes b a : D) : WithTop D)
        ≤ distAt (mapSet st.dist v _) a ∧ distAt (mapSet st.dist v _) a < ⊤
    have hab' : mapSet st.prev v u a = some b := hab
    by_cases ha : a = v
    · have hb : b = u := by
        have : some u = some b := by simpa [mapSet, ha] using hab'
        exact (Option.some.inj this).symm
      subst hb
      rw [ha, hself]
      exact ⟨hu, hv, hl, add_le_add_right (hmono b) _, haltTop⟩
    · have hold : st.prev a = some b := by simpa [mapSet, ha] using hab'
      obtain ⟨h1, h2, h3, h4, h5⟩ := hinv.prev_edge a b hold
      rw [hother a ha]
      exact ⟨h1, h2, h3, (add_le_add_right (hmono b) _).trans h4, h5⟩
  · show mapSet st.prev v u start = none
    simp [mapSet, Ne.symm hvs, hinv.prev_start]
  · intro k hk hfin
    show ∃ C, PrevChain (mapSet st.prev v u) start (k :: C)
    by_cases hkv : k = v
    · exact ⟨u :: CU, (prevChain_cons_cons _ _ _ _ _).2 ⟨by simp [mapSet, hkv], hCU'⟩⟩
    · have hfin' : distAt st.dist k < ⊤ := by
        have : distAt (mapSet st.dist v (altDist sqrt nodes st.dist u v)) k < ⊤ := hfin
        rwa [hother k hkv] at this
      obtain ⟨C, hC⟩ := hinv.chain k hk hfin'
      exact prevChain_reroute st.prev start v u CU hCU' C k hC
  · intro k hk hfin
    show ∃ P, Witness sqrt nodes (mapSet st.dist v _) k P
    by_cases hkv : k = v
    · obtain ⟨P, hhead, hnd, hpos, hlen, hsuf⟩ := inv_witness_extend hs hinv u v hu hv hlt
      refine ⟨v :: P, by simp [hkv], hnd, hpos, by rw [hkv, hself]; exact hlen, ?_⟩
      intro y Q hyQ
      rcases List.suffix_cons_iff.1 hyQ with heq | hsuf'
      · have hy : y = v := by
          have := congrArg List.head? heq
          simpa using this
        rw [heq, hy, hself]
        exact le_of_eq hlen.symm
      · exact (hmono y).trans (hsuf y Q hsuf')
    · have hfin' : distAt st.dist k < ⊤ := by
        have : distAt (mapSet st.dist v (altDist sqrt nodes st.dist u v)) k < ⊤ := hfin
        rwa [hother k hkv] at this
      obtain ⟨P, hhead, hnd, hpos, hlen, hsuf⟩ := hinv.witness k hk hfin'
      refine ⟨P, hhead, hnd, hpos, by rw [hother k hkv]; exact hlen, ?_⟩
      intro y Q hyQ
      exact (hmono y).trans (hsuf y Q hyQ)

/-- A successful relaxation does not raise the bound on the iterations to come. -/
theorem potential_improve {sqrt : D → D} {nodes : NodeMap D} {adjacency : AdjMap}
    {start : String} {st : SearchState D} (hs : ∀ x, 0 ≤ sqrt x)
    (hinv : Inv sqrt nodes adjacency start st) (u v : String)
    (hu : hasPos nodes u) (hv : hasPos nodes v)
    (hlt : altDist sqrt nodes st.dist u v < distAt st.dist v) :
    potential sqrt nodes (improve st u v (altDist sqrt nodes st.dist u v))
      ≤ potential sqrt nodes st := by
  obtain ⟨P, hhead, hnd, hpos, hlen, _⟩ := inv_witness_extend hs hinv u v hu hv hlt
  have hlenpq : (improve st u v (altDist sqrt nodes st.dist u v)).pq.length = st.pq.length + 1 := by
    have := (pqPush_perm (cmp (mapSet st.dist v (altDist sqrt nodes st.dist u v))) st.pq v).length_eq
    simpa [improve] using this
  have hslack : slack sqrt nodes (mapSet st.dist v (altDist sqrt nodes st.dist u v))
      < slack sqrt nodes st.dist := by
    unfold slack
    refine countP_lt_of_imp _ _ _ ?_ (v :: P) (nodup_mem_listsUpTo nodes _ hnd hpos) ?_ ?_
    · intro x _ hx
      cases x with
      | nil => simp [undercuts] at hx
      | cons a t =>
        simp only [undercuts, decide_eq_true_eq] at hx ⊢
        exact lt_of_lt_of_le hx (distAt_mapSet_le st.dist v a _ (le_of_lt hlt))
    · simp only [undercuts, decide_eq_true_eq]
      rw [hlen]; exact hlt
    · simp only [undercuts, decide_eq_false_iff_not]
      rw [hlen, distAt_mapSet]
      simp
  unfold potential
  have : (improve st u v (altDist sqrt nodes st.dist u v)).dist
      = mapSet st.dist v (altDist sqrt nodes st.dist u v) := rfl
  rw [this, hlenpq]
  omega

end Improve
section Loop

variable {D : Type} [LinearOrderedCommRing D]

/-! ## The inner loop and the main loop -/

theorem advances_refl (sqrt : D → D) (nodes : NodeMap D) (st : SearchState D) :
    Advances sqrt nodes st st :=
  ⟨fun _ => le_refl _, fun _ h => h, fun _ h => absurd h (lt_irrefl _), le_refl _⟩

theorem advances_trans {sqrt : D → D} {nodes : NodeMap D} {s1 s2 s3 : SearchState D}
    (h12 : Advances sqrt nodes s1 s2) (h23 : Advances sqrt nodes s2 s3) :
    Advances sqrt nodes s1 s3 := by
  refine ⟨fun k => (h23.le k).trans (h12.le k), fun k h => h23.sub k (h12.sub k h), ?_,
    h23.pot.trans h12.pot⟩
  intro k hk
  by_cases h : distAt s3.dist k < distAt s2.dist k
  · exact h23.fresh k h
  · have h' : distAt s2.dist k ≤ distAt s3.dist k := not_lt.1 h
    exact h23.sub k (h12.fresh k (lt_of_le_of_lt h' hk))

theorem advances_improve {sqrt : D → D} {nodes : NodeMap D} {adjacency : AdjMap}
    {start : String} {st : SearchState D} (hs : ∀ x, 0 ≤ sqrt x)
    (hinv : Inv sqrt nodes adjacency start st) (u v : String)
    (hu : hasPos nodes u) (hv : hasPos nodes v)
    (hlt : altDist sqrt nodes st.dist u v < distAt st.dist v) :
    Advances sqrt nodes st (improve st u v (altDist sqrt nodes st.dist u v)) := by
  refine ⟨fun k => distAt_mapSet_le st.dist v k _ (le_of_lt hlt), ?_, ?_,
    potential_improve hs hinv u v hu hv hlt⟩
  · intro k hk
    exact (pqPush_perm _ st.pq v).mem_iff.2 (List.mem_cons_of_mem _ hk)
  · intro k hk
    have hk' : distAt (mapSet st.dist v (altDist sqrt nodes st.dist u v)) k < distAt st.dist k := hk
    rw [distAt_mapSet] at hk'
    by_cases hkv : k = v
    · exact (pqPush_perm _ st.pq v).mem_iff.2 (by simp [hkv])
    · simp [hkv] at hk'

theorem altDist_lt_top (sqrt : D → D) (nodes : NodeMap D) (dist : DistMap D) (u v : String)
    (h : distAt dist u < ⊤) : altDist sqrt nodes dist u v < ⊤ := by
  unfold altDist
  exact WithTop.add_lt_top.2 ⟨h, WithTop.coe_lt_top _⟩

/-- The inner loop over the links of a positioned, finitely distant `u`
completes, keeps the invariants and any property `X` that successful
relaxations from `u` keep, and leaves every positioned link of `u` finitely distant. -/
theorem relax_spec {sqrt : D → D} {nodes : NodeMap D} {adjacency : AdjMap} {start : String}
    (hs : ∀ x, 0 ≤ sqrt x) (u : String) (hu : hasPos nodes u) (X : SearchState D → Prop)
    (hX : ∀ st v, Inv sqrt nodes adjacency start st → X st → hasPos nodes v →
      v ∈ linksOf adjacency u → altDist sqrt nodes st.dist u v < distAt st.dist v →
      X (improve st u v (altDist sqrt nodes st.dist u v))) :
    ∀ (links : List String) (st : SearchState D), Inv sqrt nodes adjacency start st → X st →
      distAt st.dist u < ⊤ → (∀ v ∈ links, v ∈ linksOf adjacency u) →
      ∃ st', relax sqrt nodes u links st = .done st' ∧ Inv sqrt nodes adjacency start st' ∧
        X st' ∧ Advances sqrt nodes st st' ∧
        ∀ v ∈ links, hasPos nodes v → distAt st'.dist v < ⊤ := by
  intro links
  induction links with
  | nil =>
    intro st hinv hx _ _
    exact ⟨st, rfl, hinv, hx, advances_refl sqrt nodes st, fun v hv => absurd hv (List.not_mem_nil v)⟩
  | cons v vs ih =>
    intro st hinv hx hfin hl
    have hvl : v ∈ linksOf adjacency u := hl v (by simp)
    have hvs : ∀ w ∈ vs, w ∈ linksOf adjacency u := fun w hw => hl w (List.mem_cons_of_mem _ hw)
    rcases relaxStep_cases sqrt nodes u v st hu with ⟨heq, hno⟩ | ⟨hv, hlt, heq⟩
    · obtain ⟨st', h1, h2, h3, h4, h5⟩ := ih st hinv hx hfin hvs
      refine ⟨st', by simp only [relax, heq, h1], h2, h3, h4, ?_⟩
      intro w hw hwp
      rcases List.mem_cons.1 hw with rfl | hw'
      · have : distAt st.dist w ≤ altDist sqrt nodes st.dist u w := not_lt.1 (hno hwp)
        exact lt_of_le_of_lt ((h4.le w).trans this) (altDist_lt_top sqrt nodes st.dist u w hfin)
      · exact h5 w hw' hwp
    · have hinv1 := inv_improve hs hinv u v hu hv hvl hlt
      have hx1 := hX st v hinv hx hv hvl hlt
      have hadv1 := advances_improve hs hinv u v hu hv hlt
      have hfin1 : distAt (improve st u v (altDist sqrt nodes st.dist u v)).dist u < ⊤ :=
        lt_of_le_of_lt (hadv1.le u) hfin
      obtain ⟨st', h1, h2, h3, h4, h5⟩ := ih _ hinv1 hx1 hfin1 hvs
      refine ⟨st', by simp only [relax, heq, h1], h2, h3, advances_trans hadv1 h4, ?_⟩
      intro w hw hwp
      rcases List.mem_cons.1 hw with rfl | hw'
      · have h6 : distAt (improve st u w (altDist sqrt nodes st.dist u w)).dist w < ⊤ := by
          show distAt (mapSet st.dist w _) w < ⊤
          rw [distAt_mapSet]; simp only [if_true]
          exact altDist_lt_top sqrt nodes st.dist u w hfin
        exact lt_of_le_of_lt (h4.le w) h6
      · exact h5 w hw' hwp

theorem inv_pq_sub {sqrt : D → D} {nodes : NodeMap D} {adjacency : AdjMap} {start : String}
    {st : SearchState D} (hinv : Inv sqrt nodes adjacency start st) (pq' : List String)
    (hsub : ∀ k ∈ pq', k ∈ st.pq) :
    Inv sqrt nodes adjacency start { st with pq := pq' } :=
  ⟨hinv.start_zero, hinv.nonneg, fun k hk => hinv.queued k (hsub k hk), hinv.prev_edge,
    hinv.prev_start, hinv.chain, hinv.witness⟩

theorem searchLoop_nil (sqrt : D → D) (nodes : NodeMap D) (adjacency : AdjMap) (goal : String)
    (fuel : Nat) (st : SearchState D) (h : st.pq = []) :
    searchLoop sqrt nodes adjacency goal fuel st = .done st := by
  cases fuel <;> simp [searchLoop, h]

theorem searchLoop_zero (sqrt : D → D) (nodes : NodeMap D) (adjacency : AdjMap) (goal : String)
    (st : SearchState D) (u : String) (rest : List String) (h : st.pq = u :: rest) :
    searchLoop sqrt nodes adjacency goal 0 st = .timeout := by
  simp [searchLoop, h]

theorem searchLoop_succ (sqrt : D → D) (nodes : NodeMap D) (adjacency : AdjMap) (goal : String)
    (fuel : Nat) (st : SearchState D) (u : String) (rest : List String) (h : st.pq = u :: rest) :
    searchLoop sqrt nodes adjacency goal (fuel + 1) st =
      if u = goal then .done { st with pq := pqPop (cmp st.dist) st.pq }
      else
        match adjacency.lookup u with
        | none => searchLoop sqrt nodes adjacency goal fuel
            { st with pq := pqPop (cmp st.dist) st.pq }
        | some links =>
          match relax sqrt nodes u links { st with pq := pqPop (cmp st.dist) st.pq } with
          | .done st2 => searchLoop sqrt nodes adjacency goal fuel st2
          | .outOfRange => .outOfRange
          | .timeout => .timeout := by
  rw [searchLoop]
  simp only [h]

end Loop
section MainLoop

variable {D : Type} [LinearOrderedCommRing D]

theorem linksOf_of_lookup (adjacency : AdjMap) (u : String) (links : List String)
    (h : adjacency.lookup u = some links) : linksOf adjacency u = links := by
  simp [linksOf, h]

theorem linksOf_of_lookup_none (adjacency : AdjMap) (u : String)
    (h : adjacency.lookup u = none) : linksOf adjacency u = [] := by
  simp [linksOf, h]

/-- The main loop, started in a state that satisfies the invariants with at
least `potential` iterations allowed, completes; the invariants (and any
property `X` kept by successful relaxations) hold on exit, and either the queue
ran empty or the goal was popped with a finite distance. -/
theorem searchLoop_spec {sqrt : D → D} {nodes : NodeMap D} {adjacency : AdjMap}
    {start : String} (goal : String) (hs : ∀ x, 0 ≤ sqrt x) (X : SearchState D → Prop)
    (hXpq : ∀ st pq', X st → X { st with pq := pq' })
    (hX : ∀ st u v, Inv sqrt nodes adjacency start st → X st → hasPos nodes u →
      hasPos nodes v → v ∈ linksOf adjacency u →
      altDist sqrt nodes st.dist u v < distAt st.dist v →
      X (improve st u v (altDist sqrt nodes st.dist u v))) :
    ∀ (fuel : Nat) (st : SearchState D), Inv sqrt nodes adjacency start st → X st →
      Closed nodes adjacency goal st → potential sqrt nodes st ≤ fuel →
      ∃ st', searchLoop sqrt nodes adjacency goal fuel st = .done st' ∧
        Inv sqrt nodes adjacency start st' ∧ X st' ∧
        ((Closed nodes adjacency goal st' ∧ st'.pq = []) ∨
          (distAt st'.dist goal < ⊤ ∧ hasPos nodes goal)) := by
  intro fuel
  induction fuel with
  | zero =>
    intro st hinv hx hcl hpot
    cases hpq : st.pq with
    | nil => exact ⟨st, searchLoop_nil _ _ _ _ _ _ hpq, hinv, hx, Or.inl ⟨hcl, hpq⟩⟩
    | cons u rest =>
      exfalso
      simp [potential, hpq] at hpot
  | succ fuel ih =>
    intro st hinv hx hcl hpot
    cases hpq : st.pq with
    | nil => exact ⟨st, searchLoop_nil _ _ _ _ _ _ hpq, hinv, hx, Or.inl ⟨hcl, hpq⟩⟩
    | cons u rest =>
      have hperm : (pqPop (cmp st.dist) st.pq).Perm rest := by
        rw [hpq]; exact pqPop_perm _ u rest
      have hsub : ∀ k ∈ pqPop (cmp st.dist) st.pq, k ∈ st.pq := by
        intro k hk
        rw [hpq]
        exact List.mem_cons_of_mem _ (hperm.mem_iff.1 hk)
      have huq := hinv.queued u (by rw [hpq]; simp)
      have hinv1 := inv_pq_sub hinv _ hsub
      have hx1 := hXpq st (pqPop (cmp st.dist) st.pq) hx
      have hpot1 : potential sqrt nodes { st with pq := pqPop (cmp st.dist) st.pq } ≤ fuel := by
        have h1 := hperm.length_eq
        rw [hpq] at h1
        simp only [potential, hpq, List.length_cons] at hpot ⊢
        omega
      rw [searchLoop_succ _ _ _ _ _ _ u rest hpq]
      by_cases hug : u = goal
      · rw [if_pos hug]
        exact ⟨_, rfl, hinv1, hx1, Or.inr ⟨by rw [← hug]; exact huq.2, by rw [← hug]; exact huq.1⟩⟩
      · rw [if_neg hug]
        have hnotin : ∀ u', u' ≠ u → u' ∉ pqPop (cmp st.dist) st.pq → u' ∉ st.pq := by
          intro u' hne hn hmem
          rw [hpq] at hmem
          rcases List.mem_cons.1 hmem with h | h
          · exact hne h
          · exact hn (hperm.mem_iff.2 h)
        cases hlk : adjacency.lookup u with
        | none =>
          simp only []
          refine ih _ hinv1 hx1 ?_ hpot1
          intro u' hu' hfin hnq hng v hv hvp
          by_cases hu : u' = u
          · rw [hu, linksOf_of_lookup_none adjacency u hlk] at hv
            exact absurd hv (List.not_mem_nil v)
          · exact hcl u' hu' hfin (hnotin u' hu hnq) hng v hv hvp
        | some links =>
          simp only []
          have hlinks := linksOf_of_lookup adjacency u links hlk
          obtain ⟨st2, h1, h2, h3, h4, h5⟩ := relax_spec hs u huq.1 X
            (fun st v hi hx hv hl hlt => hX st u v hi hx huq.1 hv hl hlt)
            links _ hinv1 hx1 huq.2 (fun v hv => by rw [hlinks]; exact hv)
          rw [h1]
          simp only []
          refine ih st2 h2 h3 ?_ (h4.pot.trans hpot1)
          intro u' hu' hfin hnq hng v hv hvp
          by_cases hu : u' = u
          · rw [hu, hlinks] at hv
            exact h5 v hv hvp
          · by_cases hold : distAt st.dist u' < ⊤
            · have hnq1 : u' ∉ pqPop (cmp st.dist) st.pq := fun hm => hnq (h4.sub u' hm)
              exact lt_of_le_of_lt (h4.le v)
                (hcl u' hu' hold (hnotin u' hu hnq1) hng v hv hvp)
            · have htop : distAt st.dist u' = ⊤ := not_lt_top_iff.1 hold
              have : distAt st2.dist u' < distAt st.dist u' := by rw [htop]; exact hfin
              exact absurd (h4.fresh u' this) hnq

/-- More fuel does not change a run of the main loop that completed or threw. -/
theorem searchLoop_mono (sqrt : D → D) (nodes : NodeMap D) (adjacency : AdjMap) (goal : String)
    (k : Nat) : ∀ (fuel : Nat) (st : SearchState D),
      searchLoop sqrt nodes adjacency goal fuel st ≠ .timeout →
      searchLoop sqrt nodes adjacency goal (fuel + k) st
        = searchLoop sqrt nodes adjacency goal fuel st := by
  intro fuel
  induction fuel with
  | zero =>
    intro st h
    cases hpq : st.pq with
    | nil => rw [searchLoop_nil _ _ _ _ _ _ hpq, searchLoop_nil _ _ _ _ _ _ hpq]
    | cons u rest => exact absurd (searchLoop_zero _ _ _ _ _ u rest hpq) h
  | succ fuel ih =>
    intro st h
    cases hpq : st.pq with
    | nil => rw [searchLoop_nil _ _ _ _ _ _ hpq, searchLoop_nil _ _ _ _ _ _ hpq]
    | cons u rest =>
      have e : fuel + 1 + k = (fuel + k) + 1 := by omega
      rw [e, searchLoop_succ _ _ _ _ _ _ u rest hpq]
      rw [searchLoop_succ _ _ _ _ _ _ u rest hpq] at h ⊢
      by_cases hug : u = goal
      · simp only [if_pos hug]
      · simp only [if_neg hug] at h ⊢
        cases hlk : adjacency.lookup u with
        | none =>
          simp only [hlk] at h ⊢
          exact ih _ h
        | some links =>
          simp only [hlk] at h ⊢
          cases hr : relax sqrt nodes u links { st with pq := pqPop (cmp st.dist) st.pq } with
          | done st2 =>
            simp only [hr] at h ⊢
            exact ih _ h
          | outOfRange => rfl
          | timeout => rfl

end MainLoop
section Init

variable {D : Type} [LinearOrderedCommRing D]

/-! ## The state on entry and the backward walk -/

theorem pqPush_nil (lt : String → String → Bool) (x : String) : pqPush lt [] x = [x] := by
  simp [pqPush, pushHeap, pushHeapLoop]

theorem pqPop_singleton (lt : String → String → Bool) (x : String) : pqPop lt [x] = [] := by
  simp [pqPop, popHeap]

theorem initState_pq (nodes : NodeMap D) (start : String) :
    (initState nodes start).pq = [start] := by
  simp [initState, pqPush_nil]

theorem initState_prev (nodes : NodeMap D) (start k : String) :
    (initState nodes start).prev k = none := rfl

theorem initState_dist (nodes : NodeMap D) (start k : String) :
    distAt (initState nodes start).dist k
      = if k = start then 0 else if hasPos nodes k then ⊤ else 0 := by
  show distAt (mapSet (initInfinity nodes) start 0) k = _
  rw [distAt_mapSet]
  by_cases hk : k = start
  · simp [hk]
  · simp only [hk, if_false]
    unfold distAt hasPos
    rw [initInfinity_apply]
    by_cases hp : (nodes.lookup k).isSome = true
    · simp [hp]
    · simp [hp]

theorem inv_init (sqrt : D → D) (nodes : NodeMap D) (adjacency : AdjMap) (start : String)
    (hstart : hasPos nodes start) :
    Inv sqrt nodes adjacency start (initState nodes start) := by
  have hfin : ∀ k, hasPos nodes k → distAt (initState nodes start).dist k < ⊤ → k = start := by
    intro k hk hlt
    by_contra hne
    rw [initState_dist] at hlt
    simp [hne, hk] at hlt
  refine ⟨by simp [initState_dist], ?_, ?_, ?_, rfl, ?_, ?_⟩
  · intro k
    rw [initState_dist]
    split
    · exact le_refl _
    · split
      · exact le_top
      · exact le_refl _
  · intro k hk
    rw [initState_pq] at hk
    have : k = start := by simpa using hk
    subst this
    refine ⟨hstart, ?_⟩
    rw [initState_dist]; simp
  · intro v u h
    rw [initState_prev] at h
    cases h
  · intro v hv hlt
    have := hfin v hv hlt
    subst this
    exact ⟨[], rfl⟩
  · intro v hv hlt
    have := hfin v hv hlt
    subst this
    refine ⟨[v], rfl, by simp, ?_, ?_, ?_⟩
    · intro x hx
      have : x = v := by simpa using hx
      rw [this]; exact hstart
    · rw [initState_dist]; simp [revLen]
    · intro y Q hyQ
      have hy : y :: Q = [v] := by
        rcases List.suffix_cons_iff.1 hyQ with h | h
        · exact h
        · have := List.suffix_nil.1 h
          cases this
      have hyv : y = v := by
        have := congrArg List.head? hy
        simpa using this
      rw [hy, hyv, initState_dist]
      simp [revLen]

theorem closed_init (nodes : NodeMap D) (adjacency : AdjMap) (start goal : String) :
    Closed nodes adjacency goal (initState nodes start) := by
  intro u hu hfin hnq _ v _ _
  exfalso
  rw [initState_pq] at hnq
  have hne : u ≠ start := by simpa using hnq
  rw [initState_dist] at hfin
  simp [hne, hu] at hfin

theorem walkBack_empty (prev : PrevMap) (fuel : Nat) (path : List String) :
    walkBack prev fuel "" path = .done path := by
  cases fuel <;> simp [walkBack]

theorem walkBack_succ (prev : PrevMap) (fuel : Nat) (cur : String) (path : List String)
    (h : cur ≠ "") :
    walkBack prev (fuel + 1) cur path
      = walkBack prev fuel (match prev cur with | some p => p | none => "") (path ++ [cur]) := by
  rw [walkBack]
  simp only [h, if_false]

theorem walkBack_zero (prev : PrevMap) (cur : String) (path : List String) (h : cur ≠ "") :
    walkBack prev 0 cur path = .timeout := by
  rw [walkBack]
  simp only [h, if_false]

/-- The backward walk follows a chain of predecessors down to `start`, or to
the first empty name on it. -/
theorem walkBack_chain (prev : PrevMap) (start : String) (hps : prev start = none) :
    ∀ (C : List String) (x : String) (acc : List String) (fuel : Nat),
      PrevChain prev start (x :: C) → (x :: C).length ≤ fuel →
      walkBack prev fuel x acc
        = .done (acc ++ (x :: C).takeWhile (fun s => decide (s ≠ ""))) := by
  intro C
  induction C with
  | nil =>
    intro x acc fuel hc hlen
    have hx : x = start := hc
    by_cases he : x = ""
    · subst he; rw [walkBack_empty]; simp
    · obtain ⟨f, rfl⟩ : ∃ f, fuel = f + 1 := ⟨fuel - 1, by simp at hlen; omega⟩
      rw [walkBack_succ prev f x acc he, hx, hps]
      simp only []
      rw [walkBack_empty]
      have : start ≠ "" := hx ▸ he
      simp [this]
  | cons y C ih =>
    intro x acc fuel hc hlen
    obtain ⟨hp, hc'⟩ := (prevChain_cons_cons _ _ _ _ _).1 hc
    by_cases he : x = ""
    · subst he; rw [walkBack_empty]; simp
    · obtain ⟨f, rfl⟩ : ∃ f, fuel = f + 1 := ⟨fuel - 1, by simp at hlen; omega⟩
      rw [walkBack_succ prev f x acc he, hp]
      simp only []
      rw [ih y (acc ++ [x]) f hc' (by simp at hlen ⊢; omega)]
      rw [List.takeWhile_cons _ x (y :: C)]
      simp [he]

/-- More fuel does not change a backward walk that completed. -/
theorem walkBack_mono (prev : PrevMap) (k : Nat) :
    ∀ (fuel : Nat) (cur : String) (path : List String),
      walkBack prev fuel cur path ≠ .timeout →
      walkBack prev (fuel + k) cur path = walkBack prev fuel cur path := by
  intro fuel
  induction fuel with
  | zero =>
    intro cur path h
    by_cases he : cur = ""
    · subst he; rw [walkBack_empty, walkBack_empty]
    · exact absurd (walkBack_zero prev cur path he) h
  | succ fuel ih =>
    intro cur path h
    by_cases he : cur = ""
    · subst he; rw [walkBack_empty, walkBack_empty]
    · have e : fuel + 1 + k = (fuel + k) + 1 := by omega
      rw [e, walkBack_succ prev _ cur path he]
      rw [walkBack_succ prev _ cur path he] at h ⊢
      exact ih _ _ h

/-- More fuel does not change a run of `findOptimalPath` that returned or threw. -/
theorem findOptimalPath_mono (sqrt : D → D) (nodes : NodeMap D) (adjacency : AdjMap)
    (start goal : String) (fuel k : Nat)
    (h : findOptimalPath sqrt fuel nodes adjacency start goal ≠ .timeout) :
    findOptimalPath sqrt (fuel + k) nodes adjacency start goal
      = findOptimalPath sqrt fuel nodes adjacency start goal := by
  unfold findOptimalPath at h ⊢
  cases hl : searchLoop sqrt nodes adjacency goal fuel (initState nodes start) with
  | done st =>
    have hm := searchLoop_mono sqrt nodes adjacency goal k fuel (initState nodes start)
      (by rw [hl]; simp)
    rw [hm, hl]
    rw [hl] at h
    simp only [] at h ⊢
    by_cases ht : distAt st.dist goal = ⊤
    · simp only [ht, if_true]
    · simp only [ht, if_false] at h ⊢
      have hw : walkBack st.prev fuel goal [] ≠ .timeout := by
        intro hw; rw [hw] at h; exact h rfl
      rw [walkBack_mono st.prev k fuel goal [] hw]
  | outOfRange =>
    have hm := searchLoop_mono sqrt nodes adjacency goal k fuel (initState nodes start)
      (by rw [hl]; simp)
    rw [hm, hl]
  | timeout =>
    rw [hl] at h
    exact absurd rfl h

/-- What a chain of predecessors is made of. -/
theorem prevChain_props {sqrt : D → D} {nodes : NodeMap D} {adjacency : AdjMap}
    {start : String} {st : SearchState D} (hinv : Inv sqrt nodes adjacency start st)
    (hstart : hasPos nodes start) :
    ∀ (C : List String) (x : String), PrevChain st.prev start (x :: C) →
      (∀ z ∈ x :: C, hasPos nodes z) ∧ (x :: C).getLast? = some start ∧
        (x :: C).Chain' (fun b a => b ∈ linksOf adjacency a) := by
  intro C
  induction C with
  | nil =>
    intro x hc
    have hx : x = start := hc
    subst hx
    exact ⟨fun z hz => by rw [List.mem_singleton.1 hz]; exact hstart, rfl, List.chain'_singleton _⟩
  | cons y C ih =>
    intro x hc
    obtain ⟨hp, hc'⟩ := (prevChain_cons_cons _ _ _ _ _).1 hc
    obtain ⟨h1, h2, h3⟩ := ih y hc'
    obtain ⟨_, e2, e3, _, _⟩ := hinv.prev_edge x y hp
    refine ⟨?_, ?_, List.chain'_cons.2 ⟨e3, h3⟩⟩
    · intro z hz
      rcases List.mem_cons.1 hz with rfl | hz'
      · exact e2
      · exact h1 z hz'
    · rw [List.getLast?_cons_cons]; exact h2

end Init
section Results

variable {D : Type} [LinearOrderedCommRing D]

/-! ## The search as a whole -/

/-- From the entry state the main loop completes for every fuel from
`potential` on, always in the same state. -/
theorem search_completes {sqrt : D → D} {nodes : NodeMap D} {adjacency : AdjMap}
    {start : String} (goal : String) (hs : ∀ x, 0 ≤ sqrt x) (hstart : hasPos nodes start)
    (X : SearchState D → Prop) (hXpq : ∀ st pq', X st → X { st with pq := pq' })
    (hX : ∀ st u v, Inv sqrt nodes adjacency start st → X st → hasPos nodes u →
      hasPos nodes v → v ∈ linksOf adjacency u →
      altDist sqrt nodes st.dist u v < distAt st.dist v →
      X (improve st u v (altDist sqrt nodes st.dist u v)))
    (hX0 : X (initState nodes start)) :
    ∃ st', (∀ fuel, potential sqrt nodes (initState nodes start) ≤ fuel →
        searchLoop sqrt nodes adjacency goal fuel (initState nodes start) = .done st') ∧
      Inv sqrt nodes adjacency start st' ∧ X st' ∧
      ((Closed nodes adjacency goal st' ∧ st'.pq = []) ∨
        (distAt st'.dist goal < ⊤ ∧ hasPos nodes goal)) := by
  obtain ⟨st', h1, h2, h3, h4⟩ := searchLoop_spec goal hs X hXpq hX
    (potential sqrt nodes (initState nodes start)) (initState nodes start)
    (inv_init sqrt nodes adjacency start hstart) hX0 (closed_init nodes adjacency start goal)
    (le_refl _)
  refine ⟨st', ?_, h2, h3, h4⟩
  intro fuel hf
  obtain ⟨k, rfl⟩ := Nat.exists_eq_add_of_le hf
  rw [searchLoop_mono sqrt nodes adjacency goal k _ _ (by rw [h1]; simp), h1]

/-- With an empty queue and the closure property, finiteness of the tentative
distance spreads along every route up to the goal. -/
theorem closed_route {nodes : NodeMap D} {adjacency : AdjMap}
    {goal : String} {st : SearchState D}
    (hcl : Closed nodes adjacency goal st) (hpq : st.pq = []) :
    ∀ (q : List String) (x : String), IsRoute nodes adjacency (x :: q) →
      (x :: q).getLast? = some goal → distAt st.dist x < ⊤ → distAt st.dist goal < ⊤ := by
  intro q
  induction q with
  | nil =>
    intro x _ hlast hfin
    have : x = goal := by simpa using hlast
    rw [← this]; exact hfin
  | cons y q ih =>
    intro x hr hlast hfin
    by_cases hx : x = goal
    · rw [← hx]; exact hfin
    · obtain ⟨hpos, hch⟩ := hr
      obtain ⟨hxy, hch'⟩ := List.chain'_cons.1 hch
      have hy : distAt st.dist y < ⊤ :=
        hcl x (hpos x (by simp)) hfin (by rw [hpq]; simp) hx y hxy (hpos y (by simp))
      refine ih y ⟨fun z hz => hpos z (List.mem_cons_of_mem _ hz), hch'⟩ ?_ hy
      rw [List.getLast?_cons_cons] at hlast
      exact hlast

theorem findOptimalPath_of_search (sqrt : D → D) (nodes : NodeMap D) (adjacency : AdjMap)
    (start goal : String) (fuel : Nat) (st : SearchState D)
    (h : searchLoop sqrt nodes adjacency goal fuel (initState nodes start) = .done st) :
    findOptimalPath sqrt fuel nodes adjacency start goal =
      if distAt st.dist goal = ⊤ then .done []
      else
        match walkBack st.prev fuel goal [] with
        | .done path => .done path.reverse
        | .outOfRange => .outOfRange
        | .timeout => .timeout := by
  unfold findOptimalPath
  rw [h]

/-- Two runs that both return give the same list. -/
theorem findOptimalPath_unique (sqrt : D → D) (nodes : NodeMap D) (adjacency : AdjMap)
    (start goal : String) (f1 f2 : Nat) (p1 p2 : List String)
    (h1 : findOptimalPath sqrt f1 nodes adjacency start goal = .done p1)
    (h2 : findOptimalPath sqrt f2 nodes adjacency start goal = .done p2) : p1 = p2 := by
  have e1 := findOptimalPath_mono sqrt nodes adjacency start goal f1 f2 (by rw [h1]; simp)
  have e2 := findOptimalPath_mono sqrt nodes adjacency start goal f2 f1 (by rw [h2]; simp)
  rw [Nat.add_comm f2 f1, e1, h1, h2] at e2
  exact Outcome.done.inj e2

/-- The shape of the result when start has a position: the empty list when the
goal's distance stayed infinite, and otherwise the reversed chain of
predecessors from the goal, cut at the first empty name. -/
theorem findOptimalPath_shape (sqrt : D → D) (nodes : NodeMap D) (adjacency : AdjMap)
    (start goal : String) (hs : ∀ x, 0 ≤ sqrt x) (hstart : hasPos nodes start)
    (hgoal : hasPos nodes goal) :
    ∃ (N : Nat) (st : SearchState D) (p : List String),
      (∀ fuel, N ≤ fuel → findOptimalPath sqrt fuel nodes adjacency start goal = .done p) ∧
      Inv sqrt nodes adjacency start st ∧
      ((Closed nodes adjacency goal st ∧ st.pq = []) ∨ distAt st.dist goal < ⊤) ∧
      ((distAt st.dist goal = ⊤ ∧ p = []) ∨
        (distAt st.dist goal < ⊤ ∧ ∃ C, PrevChain st.prev start (goal :: C) ∧
          p = ((goal :: C).takeWhile (fun s => decide (s ≠ ""))).reverse)) := by
  obtain ⟨st, h1, h2, _, h4⟩ := search_completes goal hs hstart (fun _ => True)
    (fun _ _ _ => trivial) (fun _ _ _ _ _ _ _ _ _ => trivial) trivial
  have hexit : (Closed nodes adjacency goal st ∧ st.pq = []) ∨ distAt st.dist goal < ⊤ := by
    rcases h4 with h | h
    · exact Or.inl h
    · exact Or.inr h.1
  by_cases ht : distAt st.dist goal = ⊤
  · refine ⟨potential sqrt nodes (initState nodes start), st, [], ?_, h2, hexit, Or.inl ⟨ht, rfl⟩⟩
    intro fuel hf
    rw [findOptimalPath_of_search sqrt nodes adjacency start goal fuel st (h1 fuel hf)]
    simp [ht]
  · have hfin : distAt st.dist goal < ⊤ := lt_top_iff_ne_top.2 ht
    obtain ⟨C, hC⟩ := h2.chain goal hgoal hfin
    refine ⟨max (potential sqrt nodes (initState nodes start)) (goal :: C).length, st, _, ?_,
      h2, hexit, Or.inr ⟨hfin, C, hC, rfl⟩⟩
    intro fuel hf
    rw [findOptimalPath_of_search sqrt nodes adjacency start goal fuel st
      (h1 fuel (le_trans (le_max_left _ _) hf))]
    rw [if_neg ht, walkBack_chain st.prev start h2.prev_start C goal [] fuel hC
      (le_trans (le_max_right _ _) hf)]
    simp

theorem takeWhile_all (l : List String) (h : ∀ x ∈ l, x ≠ "") :
    l.takeWhile (fun s => decide (s ≠ "")) = l := by
  rw [List.takeWhile_eq_self_iff]
  intro x hx
  simpa using h x hx

end Results
section WellFormed

variable {D : Type} [LinearOrderedCommRing D]

/-! ## The result of `findOptimalPath` -/

theorem intSqrt_nonneg (z : ℤ) : 0 ≤ intSqrt z :=
  Int.natCast_nonneg _

/-- Well-formed result, for any number model: when the square root is never
negative, no name with a position is empty, and start and goal have positions,
`findOptimalPath` returns (the same list for every sufficient fuel), and a
non-empty returned list leads from start to goal through positioned nodes
along declared links. -/
theorem wellFormed_of_sqrt (sqrt : D → D) (hs : ∀ x, 0 ≤ sqrt x) (nodes : NodeMap D)
    (adjacency : AdjMap) (start goal : String) (hne : ∀ k, hasPos nodes k → k ≠ "")
    (hstart : hasPos nodes start) (hgoal : hasPos nodes goal) :
    (∃ N p, ∀ fuel, N ≤ fuel →
        findOptimalPath sqrt fuel nodes adjacency start goal = .done p) ∧
      ∀ fuel p, findOptimalPath sqrt fuel nodes adjacency start goal = .done p → p ≠ [] →
        p.head? = some start ∧ p.getLast? = some goal ∧ (∀ x ∈ p, hasPos nodes x) ∧
          p.Chain' (fun a b => b ∈ linksOf adjacency a) := by
  obtain ⟨N, st, p, hrun, hinv, _, hshape⟩ :=
    findOptimalPath_shape sqrt nodes adjacency start goal hs hstart hgoal
  refine ⟨⟨N, p, hrun⟩, ?_⟩
  intro fuel p' hp' hne'
  have hpp : p' = p :=
    findOptimalPath_unique sqrt nodes adjacency start goal fuel N p' p hp' (hrun N (le_refl _))
  subst hpp
  rcases hshape with ⟨_, hnil⟩ | ⟨_, C, hC, hp⟩
  · exact absurd hnil hne'
  · obtain ⟨c1, c2, c3⟩ := prevChain_props hinv hstart C goal hC
    rw [takeWhile_all _ (fun x hx => hne x (c1 x hx))] at hp
    subst hp
    refine ⟨?_, ?_, ?_, ?_⟩
    · rw [List.head?_reverse]; exact c2
    · rw [List.getLast?_reverse]; rfl
    · intro x hx
      exact c1 x (List.mem_reverse.1 hx)
    · rw [List.chain'_reverse]
      exact c3

/-- Reachability decides emptiness where the arithmetic is exact (no overflow
to infinity): when the square root is never negative, start and goal have
positions and the goal is not the empty name, `findOptimalPath` returns, and
the list is empty exactly when no route leads from start to goal. Used for the
three-node scenario, whose numbers are exact in `double`. -/
theorem emptyIffUnreachable_of_sqrt (sqrt : D → D) (hs : ∀ x, 0 ≤ sqrt x)
    (nodes : NodeMap D) (adjacency : AdjMap) (start goal : String)
    (hstart : hasPos nodes start) (hgoal : hasPos nodes goal) (hg : goal ≠ "") :
    ∃ N p, (∀ fuel, N ≤ fuel →
        findOptimalPath sqrt fuel nodes adjacency start goal = .done p) ∧
      (p = [] ↔ ¬ Reachable nodes adjacency start goal) := by
  obtain ⟨N, st, p, hrun, hinv, hexit, hshape⟩ :=
    findOptimalPath_shape sqrt nodes adjacency start goal hs hstart hgoal
  refine ⟨N, p, hrun, ?_⟩
  rcases hshape with ⟨htop, hnil⟩ | ⟨hfin, C, hC, hp⟩
  · refine ⟨fun _ => ?_, fun _ => hnil⟩
    rintro ⟨q, hr, hhead, hlast⟩
    have hcontra : distAt st.dist goal < ⊤ := by
      rcases hexit with ⟨hcl, hpq⟩ | h
      · cases q with
        | nil => simp at hhead
        | cons x q' =>
          have hx : x = start := by simpa using hhead
          subst hx
          refine closed_route hcl hpq q' x hr hlast ?_
          rw [hinv.start_zero]
          exact WithTop.top_pos
      · exact h
    rw [htop] at hcontra
    exact absurd hcontra (lt_irrefl _)
  · have hpne : p ≠ [] := by
      rw [hp, List.takeWhile_cons]
      simp [hg]
    have hreach : Reachable nodes adjacency start goal := by
      obtain ⟨c1, c2, c3⟩ := prevChain_props hinv hstart C goal hC
      refine ⟨(goal :: C).reverse, ⟨fun x hx => c1 x (List.mem_reverse.1 hx), ?_⟩, ?_, ?_⟩
      · rw [List.chain'_reverse]; exact c3
      · rw [List.head?_reverse]; exact c2
      · rw [List.getLast?_reverse]; rfl
    exact ⟨fun h => absurd h hpne, fun h => absurd hreach h⟩

end WellFormed
section Concrete

variable {D : Type} [LinearOrderedCommRing D]

/-! ## Worked examples -/

theorem sqrt_twentyfive (sqrt : D → D) (hs : ∀ x, 0 ≤ sqrt x)
    (hsq : ∀ x, 0 ≤ x → sqrt x * sqrt x = x) : sqrt 25 = 5 := by
  have h := hsq 25 (by norm_num)
  have h5 : (5 : D) * 5 = 25 := by norm_num
  rw [← h5] at h
  have := (mul_self_inj (hs (5 * 5)) (by norm_num : (0 : D) ≤ 5)).1 h
  rwa [h5] at this

/-- The three-node scenario, for any number model with an exact non-negative
square root: the result is [A, B, C] and the caller's total is 5 + 5 = 10. -/
theorem threeNodes_of_sqrt (sqrt : D → D) (hs : ∀ x, 0 ≤ sqrt x)
    (hsq : ∀ x, 0 ≤ x → sqrt x * sqrt x = x) :
    (∃ N, ∀ fuel, N ≤ fuel →
        findOptimalPath sqrt fuel (nodesABC D) adjABC "A" "C" = .done ["A", "B", "C"]) ∧
      totalDist sqrt (nodesABC D) ["A", "B", "C"] = 5 + 5 ∧ (5 + 5 : D) = 10 := by
  have hA : hasPos (nodesABC D) "A" := by simp [hasPos, nodesABC, List.lookup]
  have hB : hasPos (nodesABC D) "B" := by simp [hasPos, nodesABC, List.lookup]
  have hC : hasPos (nodesABC D) "C" := by simp [hasPos, nodesABC, List.lookup]
  have hne : ∀ k, hasPos (nodesABC D) k → k ≠ "" := fun k hk h => by
    subst h; simp [hasPos, nodesABC, List.lookup] at hk
  refine ⟨?_, ?_, by norm_num⟩
  · obtain ⟨N, p, hrun, hiff⟩ := emptyIffUnreachable_of_sqrt sqrt hs (nodesABC D)
      adjABC "A" "C" hA hC (by decide)
    have hwf := (wellFormed_of_sqrt sqrt hs (nodesABC D) adjABC "A" "C" hne hA hC).2
      N p (hrun N (le_refl _))
    have hreach : Reachable (nodesABC D) adjABC "A" "C" := by
      refine ⟨["A", "B", "C"], ⟨?_, by simp [linksOf, adjABC, List.lookup]⟩, rfl, rfl⟩
      intro x hx
      simp only [List.mem_cons, List.mem_singleton, List.not_mem_nil, or_false] at hx
      rcases hx with rfl | rfl | rfl
      · exact hA
      · exact hB
      · exact hC
    have hpne : p ≠ [] := fun h => (hiff.1 h) hreach
    obtain ⟨h1, h2, _, h4⟩ := hwf hpne
    have hp : p = ["A", "B", "C"] := by
      have lA : linksOf adjABC "A" = ["B"] := by decide
      have lB : linksOf adjABC "B" = ["C"] := by decide
      have lC : linksOf adjABC "C" = [] := by decide
      cases p with
      | nil => exact absurd rfl hpne
      | cons a t =>
        have ha : a = "A" := by simpa using h1
        subst ha
        cases t with
        | nil => simp at h2
        | cons b t =>
          obtain ⟨hb, h4'⟩ := List.chain'_cons.1 h4
          rw [lA] at hb
          have hb' : b = "B" := by simpa using hb
          subst hb'
          cases t with
          | nil => simp at h2
          | cons c t =>
            obtain ⟨hc, h4''⟩ := List.chain'_cons.1 h4'
            rw [lB] at hc
            have hc' : c = "C" := by simpa using hc
            subst hc'
            cases t with
            | nil => rfl
            | cons d t =>
              obtain ⟨hd, _⟩ := List.chain'_cons.1 h4''
              rw [lC] at hd
              simp at hd
    subst hp
    exact ⟨N, hrun⟩
  · have pA : posAt (nodesABC D) "A" = ⟨0, 0, 0⟩ := by
      simp [posAt, nodesABC, List.lookup]
    have pB : posAt (nodesABC D) "B" = ⟨3, 4, 0⟩ := by
      simp [posAt, nodesABC, List.lookup]
    have pC : posAt (nodesABC D) "C" = ⟨3, 4, 5⟩ := by
      simp [posAt, nodesABC, List.lookup]
    simp only [totalDist, totalDistLoop, pA, pB, pC]
    have e1 : ((0 : D) - 3) ^ 2 + (0 - 4) ^ 2 + (0 - 0) ^ 2 = 25 := by norm_num
    have e2 : ((3 : D) - 3) ^ 2 + (4 - 4) ^ 2 + (0 - 5) ^ 2 = 25 := by norm_num
    rw [e1, e2, sqrt_twentyfive sqrt hs hsq]
    ring

/-- The three-node scenario run on the integers: four iterations suffice. -/
theorem findOptimalPath_three_nodes_run :
    findOptimalPath intSqrt 4 (nodesABC ℤ) adjABC "A" "C" = .done ["A", "B", "C"] ∧
      totalDist intSqrt (nodesABC ℤ) ["A", "B", "C"] = 10 := by
  decide

end Concrete
section LinkPassThms

variable {D : Type} [LinearOrderedCommRing D]

/-! ## The link pass -/

theorem linkStep_eq (sqrt : D → D) (tx : NodeConfig D) (target : String) (s : SimState D) :
    linkStep sqrt tx target s
      = { nodes := s.nodes, trace := s.trace ++ [effectOf sqrt s.nodes tx target] } := by
  unfold linkStep effectOf
  cases findNode s.nodes target <;> rfl

theorem linkLoop_eq (sqrt : D → D) (tx : NodeConfig D) :
    ∀ (links : List String) (s : SimState D),
      linkLoop sqrt tx links s
        = { nodes := s.nodes, trace := s.trace ++ links.map (effectOf sqrt s.nodes tx) } := by
  intro links
  induction links with
  | nil => intro s; simp [linkLoop]
  | cons l rest ih =>
    intro s
    rw [linkLoop, ih, linkStep_eq]
    simp

theorem nodeLoop_eq (sqrt : D → D) :
    ∀ (l : List (NodeConfig D)) (s : SimState D),
      nodeLoop sqrt l s
        = { nodes := s.nodes,
            trace := s.trace ++ l.flatMap (fun tx => tx.links.map (effectOf sqrt s.nodes tx)) } := by
  intro l
  induction l with
  | nil => intro s; simp [nodeLoop]
  | cons tx rest ih =>
    intro s
    rw [nodeLoop, ih, linkLoop_eq]
    simp

/-- The pass appends its effects to the trace and hands the node vector on as it is. -/
theorem linkPass_eq (sqrt : D → D) (s : SimState D) :
    linkPass sqrt s = { nodes := s.nodes, trace := s.trace ++ passEffects sqrt s.nodes } :=
  nodeLoop_eq sqrt s.nodes s

theorem simCalls_append (t1 t2 : List (Effect D)) :
    simCalls (t1 ++ t2) = simCalls t1 ++ simCalls t2 := by
  induction t1 with
  | nil => rfl
  | cons e t ih =>
    cases e with
    | sim c => simp [simCalls, ih]
    | warn w => simp [simCalls, ih]

theorem warnings_append (t1 t2 : List (Effect D)) :
    warnings (t1 ++ t2) = warnings t1 ++ warnings t2 := by
  induction t1 with
  | nil => rfl
  | cons e t ih =>
    cases e with
    | sim c => simp [warnings, ih]
    | warn w => simp [warnings, ih]

theorem findNode_eq_find (nodes : List (NodeConfig D)) (name : String) :
    findNode nodes name = nodes.find? (fun n => decide (n.name = name)) := by
  induction nodes with
  | nil => rfl
  | cons n rest ih =>
    by_cases h : n.name = name
    · simp [findNode, h]
    · simp [findNode, h, ih]

theorem findNode_none_of_no_match (nodes : List (NodeConfig D)) (name : String)
    (h : ∀ n ∈ nodes, n.name ≠ name) : findNode nodes name = none := by
  induction nodes with
  | nil => rfl
  | cons n rest ih =>
    have h1 : n.name ≠ name := h n (by simp)
    simp only [findNode, h1, if_false]
    exact ih (fun m hm => h m (List.mem_cons_of_mem _ hm))

theorem simCalls_links (sqrt : D → D) (nodes : List (NodeConfig D)) (tx : NodeConfig D)
    (links : List String) :
    simCalls (links.map (effectOf sqrt nodes tx))
      = links.filterMap (fun target =>
          (nodes.find? (fun n => decide (n.name = target))).map (fun rx =>
            ({ distance := distanceBetween sqrt ⟨tx.x, tx.y, tx.z⟩ ⟨rx.x, rx.y, rx.z⟩,
               freqMHz := tx.freqMHz, txPowerdBm := tx.txPowerBm,
               rate := effectiveRate tx.txRate rx.rxRate } : SimCall D))) := by
  induction links with
  | nil => rfl
  | cons l rest ih =>
    rw [List.map_cons, List.filterMap_cons]
    unfold effectOf
    rw [findNode_eq_find]
    cases hf : nodes.find? (fun n => decide (n.name = l)) with
    | none => simpa [simCalls, effectOf] using ih
    | some rx =>
      simp only [simCalls, Option.map_some']
      congr 1

theorem simCalls_flatMap (sqrt : D → D) (nodes : List (NodeConfig D)) :
    ∀ l : List (NodeConfig D),
      simCalls (l.flatMap (fun tx => tx.links.map (effectOf sqrt nodes tx)))
        = l.flatMap (fun tx =>
            tx.links.filterMap (fun target =>
              (nodes.find? (fun n => decide (n.name = target))).map (fun rx =>
                ({ distance := distanceBetween sqrt ⟨tx.x, tx.y, tx.z⟩ ⟨rx.x, rx.y, rx.z⟩,
                   freqMHz := tx.freqMHz, txPowerdBm := tx.txPowerBm,
                   rate := effectiveRate tx.txRate rx.rxRate } : SimCall D)))) := by
  intro l
  induction l with
  | nil => rfl
  | cons tx rest ih =>
    rw [List.flatMap_cons, List.flatMap_cons, simCalls_append, ih, simCalls_links]

theorem simCalls_passEffects (sqrt : D → D) (nodes : List (NodeConfig D)) :
    simCalls (passEffects sqrt nodes) = expectedCalls sqrt nodes :=
  simCalls_flatMap sqrt nodes nodes

theorem sameButLinks_refl (a : NodeConfig D) : SameButLinks a a :=
  ⟨rfl, rfl, rfl, rfl, rfl, rfl, rfl, rfl, rfl⟩

/-- Lookup by name in two node lists that differ only in link lists finds
records that differ only in link lists. -/
theorem findNode_sameButLinks (name : String) :
    ∀ (ns ns' : List (NodeConfig D)), List.Forall₂ SameButLinks ns ns' →
      (findNode ns name = none ∧ findNode ns' name = none) ∨
        ∃ r r', findNode ns name = some r ∧ findNode ns' name = some r' ∧ SameButLinks r r' := by
  intro ns ns' h
  induction h with
  | nil => exact Or.inl ⟨rfl, rfl⟩
  | @cons a b l l' hab _ ih =>
    by_cases hn : a.name = name
    · right
      have hb : b.name = name := by rw [← hab.1]; exact hn
      exact ⟨a, b, by simp [findNode, hn], by simp [findNode, hb], hab⟩
    · have hb : ¬ b.name = name := by rw [← hab.1]; exact hn
      simp only [findNode, hn, hb, if_false]
      exact ih

theorem simCallOf_sameButLinks (sqrt : D → D) (tx tx' rx rx' : NodeConfig D)
    (ht : SameButLinks tx tx') (hr : SameButLinks rx rx') :
    simCallOf sqrt tx rx = simCallOf sqrt tx' rx' := by
  obtain ⟨_, _, t3, t4, t5, t6, t7, t8, _⟩ := ht
  obtain ⟨_, _, r3, r4, r5, _, _, _, r9⟩ := hr
  simp only [simCallOf, t3, t4, t5, t6, t7, t8, r3, r4, r5, r9]

theorem effectOf_sameButLinks (sqrt : D → D) (ns ns' : List (NodeConfig D))
    (h : List.Forall₂ SameButLinks ns ns') (tx tx' : NodeConfig D)
    (ht : SameButLinks tx tx') (target : String) :
    effectOf sqrt ns tx target = effectOf sqrt ns' tx' target := by
  unfold effectOf
  rcases findNode_sameButLinks target ns ns' h with ⟨h1, h2⟩ | ⟨r, r', h1, h2, hr⟩
  · rw [h1, h2]
  · rw [h1, h2]
    simp only []
    rw [simCallOf_sameButLinks sqrt tx tx' r r' ht hr]

theorem forall₂_sameButLinks_refl (l : List (NodeConfig D)) :
    List.Forall₂ SameButLinks l l := by
  induction l with
  | nil => exact List.Forall₂.nil
  | cons a t ih => exact List.Forall₂.cons (sameButLinks_refl a) ih

end LinkPassThms
section Failures

variable {D : Type} [LinearOrderedCommRing D]

/-! ## Runs that end without a proper path -/

/-- A goal that has no position and is not the empty name is returned as a
one-element list: `dist[goal]` reads 0.0 for the absent key. -/
theorem unknownGoal_of_sqrt (sqrt : D → D) (hs : ∀ x, 0 ≤ sqrt x) (nodes : NodeMap D)
    (adjacency : AdjMap) (start goal : String) (hstart : hasPos nodes start)
    (hgoal : ¬ hasPos nodes goal) (hg : goal ≠ "") :
    ∃ N, ∀ fuel, N ≤ fuel →
      findOptimalPath sqrt fuel nodes adjacency start goal = .done [goal] := by
  have hgs : goal ≠ start := fun h => hgoal (h ▸ hstart)
  obtain ⟨st, h1, _, ⟨hp, hd⟩, _⟩ := search_completes goal hs hstart
    (fun st : SearchState D => st.prev goal = none ∧ distAt st.dist goal = 0)
    (fun _ _ h => h)
    (fun st u v _ hx _ hv _ _ => by
      have hvg : goal ≠ v := fun h => hgoal (h ▸ hv)
      refine ⟨?_, ?_⟩
      · show mapSet st.prev v u goal = none
        simp [mapSet, hvg, hx.1]
      · show distAt (mapSet st.dist v _) goal = 0
        rw [distAt_mapSet]
        simp [hvg, hx.2])
    ⟨rfl, by rw [initState_dist]; simp [hgs, hgoal]⟩
  refine ⟨max (potential sqrt nodes (initState nodes start)) 1, ?_⟩
  intro fuel hf
  rw [findOptimalPath_of_search sqrt nodes adjacency start goal fuel st
    (h1 fuel (le_trans (le_max_left _ _) hf))]
  have hne : distAt st.dist goal ≠ ⊤ := by rw [hd]; exact WithTop.zero_ne_top
  rw [if_neg hne]
  obtain ⟨f, rfl⟩ : ∃ f, fuel = f + 1 :=
    ⟨fuel - 1, by have := le_trans (le_max_right _ _) hf; omega⟩
  rw [walkBack_succ st.prev f goal [] hg, hp]
  simp only []
  rw [walkBack_empty]
  rfl

/-- The inner loop throws as soon as it meets a positioned link when the
expanded name has no position. -/
theorem relax_throws (sqrt : D → D) (nodes : NodeMap D) (u : String) (hu : ¬ hasPos nodes u) :
    ∀ (links : List String) (st : SearchState D), (∃ v ∈ links, hasPos nodes v) →
      relax sqrt nodes u links st = .outOfRange := by
  have hnone : nodes.lookup u = none := by
    cases h : nodes.lookup u with
    | none => rfl
    | some p => exact absurd ((hasPos_iff nodes u).2 ⟨p, h⟩) hu
  intro links
  induction links with
  | nil => intro st ⟨v, hv, _⟩; exact absurd hv (List.not_mem_nil v)
  | cons w rest ih =>
    intro st ⟨v, hv, hvp⟩
    cases hw : nodes.lookup w with
    | none =>
      have hstep : relaxStep sqrt nodes u w st = .done st := by simp [relaxStep, hw]
      have hv' : v ∈ rest := by
        rcases List.mem_cons.1 hv with h | h
        · exfalso
          obtain ⟨p, hp⟩ := (hasPos_iff nodes v).1 hvp
          rw [h, hw] at hp
          cases hp
        · exact h
      simp only [relax, hstep]
      exact ih st ⟨v, hv', hvp⟩
    | some pw =>
      have hstep : relaxStep sqrt nodes u w st = .outOfRange := by simp [relaxStep, hw, hnone]
      simp only [relax, hstep]

/-- A start that has no position but a declared link to a positioned node
makes the function throw in the first iteration. -/
theorem unpositionedStart_throws (sqrt : D → D) (nodes : NodeMap D) (adjacency : AdjMap)
    (start goal : String) (hstart : ¬ hasPos nodes start) (hsg : start ≠ goal)
    (v : String) (hv : v ∈ linksOf adjacency start) (hvp : hasPos nodes v) (k : Nat) :
    findOptimalPath sqrt (1 + k) nodes adjacency start goal = .outOfRange := by
  obtain ⟨links, hlk⟩ : ∃ links, adjacency.lookup start = some links := by
    cases h : adjacency.lookup start with
    | none => rw [linksOf_of_lookup_none adjacency start h] at hv; simp at hv
    | some l => exact ⟨l, rfl⟩
  have hlinks := linksOf_of_lookup adjacency start links hlk
  have hrun : searchLoop sqrt nodes adjacency goal (k + 1) (initState nodes start)
      = .outOfRange := by
    rw [searchLoop_succ _ _ _ _ _ _ start [] (initState_pq nodes start), if_neg hsg]
    simp only [hlk]
    rw [relax_throws sqrt nodes start hstart links _ ⟨v, by rw [← hlinks]; exact hv, hvp⟩]
  unfold findOptimalPath
  rw [Nat.add_comm 1 k, hrun]

/-- The run S → "" → G, for any number model: the walk stops at the empty name. -/
theorem blank_run_middle (sqrt : D → D) :
    findOptimalPath sqrt 3 (blankNodes D) blankAdj "S" "G" = .done ["G"] := by
  simp [findOptimalPath, searchLoop, initState, initInfinity, blankNodes, blankAdj, pqPush,
    pushHeap, pushHeapLoop, pqPop, popHeap, relax, relaxStep, List.lookup, mapSet, distAt,
    walkBack, cmp, ← WithTop.coe_add, WithTop.coe_lt_top]

/-- The run from S to the goal "", for any number model: the walk does not start. -/
theorem blank_run_goal (sqrt : D → D) :
    findOptimalPath sqrt 3 (blankNodes D) blankAdj "S" "" = .done [] := by
  simp [findOptimalPath, searchLoop, initState, initInfinity, blankNodes, blankAdj, pqPush,
    pushHeap, pushHeapLoop, pqPop, popHeap, relax, relaxStep, List.lookup, mapSet, distAt,
    walkBack, cmp, ← WithTop.coe_add, WithTop.coe_lt_top]

/-- The run from the start "" to G, for any number model: the walk drops the start. -/
theorem blank_run_start (sqrt : D → D) :
    findOptimalPath sqrt 3 (blankNodes D) blankAdj "" "G" = .done ["G"] := by
  simp [findOptimalPath, searchLoop, initState, initInfinity, blankNodes, blankAdj, pqPush,
    pushHeap, pushHeapLoop, pqPop, popHeap, relax, relaxStep, List.lookup, mapSet, distAt,
    walkBack, cmp, ← WithTop.coe_add, WithTop.coe_lt_top]

end Failures

section Termination

variable {D : Type} [LinearOrderedCommRing D]

/-! ## Termination of the search -/

/-- A pass of the inner loop that completes leaves the state as it was, or it
strictly lowers the tentative distance of `v`, leaves the other distances, and
adds `v` once to the queue. -/
theorem relaxStep_strict (sqrt : D → D) (nodes : NodeMap D) (u v : String)
    (st st' : SearchState D) (h : relaxStep sqrt nodes u v st = .done st') :
    st' = st ∨
      (distAt st'.dist v < distAt st.dist v ∧
        (∀ k, k ≠ v → distAt st'.dist k = distAt st.dist k) ∧ st'.pq.Perm (v :: st.pq)) := by
  unfold relaxStep at h
  cases hv : nodes.lookup v with
  | none =>
    rw [hv] at h
    exact Or.inl (Outcome.done.inj h).symm
  | some pv =>
    rw [hv] at h
    cases hu : nodes.lookup u with
    | none => rw [hu] at h; simp at h
    | some pu =>
      rw [hu] at h
      simp only [] at h
      split at h
      · rename_i hlt
        right
        have e := Outcome.done.inj h
        subst e
        refine ⟨?_, ?_, pqPush_perm _ _ _⟩
        · show distAt (mapSet st.dist v _) v < _
          rw [distAt_mapSet]
          simpa using hlt
        · intro k hk
          show distAt (mapSet st.dist v _) k = _
          rw [distAt_mapSet]
          simp [hk]
      · exact Or.inl (Outcome.done.inj h).symm

/-- Each successful relaxation uses up one of the finitely many candidate
paths that undercut a tentative distance. -/
theorem slack_improve {sqrt : D → D} {nodes : NodeMap D} {adjacency : AdjMap}
    {start : String} {st : SearchState D} (hs : ∀ x, 0 ≤ sqrt x)
    (hinv : Inv sqrt nodes adjacency start st) (u v : String)
    (hu : hasPos nodes u) (hv : hasPos nodes v)
    (hlt : altDist sqrt nodes st.dist u v < distAt st.dist v) :
    slack sqrt nodes (improve st u v (altDist sqrt nodes st.dist u v)).dist
      < slack sqrt nodes st.dist := by
  have hp := potential_improve hs hinv u v hu hv hlt
  have hlen : (improve st u v (altDist sqrt nodes st.dist u v)).pq.length = st.pq.length + 1 := by
    have := (pqPush_perm (cmp (mapSet st.dist v (altDist sqrt nodes st.dist u v))) st.pq v).length_eq
    simpa [improve] using this
  unfold potential at hp
  omega

/-- From a start with a position every call returns, whatever the goal: the
main loop runs at most `potential` times and the backward walk ends. -/
theorem returns_of_sqrt (sqrt : D → D) (hs : ∀ x, 0 ≤ sqrt x) (nodes : NodeMap D)
    (adjacency : AdjMap) (start goal : String) (hstart : hasPos nodes start) :
    ∃ N p, ∀ fuel, N ≤ fuel →
      findOptimalPath sqrt fuel nodes adjacency start goal = .done p := by
  by_cases hgoal : hasPos nodes goal
  · obtain ⟨N, _, p, h, _⟩ :=
      findOptimalPath_shape sqrt nodes adjacency start goal hs hstart hgoal
    exact ⟨N, p, h⟩
  · by_cases hg : goal = ""
    · obtain ⟨st, h1, _, _, _⟩ := search_completes goal hs hstart (fun _ => True)
        (fun _ _ _ => trivial) (fun _ _ _ _ _ _ _ _ _ => trivial) trivial
      refine ⟨potential sqrt nodes (initState nodes start),
        (if distAt st.dist goal = ⊤ then [] else []), ?_⟩
      intro fuel hf
      rw [findOptimalPath_of_search sqrt nodes adjacency start goal fuel st (h1 fuel hf)]
      subst hg
      rw [walkBack_empty]
      split <;> simp
    · obtain ⟨N, h⟩ := unknownGoal_of_sqrt sqrt hs nodes adjacency start goal hstart hgoal hg
      exact ⟨N, [goal], h⟩

end Termination

section PathParserThms

variable {D : Type} [LinearOrderedCommRing D]

/-! ## The parser of the path finder -/

theorem lookup_assign_ne {V : Type} (m : List (String × V)) (k j : String) (v : V)
    (hj : j ≠ k) : (assign m k v).lookup j = m.lookup j := by
  induction m with
  | nil => simp only [assign]; rw [lookup_cons_ne j k v [] hj]
  | cons b m ih =>
    obtain ⟨k', v'⟩ := b
    by_cases h : k' = k
    · simp only [assign, h, if_true]
      rw [lookup_cons_ne j k v m hj, lookup_cons_ne j k v' m hj]
    · simp only [assign, h, if_false]
      by_cases hjk : j = k'
      · subst hjk
        rw [lookup_cons_self, lookup_cons_self]
      · rw [lookup_cons_ne j k' v' _ hjk, lookup_cons_ne j k' v' _ hjk]
        exact ih

/-- A line with none of the three labels changes nothing. -/
theorem pathLine_ignored (readNum : List Char → Option (D × List Char))
    (stale : NodePosition D) (st : PathParse D) (line : String) (h : pathIgnores line) :
    pathLine readNum stale st line = st := by
  obtain ⟨h1, h2, h3⟩ := h
  simp [pathLine, h1, h2, h3]

theorem pathLine_location (readNum : List Char → Option (D × List Char))
    (stale : NodePosition D) (st : PathParse D) (line : String)
    (h1 : hasSub "Name:".data line.data = false)
    (h2 : hasSub "Location:".data line.data = true) (hc : st.currentNode ≠ "") :
    pathLine readNum stale st line
      = { st with nodes := assign st.nodes st.currentNode (pathPos readNum stale line.data) } := by
  simp [pathLine, h1, h2, hc]

end PathParserThms

section SimParserThms

variable {D : Type} [LinearOrderedCommRing D]

/-! ## The parser of the simulation -/

theorem simLoop_cons (readNum : List Char → Option (D × List Char)) (line : String)
    (rest : List String) (st : SimParse D) :
    simLoop readNum (line :: rest) st
      = match simLine readNum st line with
        | Parsed.ok st' => simLoop readNum rest st'
        | Parsed.invalidArgument => Parsed.invalidArgument := rfl

/-- A run over two stretches of lines that completes passes through a state
reached after the first stretch. -/
theorem simLoop_append (readNum : List Char → Option (D × List Char)) (a b : List String) :
    ∀ (st stF : SimParse D), simLoop readNum (a ++ b) st = Parsed.ok stF →
      ∃ st', simLoop readNum a st = Parsed.ok st' ∧ simLoop readNum b st' = Parsed.ok stF := by
  induction a with
  | nil => intro st stF h; exact ⟨st, rfl, h⟩
  | cons l a ih =>
    intro st stF h
    rw [List.cons_append, simLoop_cons] at h
    rw [simLoop_cons]
    cases hl : simLine readNum st l with
    | ok st1 =>
      rw [hl] at h
      exact ih st1 stF h
    | invalidArgument => rw [hl] at h; cases h

/-- A sentinel line closes the block: the record is appended when its name is
not empty, and a blank record is begun. -/
theorem simLine_header (readNum : List Char → Option (D × List Char)) (st : SimParse D)
    (line : String) (h : hasSub "NODECONFIGHEADER".data line.data = true) :
    simLine readNum st line = Parsed.ok { nodes := closeLast st, current := blankConfig } := by
  simp [simLine, h, closeLast]

/-- A line that is no sentinel leaves the vector alone; it leaves the name alone
unless it contains `Name:`, and the type unless it contains `Type:` and not `Name:`. -/
theorem simLine_keeps (readNum : List Char → Option (D × List Char)) (st st' : SimParse D)
    (line : String) (h : simLine readNum st line = Parsed.ok st')
    (hh : hasSub "NODECONFIGHEADER".data line.data = false) :
    st'.nodes = st.nodes ∧
      (hasSub "Name:".data line.data = false → st'.current.name = st.current.name) ∧
      (hasSub "Name:".data line.data = true ∨ hasSub "Type:".data line.data = false →
        st'.current.type = st.current.type) := by
  unfold simLine at h
  rw [if_neg (by simp [hh])] at h
  by_cases h1 : hasSub "Name:".data line.data = true
  · rw [if_pos h1] at h
    cases h
    simp [h1]
  rw [if_neg h1] at h
  by_cases h2 : hasSub "Type:".data line.data = true
  · rw [if_pos h2] at h
    cases h
    simp [h1, h2]
  rw [if_neg h2] at h
  have key : st'.nodes = st.nodes ∧ st'.current.name = st.current.name ∧
      st'.current.type = st.current.type := by
    split_ifs at h
    · cases h; exact ⟨rfl, rfl, rfl⟩
    · cases hs : stod readNum (afterColon line.data) with
      | ok v => rw [hs] at h; cases h; exact ⟨rfl, rfl, rfl⟩
      | invalidArgument => rw [hs] at h; cases h
    · cases hs : stod readNum (afterColon line.data) with
      | ok v => rw [hs] at h; cases h; exact ⟨rfl, rfl, rfl⟩
      | invalidArgument => rw [hs] at h; cases h
    · cases h; exact ⟨rfl, rfl, rfl⟩
    · cases h; exact ⟨rfl, rfl, rfl⟩
    · cases h; exact ⟨rfl, rfl, rfl⟩
    · cases h; exact ⟨rfl, rfl, rfl⟩
  exact ⟨key.1, fun _ => key.2.1, fun _ => key.2.2⟩

/-- Within a block, the vector is left alone; so is the name when no line
contains `Name:`, and the type when no line sets it. -/
theorem simLoop_block (readNum : List Char → Option (D × List Char)) (blk : List String) :
    ∀ (st st' : SimParse D), simLoop readNum blk st = Parsed.ok st' →
      (∀ l ∈ blk, hasSub "NODECONFIGHEADER".data l.data = false) →
      st'.nodes = st.nodes ∧
        ((∀ l ∈ blk, hasSub "Name:".data l.data = false) →
          st'.current.name = st.current.name) ∧
        ((∀ l ∈ blk, hasSub "Name:".data l.data = true ∨ hasSub "Type:".data l.data = false) →
          st'.current.type = st.current.type) := by
  induction blk with
  | nil => intro st st' h _; cases h; exact ⟨rfl, fun _ => rfl, fun _ => rfl⟩
  | cons l blk ih =>
    intro st st' h hh
    rw [simLoop_cons] at h
    cases hl : simLine readNum st l with
    | invalidArgument => rw [hl] at h; cases h
    | ok st1 =>
      rw [hl] at h
      obtain ⟨k1, k2, k3⟩ := simLine_keeps readNum st st1 l hl (hh l (List.mem_cons_self _ _))
      obtain ⟨i1, i2, i3⟩ := ih st1 st' h (fun m hm => hh m (List.mem_cons_of_mem _ hm))
      refine ⟨i1.trans k1, fun hn => ?_, fun ht => ?_⟩
      · exact (i2 (fun m hm => hn m (List.mem_cons_of_mem _ hm))).trans
          (k2 (hn l (List.mem_cons_self _ _)))
      · exact (i3 (fun m hm => ht m (List.mem_cons_of_mem _ hm))).trans
          (k3 (ht l (List.mem_cons_self _ _)))

/-- No line takes a record out of the vector. -/
theorem simLine_nodes_grow (readNum : List Char → Option (D × List Char)) (st st' : SimParse D)
    (line : String) (h : simLine readNum st line = Parsed.ok st') :
    ∀ r ∈ st.nodes, r ∈ st'.nodes := by
  by_cases hh : hasSub "NODECONFIGHEADER".data line.data = true
  · rw [simLine_header readNum st line hh] at h
    cases h
    intro r hr
    show r ∈ closeLast st
    unfold closeLast
    split
    · exact hr
    · exact List.mem_append_left _ hr
  · have := (simLine_keeps readNum st st' line h (by simpa using hh)).1
    intro r hr
    rw [this]; exact hr

theorem simLoop_nodes_grow (readNum : List Char → Option (D × List Char)) (lines : List String) :
    ∀ (st st' : SimParse D), simLoop readNum lines st = Parsed.ok st' →
      ∀ r ∈ st.nodes, r ∈ st'.nodes := by
  induction lines with
  | nil => intro st st' h; cases h; exact fun r hr => hr
  | cons l lines ih =>
    intro st st' h
    rw [simLoop_cons] at h
    cases hl : simLine readNum st l with
    | invalidArgument => rw [hl] at h; cases h
    | ok st1 =>
      rw [hl] at h
      exact fun r hr => ih st1 st' h r (simLine_nodes_grow readNum st st1 l hl r hr)

theorem mem_closeLast_of_nodes (st : SimParse D) (r : NodeConfig D) (h : r ∈ st.nodes) :
    r ∈ closeLast st := by
  unfold closeLast
  split
  · exact h
  · exact List.mem_append_left _ h

theorem current_mem_closeLast (st : SimParse D) (h : st.current.name ≠ "") :
    st.current ∈ closeLast st := by
  simp [closeLast, h]

/-- A block whose record has a name when the block ends (at a sentinel line or
at the end of the text) contributes that record to the vector. -/
theorem block_record_kept (readNum : List Char → Option (D × List Char))
    (rest : List String) (st stF : SimParse D)
    (hrest : rest = [] ∨ ∃ s rest', rest = s :: rest' ∧
      hasSub "NODECONFIGHEADER".data s.data = true)
    (h : simLoop readNum rest st = Parsed.ok stF) (hname : st.current.name ≠ "") :
    st.current ∈ closeLast stF := by
  rcases hrest with rfl | ⟨s, rest', rfl, hs⟩
  · cases h
    exact current_mem_closeLast st hname
  · rw [simLoop_cons, simLine_header readNum st s hs] at h
    simp only [] at h
    exact mem_closeLast_of_nodes stF _
      (simLoop_nodes_grow readNum rest' _ stF h _ (current_mem_closeLast st hname))

end SimParserThms

section TextThms

/-! ## The text operations -/

theorem dropWhile_append_all (p : Char → Bool) (pre rest : List Char)
    (h : ∀ c ∈ pre, p c = true) : (pre ++ rest).dropWhile p = rest.dropWhile p := by
  induction pre with
  | nil => rfl
  | cons a pre ih =>
    rw [List.cons_append, List.dropWhile_cons_of_pos (h a (List.mem_cons_self _ _))]
    exact ih (fun c hc => h c (List.mem_cons_of_mem _ hc))

theorem dropWhile_head_not (p : Char → Bool) (m : List Char)
    (h : ∀ c, m.head? = some c → p c = false) : m.dropWhile p = m := by
  cases m with
  | nil => rfl
  | cons a m =>
    exact List.dropWhile_cons_of_neg (by simp [h a rfl])

/-- Trimming takes away a border of characters of the set around a text that
neither begins nor ends with one. -/
theorem trim_sandwich (pre m post : List Char) (hpre : ∀ c ∈ pre, isTrimChar c = true)
    (hpost : ∀ c ∈ post, isTrimChar c = true)
    (hhead : ∀ c, m.head? = some c → isTrimChar c = false)
    (hlast : ∀ c, m.getLast? = some c → isTrimChar c = false) :
    trim (pre ++ m ++ post) = m := by
  unfold trim
  rw [List.append_assoc, dropWhile_append_all _ pre _ hpre]
  by_cases hm : m = []
  · subst hm
    rw [List.nil_append, List.dropWhile_eq_nil_iff.2 hpost]
    rfl
  · have h1 : (m ++ post).dropWhile isTrimChar = m ++ post := by
      apply dropWhile_head_not
      intro c hc
      cases m with
      | nil => exact absurd rfl hm
      | cons a m => exact hhead c (by simpa using hc)
    rw [h1, List.reverse_append,
      dropWhile_append_all _ post.reverse _ (fun c hc => hpost c (List.mem_reverse.1 hc)),
      dropWhile_head_not _ m.reverse (fun c hc => hlast c (by rw [List.head?_reverse] at hc; exact hc)),
      List.reverse_reverse]

/-- What trimming does: it removes a leading and a trailing stretch of
characters of the set and leaves a text that neither begins nor ends with one. -/
theorem trim_spec (s : List Char) :
    ∃ pre post, s = pre ++ trim s ++ post ∧ (∀ c ∈ pre, isTrimChar c = true) ∧
      (∀ c ∈ post, isTrimChar c = true) ∧
      (∀ c, (trim s).head? = some c → isTrimChar c = false) ∧
      (∀ c, (trim s).getLast? = some c → isTrimChar c = false) := by
  have hd : s.dropWhile isTrimChar
      = trim s ++ ((s.dropWhile isTrimChar).reverse.takeWhile isTrimChar).reverse := by
    unfold trim
    rw [← List.reverse_append, List.takeWhile_append_dropWhile, List.reverse_reverse]
  have hlast : ∀ c, (trim s).getLast? = some c → isTrimChar c = false := by
    intro c hc
    unfold trim at hc
    rw [List.getLast?_reverse] at hc
    have := List.head?_dropWhile_not isTrimChar (s.dropWhile isTrimChar).reverse
    rw [hc] at this
    exact this
  have hhead : ∀ c, (trim s).head? = some c → isTrimChar c = false := by
    intro c hc
    have h2 : (s.dropWhile isTrimChar).head? = some c := by
      rw [hd]
      cases ht : trim s with
      | nil => rw [ht] at hc; cases hc
      | cons a t => rw [ht] at hc; simpa using hc
    have := List.head?_dropWhile_not isTrimChar s
    rw [h2] at this
    exact this
  refine ⟨s.takeWhile isTrimChar,
    ((s.dropWhile isTrimChar).reverse.takeWhile isTrimChar).reverse, ?_, ?_, ?_, hhead, hlast⟩
  · rw [List.append_assoc, ← hd, List.takeWhile_append_dropWhile]
  · exact fun c hc => List.mem_takeWhile_imp hc
  · exact fun c hc => List.mem_takeWhile_imp (List.mem_reverse.1 hc)

theorem trim_all (s : List Char) (h : ∀ c ∈ s, isTrimChar c = true) : trim s = [] := by
  unfold trim
  rw [List.dropWhile_eq_nil_iff.2 h]
  rfl

theorem trim_trim (s : List Char) : trim (trim s) = trim s := by
  obtain ⟨_, _, _, _, _, hh, hl⟩ := trim_spec s
  have := trim_sandwich [] (trim s) [] (by simp) (by simp) hh hl
  simpa using this

theorem isTrimChar_iff (c : Char) :
    isTrimChar c = true ↔ c = ' ' ∨ c = '\t' ∨ c = '\r' ∨ c = '\n' ∨ c = '"' := by
  simp [isTrimChar, or_assoc]

end TextThms

section SimFieldThms

variable {D : Type} [LinearOrderedCommRing D]

theorem simLine_name (readNum : List Char → Option (D × List Char)) (st : SimParse D)
    (line : String) (hh : hasSub "NODECONFIGHEADER".data line.data = false)
    (hn : hasSub "Name:".data line.data = true) :
    simLine readNum st line
      = Parsed.ok { st with current :=
          { st.current with name := String.mk (afterColon line.data) } } := by
  simp [simLine, hh, hn]

theorem simLine_type (readNum : List Char → Option (D × List Char)) (st : SimParse D)
    (line : String) (hh : hasSub "NODECONFIGHEADER".data line.data = false)
    (hn : hasSub "Name:".data line.data = false) (ht : hasSub "Type:".data line.data = true) :
    simLine readNum st line
      = Parsed.ok { st with current :=
          { st.current with type := String.mk (afterColon line.data) } } := by
  simp [simLine, hh, hn, ht]

/-- The run of the loop behind a parse that completed, cut at one line of a
block: `cur` is the record of that block when the block ends. -/
theorem parseNodes_block (readNum : List Char → Option (D × List Char))
    (uninit : NodeConfig D) (pre mid rest : List String) (line : String)
    (out : List (NodeConfig D))
    (hparse : parseNodes readNum uninit (pre ++ line :: (mid ++ rest)) = Parsed.ok out)
    (hrest : rest = [] ∨ ∃ s rest', rest = s :: rest' ∧
      hasSub "NODECONFIGHEADER".data s.data = true) :
    ∃ st1 st2 st3 : SimParse D, simLine readNum st1 line = Parsed.ok st2 ∧
      simLoop readNum mid st2 = Parsed.ok st3 ∧
      (st3.current.name ≠ "" → cleanConfig st3.current ∈ out) ∧
      ∀ r ∈ out, ∃ raw, r = cleanConfig raw := by
  unfold parseNodes at hparse
  cases hrun : simLoop readNum (pre ++ line :: (mid ++ rest))
      { nodes := [], current := firstConfig uninit } with
  | invalidArgument => rw [hrun] at hparse; cases hparse
  | ok stF =>
    rw [hrun] at hparse
    have hout : out = (closeLast stF).map cleanConfig := (Parsed.ok.inj hparse).symm
    obtain ⟨st1, _, h1⟩ := simLoop_append readNum pre _ _ stF hrun
    rw [simLoop_cons] at h1
    cases hl : simLine readNum st1 line with
    | invalidArgument => rw [hl] at h1; cases h1
    | ok st2 =>
      rw [hl] at h1
      obtain ⟨st3, h3, h4⟩ := simLoop_append readNum mid rest st2 stF h1
      refine ⟨st1, st2, st3, hl, h3, ?_, ?_⟩
      · intro hname
        rw [hout]
        exact List.mem_map_of_mem _ (block_record_kept readNum rest st3 stF hrest h4 hname)
      · intro r hr
        rw [hout] at hr
        obtain ⟨raw, _, e⟩ := List.mem_map.1 hr
        exact ⟨raw, e.symm⟩

end SimFieldThms

section IgnoredThms

variable {D : Type} [LinearOrderedCommRing D]

/-- A line with none of the nine labels changes nothing. -/
theorem simLine_ignored (readNum : List Char → Option (D × List Char)) (st : SimParse D)
    (line : String) (h : simIgnores line) : simLine readNum st line = Parsed.ok st := by
  obtain ⟨h1, h2, h3, h4, h5, h6, h7, h8, h9⟩ := h
  simp [simLine, h1, h2, h3, h4, h5, h6, h7, h8, h9]

theorem pathIgnores_of_simIgnores (line : String) (h : simIgnores line) : pathIgnores line :=
  ⟨h.2.1, h.2.2.2.1, h.2.2.2.2.2.2.2.2⟩

end IgnoredThms

section MalformedThms

variable {D : Type} [LinearOrderedCommRing D]

/-! ## Text that holds no number -/

/-- When the text starts, after white space, with something that is no number,
`ss >> x >> y >> z` stores zero in `x` and leaves `y` and `z` as they were. -/
theorem extract3_no_number (readNum : List Char → Option (D × List Char)) (text : List Char)
    (x y z : D) (c : Char) (r : List Char) (h : text.dropWhile isSpace = c :: r)
    (hbad : readNum (c :: r) = none) : extract3 readNum text x y z = (0, y, z) := by
  simp [extract3, extractNum, h, hbad]

theorem simLine_location (readNum : List Char → Option (D × List Char)) (st : SimParse D)
    (line : String) (hh : hasSub "NODECONFIGHEADER".data line.data = false)
    (hn : hasSub "Name:".data line.data = false) (ht : hasSub "Type:".data line.data = false)
    (hl : hasSub "Location:".data line.data = true) :
    simLine readNum st line
      = Parsed.ok { st with current := { st.current with
          x := (extract3 readNum (commasToSpaces (afterColon line.data))
            st.current.x st.current.y st.current.z).1,
          y := (extract3 readNum (commasToSpaces (afterColon line.data))
            st.current.x st.current.y st.current.z).2.1,
          z := (extract3 readNum (commasToSpaces (afterColon line.data))
            st.current.x st.current.y st.current.z).2.2 } } := by
  simp [simLine, hh, hn, ht, hl]

/-- A frequency or power line whose text starts with no number throws. -/
theorem simLine_stod_throws (readNum : List Char → Option (D × List Char)) (st : SimParse D)
    (line : String) (hh : hasSub "NODECONFIGHEADER".data line.data = false)
    (hn : hasSub "Name:".data line.data = false) (ht : hasSub "Type:".data line.data = false)
    (hl : hasSub "Location:".data line.data = false)
    (hf : hasSub "Transmission Frequency:".data line.data = true ∨
      hasSub "Transmission Power:".data line.data = true)
    (hbad : readNum ((afterColon line.data).dropWhile isSpace) = none) :
    simLine readNum st line = Parsed.invalidArgument := by
  by_cases h5 : hasSub "Transmission Frequency:".data line.data = true
  · simp [simLine, hh, hn, ht, hl, h5, stod, hbad]
  · have h6 : hasSub "Transmission Power:".data line.data = true := by
      rcases hf with h | h
      · exact absurd h h5
      · exact h
    simp [simLine, hh, hn, ht, hl, h5, h6, stod, hbad]

/-- A parse that reaches a line that throws gives no vector. -/
theorem parseNodes_throws (readNum : List Char → Option (D × List Char))
    (uninit : NodeConfig D) (pre post : List String) (line : String)
    (h : ∀ st : SimParse D, simLine readNum st line = Parsed.invalidArgument)
    (out : List (NodeConfig D)) :
    parseNodes readNum uninit (pre ++ line :: post) ≠ Parsed.ok out := by
  intro hp
  unfold parseNodes at hp
  cases hrun : simLoop readNum (pre ++ line :: post)
      { nodes := [], current := firstConfig uninit } with
  | invalidArgument => rw [hrun] at hp; cases hp
  | ok stF =>
    obtain ⟨st1, _, h1⟩ := simLoop_append readNum pre _ _ stF hrun
    rw [simLoop_cons, h st1] at h1
    cases h1

end MalformedThms

section RoundTripThms

/-! ## Writing and reading a link list -/

theorem hasSub_iff_occurs (w l : List Char) : hasSub w l = true ↔ w <:+: l := by
  induction l with
  | nil =>
    cases w with
    | nil => simp [hasSub, List.isPrefixOf]
    | cons a w => simp [hasSub, List.isPrefixOf]
  | cons c rest ih =>
    rw [hasSub, Bool.or_eq_true, ih, List.infix_cons_iff, List.isPrefixOf_iff_prefix]

theorem hasSub_prefix (w rest : List Char) : hasSub w (w ++ rest) = true :=
  (hasSub_iff_occurs _ _).2 (List.prefix_append w rest).isInfix

theorem isNameChar_not_trim (c : Char) (h : isNameChar c = true) : isTrimChar c = false := by
  simp only [isNameChar, isSpace, isTrimChar, Bool.and_eq_true, Bool.not_eq_true',
    Bool.or_eq_false_iff, bne_iff_ne, ne_eq, beq_eq_false_iff_ne] at h ⊢
  obtain ⟨⟨⟨⟨⟨⟨⟨h1, h2⟩, h3⟩, _⟩, _⟩, h6⟩, _⟩, h8⟩ := h
  exact ⟨⟨⟨⟨h1, h2⟩, h6⟩, h3⟩, h8⟩

theorem isNameChar_not_space (c : Char) (h : isNameChar c = true) : isSpace c = false := by
  simp only [isNameChar, Bool.and_eq_true, Bool.not_eq_true'] at h
  exact h.1.1

theorem isNameChar_not_comma (c : Char) (h : isNameChar c = true) : c ≠ ',' := by
  simp only [isNameChar, Bool.and_eq_true, bne_iff_ne] at h
  exact h.1.2

/-- Characters that are no white space go to the token being read. -/
theorem tokensFrom_append (a : List Char) (ha : ∀ c ∈ a, isSpace c = false) :
    ∀ (s cur : List Char), tokensFrom (a ++ s) cur = tokensFrom s (a.reverse ++ cur) := by
  induction a with
  | nil => intro s cur; rfl
  | cons c a ih =>
    intro s cur
    have hc : isSpace c = false := ha c (List.mem_cons_self _ _)
    rw [List.cons_append, tokensFrom]
    simp only [hc, Bool.false_eq_true, if_false]
    rw [ih (fun d hd => ha d (List.mem_cons_of_mem _ hd))]
    simp

/-- A text without white space is one token. -/
theorem tokens_single (a : List Char) (hne : a ≠ []) (ha : ∀ c ∈ a, isSpace c = false) :
    tokens a = [a] := by
  have := tokensFrom_append a ha [] []
  rw [List.append_nil, List.append_nil] at this
  unfold tokens
  rw [this, tokensFrom]
  simp [hne]

/-- A text without white space that is followed by two spaces is the first token. -/
theorem tokens_spaces (a s : List Char) (hne : a ≠ []) (ha : ∀ c ∈ a, isSpace c = false) :
    tokens (a ++ ' ' :: ' ' :: s) = a :: tokens s := by
  unfold tokens
  rw [tokensFrom_append a ha, List.append_nil]
  have h1 : isSpace ' ' = true := by decide
  rw [tokensFrom]
  simp only [h1, if_true]
  rw [if_neg (by simpa using hne), List.reverse_reverse, tokensFrom]
  simp only [h1, if_true]

theorem linkText_ne_nil (sep a : List Char) (ha : a ≠ []) (ns : List String) :
    linkText sep a ns ≠ [] := by
  cases ns with
  | nil => exact ha
  | cons m ms => simp [linkText, ha]

/-- The written list, one quote in, is the link text and a closing quote. -/
theorem written_eq_linkText (ns : List String) :
    ∀ a : List Char, a ++ '"' :: ns.flatMap (fun m => ',' :: ' ' :: quoted m)
      = linkText [',', ' '] a ns ++ ['"'] := by
  induction ns with
  | nil => intro a; simp [linkText]
  | cons m ms ih =>
    intro a
    have := ih ('"' :: m.data)
    simp only [List.flatMap_cons, quoted, linkText, List.cons_append, List.append_assoc,
      List.nil_append] at this ⊢
    rw [this]

/-- Without commas in the names, turning commas into spaces turns the
separator `, ` into two spaces and nothing else. -/
theorem commasToSpaces_linkText (ns : List String) (hns : ∀ n ∈ ns, linkName n) :
    ∀ a : List Char, (∀ c ∈ a, c ≠ ',') →
      commasToSpaces (linkText [',', ' '] a ns) = linkText [' ', ' '] a ns := by
  have hmap : ∀ t : List Char, (∀ c ∈ t, c ≠ ',') → commasToSpaces t = t := by
    intro t ht
    unfold commasToSpaces
    conv_rhs => rw [← List.map_id t]
    apply List.map_congr_left
    intro c hc
    simp [ht c hc]
  induction ns with
  | nil => intro a ha; exact hmap a ha
  | cons m ms ih =>
    intro a ha
    have hm : ∀ c ∈ ('"' :: m.data), c ≠ ',' := by
      intro c hc
      rcases List.mem_cons.1 hc with rfl | hc'
      · decide
      · exact isNameChar_not_comma c ((hns m (List.mem_cons_self _ _)).2 c hc')
    have := ih (fun n hn => hns n (List.mem_cons_of_mem _ hn)) ('"' :: m.data) hm
    unfold commasToSpaces at this ⊢
    simp only [linkText, List.map_append, List.map_cons, List.map_nil] at this ⊢
    rw [this]
    have ha' := hmap a ha
    unfold commasToSpaces at ha'
    rw [ha']
    simp

theorem linkText_head (sep a : List Char) (ha : a ≠ []) (ns : List String) :
    (linkText sep a ns).head? = a.head? := by
  cases a with
  | nil => exact absurd rfl ha
  | cons x a =>
    cases ns with
    | nil => rfl
    | cons m ms => simp [linkText]

/-- The link text ends with the last character of the last name. -/
theorem linkText_last (sep : List Char) (ns : List String) (hns : ∀ n ∈ ns, linkName n) :
    ∀ a : List Char, (∀ c, a.getLast? = some c → isNameChar c = true) →
      ∀ c, (linkText sep a ns).getLast? = some c → isNameChar c = true := by
  induction ns with
  | nil => intro a ha c hc; exact ha c hc
  | cons m ms ih =>
    intro a _ c hc
    obtain ⟨hm1, hm2⟩ := hns m (List.mem_cons_self _ _)
    have hne : linkText sep ('"' :: m.data) ms ≠ [] := linkText_ne_nil sep _ (by simp) ms
    have e : linkText sep a (m :: ms)
        = (a ++ '"' :: sep) ++ linkText sep ('"' :: m.data) ms := by
      simp [linkText]
    rw [e, List.getLast?_append] at hc
    obtain ⟨x, hx⟩ : ∃ x, (linkText sep ('"' :: m.data) ms).getLast? = some x := by
      cases h : (linkText sep ('"' :: m.data) ms).getLast? with
      | none => exact absurd (List.getLast?_eq_none_iff.1 h) hne
      | some x => exact ⟨x, rfl⟩
    rw [hx] at hc
    simp only [Option.or_some] at hc
    have hxc : x = c := Option.some.inj hc
    rw [← hxc]
    refine ih (fun n hn => hns n (List.mem_cons_of_mem _ hn)) ('"' :: m.data) ?_ x hx
    intro d hd
    have : d ∈ ('"' :: m.data).getLast? := hd
    have hmem : d ∈ m.data := by
      cases hmd : m.data with
      | nil => exact absurd hmd hm1
      | cons y t =>
        rw [hmd, List.getLast?_cons_cons] at hd
        exact List.mem_of_mem_getLast? hd
    exact hm2 d hmem

/-- Reading the link text with two spaces as separator gives back the names. -/
theorem read_linkText (ns : List String) (hns : ∀ n ∈ ns, linkName n) :
    ∀ (pre core : List Char), (∀ c ∈ pre, isTrimChar c = true ∧ isSpace c = false) →
      core ≠ [] → (∀ c ∈ core, isNameChar c = true) →
      ((tokens (linkText [' ', ' '] (pre ++ core) ns)).map trim).filter
          (fun t => decide (t ≠ []))
        = core :: ns.map String.data := by
  induction ns with
  | nil =>
    intro pre core hpre hne hcore
    have hsp : ∀ c ∈ pre ++ core, isSpace c = false := by
      intro c hc
      rcases List.mem_append.1 hc with h | h
      · exact (hpre c h).2
      · exact isNameChar_not_space c (hcore c h)
    have htrim : trim (pre ++ core) = core := by
      have := trim_sandwich pre core [] (fun c hc => (hpre c hc).1) (by simp)
        (fun c hc => isNameChar_not_trim c (hcore c (List.mem_of_mem_head? hc)))
        (fun c hc => isNameChar_not_trim c (hcore c (List.mem_of_mem_getLast? hc)))
      simpa using this
    simp only [linkText]
    rw [tokens_single (pre ++ core) (by simp [hne]) hsp]
    simp [htrim, hne]
  | cons m ms ih =>
    intro pre core hpre hne hcore
    obtain ⟨hm1, hm2⟩ := hns m (List.mem_cons_self _ _)
    have hq : isSpace '"' = false := by decide
    have hsp : ∀ c ∈ pre ++ core ++ ['"'], isSpace c = false := by
      intro c hc
      rcases List.mem_append.1 hc with h | h
      · rcases List.mem_append.1 h with h | h
        · exact (hpre c h).2
        · exact isNameChar_not_space c (hcore c h)
      · rw [List.mem_singleton.1 h]; exact hq
    have htrim : trim (pre ++ core ++ ['"']) = core :=
      trim_sandwich pre core ['"'] (fun c hc => (hpre c hc).1)
        (fun c hc => by rw [List.mem_singleton.1 hc]; decide)
        (fun c hc => isNameChar_not_trim c (hcore c (List.mem_of_mem_head? hc)))
        (fun c hc => isNameChar_not_trim c (hcore c (List.mem_of_mem_getLast? hc)))
    have e : linkText [' ', ' '] (pre ++ core) (m :: ms)
        = (pre ++ core ++ ['"']) ++ ' ' :: ' ' :: linkText [' ', ' '] (['"'] ++ m.data) ms := by
      simp [linkText]
    rw [e, tokens_spaces _ _ (by simp) hsp, List.map_cons, htrim,
      List.filter_cons_of_pos (by simpa using hne),
      ih (fun n hn => hns n (List.mem_cons_of_mem _ hn)) ['"'] m.data
        (fun c hc => by rw [List.mem_singleton.1 hc]; exact ⟨by decide, by decide⟩) hm1 hm2]
    rfl

/-- The text after the colon of a written line. -/
theorem afterColon_writeLinks (body : List Char) :
    afterColon ("Linked Nodes: ".data ++ body) = ' ' :: body := rfl

/-- Reading `Linked Nodes: "n1", "n2", ...` gives the names back. -/
theorem parseLinks_writeLinks (names : List String) (hnames : ∀ n ∈ names, linkName n) :
    parseLinks (writeLinks names).data = names := by
  cases names with
  | nil => decide
  | cons n ns =>
    obtain ⟨hn1, hn2⟩ := hnames n (List.mem_cons_self _ _)
    have hns : ∀ m ∈ ns, linkName m := fun m hm => hnames m (List.mem_cons_of_mem _ hm)
    have e1 : afterColon (writeLinks (n :: ns)).data
        = [' ', '"'] ++ linkText [',', ' '] n.data ns ++ ['"'] := by
      show afterColon ("Linked Nodes: ".data ++ _) = _
      rw [afterColon_writeLinks]
      have := written_eq_linkText ns n.data
      simp only [quoted, List.cons_append, List.append_assoc, List.nil_append] at this ⊢
      rw [this]
    have e2 : trim (afterColon (writeLinks (n :: ns)).data) = linkText [',', ' '] n.data ns := by
      rw [e1]
      refine trim_sandwich _ _ _ (by decide) (by decide) ?_ ?_
      · intro c hc
        rw [linkText_head _ _ hn1] at hc
        exact isNameChar_not_trim c (hn2 c (List.mem_of_mem_head? hc))
      · intro c hc
        exact isNameChar_not_trim c (linkText_last _ ns hns n.data
          (fun d hd => hn2 d (List.mem_of_mem_getLast? hd)) c hc)
    have e3 := read_linkText ns hns [] n.data (by simp) hn1 hn2
    unfold parseLinks
    rw [e2, commasToSpaces_linkText ns hns n.data
      (fun c hc => isNameChar_not_comma c (hn2 c hc))]
    rw [List.nil_append] at e3
    rw [e3]
    have hid : (String.mk ∘ String.data) = id := funext (fun _ => rfl)
    simp [hid]

theorem chain_spaceRule_of_no_space (t : List Char) (ht : ∀ c ∈ t, c ≠ ' ') :
    List.Chain' spaceRule t := by
  induction t with
  | nil => exact List.chain'_nil
  | cons a t ih =>
    cases t with
    | nil => exact List.chain'_singleton a
    | cons b t =>
      refine List.chain'_cons.2 ⟨fun hb => absurd hb (ht b (by simp)), ?_⟩
      exact ih (fun c hc => ht c (List.mem_cons_of_mem _ hc))

theorem chain_spaceRule_append (l t : List Char) (hl : List.Chain' spaceRule l)
    (ht : ∀ c ∈ t, c ≠ ' ') : List.Chain' spaceRule (l ++ t) := by
  refine List.chain'_append.2 ⟨hl, chain_spaceRule_of_no_space t ht, ?_⟩
  intro x _ y hy hsp
  exact absurd hsp (ht y (List.mem_of_mem_head? hy))

theorem chain_spaceRule_sep (l : List Char) (hl : List.Chain' spaceRule l) :
    List.Chain' spaceRule (l ++ [',', ' ']) := by
  refine List.chain'_append.2 ⟨hl,
    List.chain'_cons.2 ⟨fun _ => ⟨by decide, by decide⟩, List.chain'_singleton _⟩, ?_⟩
  intro x _ y hy hsp
  have : y = ',' := by simpa using hy.symm
  rw [this] at hsp
  exact absurd hsp (by decide)

theorem quoted_no_space (n : String) (hn : linkName n) : ∀ c ∈ quoted n, c ≠ ' ' := by
  intro c hc hsp
  subst hsp
  simp only [quoted, List.mem_cons, List.mem_append, List.mem_singleton] at hc
  rcases hc with h | h | h
  · exact absurd h (by decide)
  · exact absurd (isNameChar_not_space _ (hn.2 _ h)) (by decide)
  · rcases h with h | h
    · exact absurd h (by decide)
    · exact absurd h (List.not_mem_nil _)

/-- In a written line no space follows the letter n or r. -/
theorem chain_spaceRule_writeLinks (names : List String) (hnames : ∀ n ∈ names, linkName n) :
    List.Chain' spaceRule (writeLinks names).data := by
  have htail : ∀ (ns : List String), (∀ n ∈ ns, linkName n) → ∀ l : List Char,
      List.Chain' spaceRule l →
      List.Chain' spaceRule (l ++ ns.flatMap (fun m => ',' :: ' ' :: quoted m)) := by
    intro ns
    induction ns with
    | nil => intro _ l hl; simpa using hl
    | cons m ms ih =>
      intro hns l hl
      have h1 := chain_spaceRule_append _ _ (chain_spaceRule_sep l hl)
        (quoted_no_space m (hns m (List.mem_cons_self _ _)))
      have h2 := ih (fun n hn => hns n (List.mem_cons_of_mem _ hn)) _ h1
      simpa [List.flatMap_cons, List.append_assoc] using h2
  have h0 : List.Chain' spaceRule "Linked Nodes: ".data := by
    show List.Chain' spaceRule
      ['L', 'i', 'n', 'k', 'e', 'd', ' ', 'N', 'o', 'd', 'e', 's', ':', ' ']
    simp [List.Chain', spaceRule]
  cases names with
  | nil =>
    show List.Chain' spaceRule ("Linked Nodes: ".data ++ [])
    rw [List.append_nil]; exact h0
  | cons n ns =>
    show List.Chain' spaceRule ("Linked Nodes: ".data ++ (quoted n ++ _))
    rw [← List.append_assoc]
    exact htail ns (fun m hm => hnames m (List.mem_cons_of_mem _ hm)) _
      (chain_spaceRule_append _ _ h0 (quoted_no_space n (hnames n (List.mem_cons_self _ _))))

/-- A written line contains no label in which a space follows n or r. -/
theorem writeLinks_no_spaced_label (names : List String) (hnames : ∀ n ∈ names, linkName n)
    (w : List Char) (hw : hasSub ['n', ' '] w = true ∨ hasSub ['r', ' '] w = true) :
    hasSub w (writeLinks names).data = false := by
  cases h : hasSub w (writeLinks names).data with
  | false => rfl
  | true =>
    exfalso
    have hin := (hasSub_iff_occurs _ _).1 h
    have hch := chain_spaceRule_writeLinks names hnames
    rcases hw with hw | hw
    · have := List.Chain'.infix hch (((hasSub_iff_occurs _ _).1 hw).trans hin)
      exact ((List.chain'_cons.1 this).1 rfl).1 rfl
    · have := List.Chain'.infix hch (((hasSub_iff_occurs _ _).1 hw).trans hin)
      exact ((List.chain'_cons.1 this).1 rfl).2 rfl

end RoundTripThms
section RoundTripLine

variable {D : Type} [LinearOrderedCommRing D]

/-- A written line that contains none of the four labels without a space is
taken as a `Linked Nodes:` line. -/
theorem simLine_writeLinks (readNum : List Char → Option (D × List Char)) (st : SimParse D)
    (names : List String) (hnames : ∀ n ∈ names, linkName n)
    (hclass : hasSub "NODECONFIGHEADER".data (writeLinks names).data = false ∧
      hasSub "Name:".data (writeLinks names).data = false ∧
      hasSub "Type:".data (writeLinks names).data = false ∧
      hasSub "Location:".data (writeLinks names).data = false) :
    simLine readNum st (writeLinks names)
      = Parsed.ok { st with current :=
          { st.current with links := st.current.links ++ parseLinks (writeLinks names).data } } := by
  obtain ⟨h1, h2, h3, h4⟩ := hclass
  have h5 := writeLinks_no_spaced_label names hnames "Transmission Frequency:".data
    (Or.inl (by decide))
  have h6 := writeLinks_no_spaced_label names hnames "Transmission Power:".data
    (Or.inl (by decide))
  have h7 := writeLinks_no_spaced_label names hnames "Transmission Data Rate:".data
    (Or.inl (by decide))
  have h8 := writeLinks_no_spaced_label names hnames "Receiver Data Rate:".data
    (Or.inr (by decide))
  have h9 : hasSub "Linked Nodes:".data (writeLinks names).data = true := by
    have hp : ∀ body : List Char,
        hasSub "Linked Nodes:".data ("Linked Nodes: ".data ++ body) = true :=
      fun body => hasSub_prefix "Linked Nodes:".data (' ' :: body)
    unfold writeLinks
    exact hp _
  simp [simLine, h1, h2, h3, h4, h5, h6, h7, h8, h9]

end RoundTripLine

section PathLoopThms

variable {D : Type} [LinearOrderedCommRing D]

end PathLoopThms

section LocationThms

variable {D : Type} [LinearOrderedCommRing D]

/-! ## Location lines that hold numbers -/

/-- An extraction skips white space and takes the number that follows. -/
theorem extractNum_reads (readNum : List Char → Option (D × List Char)) (w t rest : List Char)
    (v old : D) (hw : ∀ c ∈ w, isSpace c = true) (ht : ReadsAs readNum t v)
    (hrest : ∀ c, rest.head? = some c → isSpace c = true) :
    extractNum readNum (some (w ++ (t ++ rest))) old = (some rest, v) := by
  obtain ⟨⟨c, r, rfl, hc⟩, hread⟩ := ht
  have hd : (w ++ (c :: r ++ rest)).dropWhile isSpace = c :: (r ++ rest) := by
    rw [dropWhile_append_all isSpace w _ hw, List.cons_append]
    exact List.dropWhile_cons_of_neg (by simp [hc])
  have hr := hread rest hrest
  rw [List.cons_append] at hr
  simp only [extractNum, hd, hr]

/-- An extraction from white space alone fails and leaves the variable. -/
theorem extractNum_blank (readNum : List Char → Option (D × List Char)) (w : List Char)
    (old : D) (hw : ∀ c ∈ w, isSpace c = true) :
    extractNum readNum (some w) old = (none, old) := by
  simp only [extractNum, List.dropWhile_eq_nil_iff.2 hw]

theorem head_space_of_append (w rest : List Char) (hw : ∀ c ∈ w, isSpace c = true)
    (hne : w ≠ []) : ∀ c, (w ++ rest).head? = some c → isSpace c = true := by
  intro c hc
  cases w with
  | nil => exact absurd rfl hne
  | cons a w =>
    have : a = c := by simpa using hc
    rw [← this]
    exact hw a (List.mem_cons_self _ _)

theorem head_space_of_all (w : List Char) (hw : ∀ c ∈ w, isSpace c = true) :
    ∀ c, w.head? = some c → isSpace c = true :=
  fun c hc => hw c (List.mem_of_mem_head? hc)

/-- Three numbers separated by white space are stored in order. -/
theorem extract3_three_numbers (readNum : List Char → Option (D × List Char))
    (w0 t1 w1 t2 w2 t3 w3 : List Char) (v1 v2 v3 x y z : D)
    (h0 : ∀ c ∈ w0, isSpace c = true) (h1 : ∀ c ∈ w1, isSpace c = true) (n1 : w1 ≠ [])
    (h2 : ∀ c ∈ w2, isSpace c = true) (n2 : w2 ≠ []) (h3 : ∀ c ∈ w3, isSpace c = true)
    (r1 : ReadsAs readNum t1 v1) (r2 : ReadsAs readNum t2 v2) (r3 : ReadsAs readNum t3 v3) :
    extract3 readNum (w0 ++ (t1 ++ (w1 ++ (t2 ++ (w2 ++ (t3 ++ w3)))))) x y z
      = (v1, v2, v3) := by
  unfold extract3
  simp only []
  rw [extractNum_reads readNum w0 t1 _ v1 x h0 r1 (head_space_of_append w1 _ h1 n1)]
  simp only []
  rw [extractNum_reads readNum w1 t2 _ v2 y h1 r2 (head_space_of_append w2 _ h2 n2)]
  simp only []
  rw [extractNum_reads readNum w2 t3 _ v3 z h2 r3 (head_space_of_all w3 h3)]

/-- With two numbers the third variable keeps what it held. -/
theorem extract3_two_numbers (readNum : List Char → Option (D × List Char))
    (w0 t1 w1 t2 w2 : List Char) (v1 v2 x y z : D)
    (h0 : ∀ c ∈ w0, isSpace c = true) (h1 : ∀ c ∈ w1, isSpace c = true) (n1 : w1 ≠ [])
    (h2 : ∀ c ∈ w2, isSpace c = true)
    (r1 : ReadsAs readNum t1 v1) (r2 : ReadsAs readNum t2 v2) :
    extract3 readNum (w0 ++ (t1 ++ (w1 ++ (t2 ++ w2)))) x y z = (v1, v2, z) := by
  unfold extract3
  simp only []
  rw [extractNum_reads readNum w0 t1 _ v1 x h0 r1 (head_space_of_append w1 _ h1 n1)]
  simp only []
  rw [extractNum_reads readNum w1 t2 _ v2 y h1 r2 (head_space_of_all w2 h2)]
  simp only []
  rw [extractNum_blank readNum w2 z h2]

/-- With one number the second and third variable keep what they held. -/
theorem extract3_one_number (readNum : List Char → Option (D × List Char))
    (w0 t1 w1 : List Char) (v1 x y z : D)
    (h0 : ∀ c ∈ w0, isSpace c = true) (h1 : ∀ c ∈ w1, isSpace c = true)
    (r1 : ReadsAs readNum t1 v1) :
    extract3 readNum (w0 ++ (t1 ++ w1)) x y z = (v1, y, z) := by
  unfold extract3
  simp only []
  rw [extractNum_reads readNum w0 t1 _ v1 x h0 r1 (head_space_of_all w1 h1)]
  simp only []
  rw [extractNum_blank readNum w1 y h1]
  simp only [extractNum]

/-- With no number all three variables keep what they held. -/
theorem extract3_no_numbers (readNum : List Char → Option (D × List Char))
    (w0 : List Char) (x y z : D) (h0 : ∀ c ∈ w0, isSpace c = true) :
    extract3 readNum w0 x y z = (x, y, z) := by
  unfold extract3
  simp only []
  rw [extractNum_blank readNum w0 x h0]
  simp only [extractNum]

/-- A location line with three numbers: both parsers store them in order. -/
theorem location_three_numbers (readNum : List Char → Option (D × List Char))
    (line : String) (w0 t1 w1 t2 w2 t3 w3 : List Char) (v1 v2 v3 : D)
    (hh : hasSub "NODECONFIGHEADER".data line.data = false)
    (hn : hasSub "Name:".data line.data = false) (ht : hasSub "Type:".data line.data = false)
    (hl : hasSub "Location:".data line.data = true)
    (htext : commasToSpaces (afterColon line.data)
      = w0 ++ (t1 ++ (w1 ++ (t2 ++ (w2 ++ (t3 ++ w3))))))
    (h0 : ∀ c ∈ w0, isSpace c = true) (h1 : ∀ c ∈ w1, isSpace c = true) (n1 : w1 ≠ [])
    (h2 : ∀ c ∈ w2, isSpace c = true) (n2 : w2 ≠ []) (h3 : ∀ c ∈ w3, isSpace c = true)
    (r1 : ReadsAs readNum t1 v1) (r2 : ReadsAs readNum t2 v2) (r3 : ReadsAs readNum t3 v3) :
    (∀ st : SimParse D, simLine readNum st line
      = Parsed.ok { st with current := { st.current with x := v1, y := v2, z := v3 } }) ∧
    (∀ stale : NodePosition D, pathPos readNum stale line.data = { x := v1, y := v2, z := v3 }) := by
  refine ⟨fun st => ?_, fun stale => ?_⟩
  · rw [simLine_location readNum st line hh hn ht hl, htext,
      extract3_three_numbers readNum w0 t1 w1 t2 w2 t3 w3 v1 v2 v3 _ _ _ h0 h1 n1 h2 n2 h3
        r1 r2 r3]
  · unfold pathPos
    rw [htext, extract3_three_numbers readNum w0 t1 w1 t2 w2 t3 w3 v1 v2 v3 _ _ _ h0 h1 n1 h2
      n2 h3 r1 r2 r3]

/-- A location line with two numbers: the simulation keeps the z of the
record, which is zero in a block opened by a sentinel; the path finder stores
what its local `z` held. -/
theorem location_two_numbers (readNum : List Char → Option (D × List Char))
    (line : String) (w0 t1 w1 t2 w2 : List Char) (v1 v2 : D)
    (hh : hasSub "NODECONFIGHEADER".data line.data = false)
    (hn : hasSub "Name:".data line.data = false) (ht : hasSub "Type:".data line.data = false)
    (hl : hasSub "Location:".data line.data = true)
    (htext : commasToSpaces (afterColon line.data) = w0 ++ (t1 ++ (w1 ++ (t2 ++ w2))))
    (h0 : ∀ c ∈ w0, isSpace c = true) (h1 : ∀ c ∈ w1, isSpace c = true) (n1 : w1 ≠ [])
    (h2 : ∀ c ∈ w2, isSpace c = true)
    (r1 : ReadsAs readNum t1 v1) (r2 : ReadsAs readNum t2 v2) :
    (∀ st : SimParse D, simLine readNum st line
      = Parsed.ok { st with current := { st.current with x := v1, y := v2 } }) ∧
    (∀ stale : NodePosition D,
      pathPos readNum stale line.data = { x := v1, y := v2, z := stale.z }) := by
  refine ⟨fun st => ?_, fun stale => ?_⟩
  · rw [simLine_location readNum st line hh hn ht hl, htext,
      extract3_two_numbers readNum w0 t1 w1 t2 w2 v1 v2 _ _ _ h0 h1 n1 h2 r1 r2]
  · unfold pathPos
    rw [htext, extract3_two_numbers readNum w0 t1 w1 t2 w2 v1 v2 _ _ _ h0 h1 n1 h2 r1 r2]

theorem isSpace_not_digit (c : Char) (h : isSpace c = true) : c.isDigit = false := by
  simp only [isSpace, Bool.or_eq_true, beq_iff_eq] at h
  rcases h with ((((h | h) | h) | h) | h) | h <;> subst h <;> rfl

/-- The whole-number reader converts a digit that is followed by white space
or by the end of the text. -/
theorem readInt_reads_digit (d : Char) (hd : d.isDigit = true) :
    ReadsAs readInt [d] ((d.toNat - 48 : Nat) : ℤ) := by
  refine ⟨⟨d, [], rfl, ?_⟩, fun rest hrest => ?_⟩
  · cases h : isSpace d with
    | false => rfl
    | true => rw [isSpace_not_digit d h] at hd; cases hd
  · cases rest with
    | nil => simp [readInt, readDigits, hd]
    | cons c r =>
      have hc := isSpace_not_digit c (hrest c rfl)
      simp [readInt, readDigits, hd, hc]

end LocationThms

section SimplePath

variable {D : Type} [LinearOrderedCommRing D]

/-! ## Start equal to goal, and chains without repetition -/

/-- With goal equal to start the first pass of the main loop pops start and
leaves the loop: distances and predecessors are as on entry. -/
theorem searchLoop_start_goal (sqrt : D → D) (nodes : NodeMap D) (adjacency : AdjMap)
    (s : String) (fuel : Nat) :
    searchLoop sqrt nodes adjacency s (fuel + 1) (initState nodes s)
      = .done { initState nodes s with pq := [] } := by
  rw [searchLoop_succ sqrt nodes adjacency s fuel (initState nodes s) s []
    (initState_pq nodes s), if_pos rfl, initState_pq, pqPop_singleton]

/-- With goal equal to start, and not empty, the result is the one-element list. -/
theorem startGoal_of_sqrt (sqrt : D → D) (nodes : NodeMap D) (adjacency : AdjMap)
    (s : String) (hs : s ≠ "") (fuel : Nat) :
    findOptimalPath sqrt (fuel + 1) nodes adjacency s s = .done [s] := by
  rw [findOptimalPath_of_search sqrt nodes adjacency s s (fuel + 1) _
    (searchLoop_start_goal sqrt nodes adjacency s fuel)]
  have hd : distAt (initState nodes s).dist s = 0 := by
    rw [initState_dist]; simp
  have hne : ¬ distAt ({ initState nodes s with pq := [] } : SearchState D).dist s = ⊤ := by
    show ¬ distAt (initState nodes s).dist s = ⊤
    rw [hd]; exact WithTop.zero_ne_top
  rw [if_neg hne]
  show (match walkBack (initState nodes s).prev (fuel + 1) s [] with
    | .done path => Outcome.done path.reverse
    | .outOfRange => .outOfRange
    | .timeout => .timeout) = _
  rw [walkBack_succ _ fuel s [] hs]
  simp only [initState_prev]
  rw [walkBack_empty]
  rfl

/-- A tail of a chain of predecessors is a chain of predecessors. -/
theorem prevChain_tail (prev : PrevMap) (start : String) :
    ∀ (L : List String) (z : String) (T : List String), PrevChain prev start L →
      (z :: T) <:+ L → PrevChain prev start (z :: T) := by
  intro L
  induction L with
  | nil =>
    intro z T h _
    exact absurd h (by simp [PrevChain])
  | cons x L ih =>
    intro z T h hsuf
    rcases List.suffix_cons_iff.1 hsuf with e | hs'
    · rw [e]; exact h
    · cases L with
      | nil =>
        have := List.suffix_nil.1 hs'
        cases this
      | cons y L =>
        exact ih z T ((prevChain_cons_cons _ _ _ _ _).1 h).2 hs'

/-- Two chains of predecessors from the same name are the same list: start has
no predecessor, and every other name on a chain has exactly one. -/
theorem prevChain_unique (prev : PrevMap) (start : String) (hps : prev start = none) :
    ∀ (C C' : List String) (x : String), PrevChain prev start (x :: C) →
      PrevChain prev start (x :: C') → C = C' := by
  intro C
  induction C with
  | nil =>
    intro C' x h h'
    have hx : x = start := h
    cases C' with
    | nil => rfl
    | cons y C' =>
      have := ((prevChain_cons_cons _ _ _ _ _).1 h').1
      rw [hx, hps] at this
      cases this
  | cons y C ih =>
    intro C' x h h'
    obtain ⟨hp, hc⟩ := (prevChain_cons_cons _ _ _ _ _).1 h
    cases C' with
    | nil =>
      have hx : x = start := h'
      rw [hx, hps] at hp
      cases hp
    | cons y' C' =>
      obtain ⟨hp', hc'⟩ := (prevChain_cons_cons _ _ _ _ _).1 h'
      have hy : y = y' := Option.some.inj (hp.symm.trans hp')
      subst hy
      rw [ih C' y hc hc']

/-- No name occurs twice on a chain of predecessors. -/
theorem prevChain_nodup (prev : PrevMap) (start : String) (hps : prev start = none) :
    ∀ (C : List String) (x : String), PrevChain prev start (x :: C) → (x :: C).Nodup := by
  intro C
  induction C with
  | nil => intro x _; exact List.nodup_singleton x
  | cons y C ih =>
    intro x h
    obtain ⟨_, hc⟩ := (prevChain_cons_cons _ _ _ _ _).1 h
    refine List.nodup_cons.2 ⟨?_, ih y hc⟩
    intro hmem
    obtain ⟨s, t, e⟩ := List.append_of_mem hmem
    have hsuf : (x :: t) <:+ (y :: C) := ⟨s, e.symm⟩
    have hchain := prevChain_tail prev start (y :: C) x t hc hsuf
    have hEq := prevChain_unique prev start hps (y :: C) t x h hchain
    have hlen := congrArg List.length hEq
    have hlen' := congrArg List.length e
    simp only [List.length_cons, List.length_append] at hlen hlen'
    omega

/-- The result between positioned names has no repetition, for any number model. -/
theorem simple_of_sqrt (sqrt : D → D) (hs : ∀ x, 0 ≤ sqrt x) (nodes : NodeMap D)
    (adjacency : AdjMap) (start goal : String) (hstart : hasPos nodes start)
    (hgoal : hasPos nodes goal) :
    (∃ N p, ∀ fuel, N ≤ fuel →
        findOptimalPath sqrt fuel nodes adjacency start goal = .done p) ∧
      ∀ fuel p, findOptimalPath sqrt fuel nodes adjacency start goal = .done p → p.Nodup := by
  obtain ⟨N, st, p, hrun, hinv, _, hshape⟩ :=
    findOptimalPath_shape sqrt nodes adjacency start goal hs hstart hgoal
  refine ⟨⟨N, p, hrun⟩, ?_⟩
  intro fuel p' hp'
  have hpp : p' = p :=
    findOptimalPath_unique sqrt nodes adjacency start goal fuel N p' p hp' (hrun N (le_refl _))
  subst hpp
  rcases hshape with ⟨_, rfl⟩ | ⟨_, C, hC, rfl⟩
  · exact List.nodup_nil
  · rw [List.nodup_reverse]
    exact (prevChain_nodup st.prev start hinv.prev_start C goal hC).sublist
      (List.takeWhile_sublist _)

end SimplePath

section SharedRun

/-- The run on the graph with a zero-length cycle between A and B, over the
integers: the search ends with the path S, A, B. -/
theorem findOptimalPath_shared_run :
    findOptimalPath intSqrt 10 (sharedNodes ℤ) sharedAdj "S" "B" = .done ["S", "A", "B"] := by
  decide!

end SharedRun

namespace Fp

section FpBasics

variable {F : Type} [LinearOrder F] [Zero F]

/-! ## The search in the arithmetic of `double`: elementary facts -/

theorem distAt_mapSet_fp (dist : DistMap F) (v k : String) (a : F) :
    distAt (mapSet dist v a) k = if k = v then a else distAt dist k := by
  unfold distAt mapSet
  split <;> simp

theorem distAt_mapSet_le_fp (dist : DistMap F) (v k : String) (a : F)
    (h : a ≤ distAt dist v) : distAt (mapSet dist v a) k ≤ distAt dist k := by
  rw [distAt_mapSet_fp]
  split
  · rename_i hk; subst hk; exact h
  · exact le_refl _

theorem foldl_infinity_apply_fp (A : Arith F) (nodes : NodeMap F) (d0 : DistMap F)
    (k : String) :
    nodes.foldl (fun d n => mapSet d n.1 A.inf) d0 k
      = if (nodes.lookup k).isSome = true then some A.inf else d0 k := by
  induction nodes generalizing d0 with
  | nil => simp
  | cons a t ih =>
    rw [List.foldl_cons, ih]
    obtain ⟨a1, a2⟩ := a
    by_cases hk : k = a1
    · subst hk
      rw [lookup_cons_self]
      simp [mapSet]
    · rw [lookup_cons_ne k a1 a2 t hk]
      simp [mapSet, hk]

theorem hasPos_iff_fp (nodes : NodeMap F) (k : String) :
    hasPos nodes k ↔ ∃ p, nodes.lookup k = some p := by
  unfold hasPos
  exact Option.isSome_iff_exists

theorem lookup_mem_keys_fp (nodes : NodeMap F) (k : String) (p : NodePosition F)
    (hp : nodes.lookup k = some p) : k ∈ nodes.map Prod.fst := by
  induction nodes with
  | nil => simp at hp
  | cons a t ih =>
    obtain ⟨a1, a2⟩ := a
    by_cases hk : k = a1
    · subst hk; simp
    · rw [lookup_cons_ne k a1 a2 t hk] at hp
      simp only [List.map_cons, List.mem_cons]
      exact Or.inr (ih hp)

theorem hasPos_mem_keys_fp (nodes : NodeMap F) (k : String) (h : hasPos nodes k) :
    k ∈ nodes.map Prod.fst := by
  obtain ⟨p, hp⟩ := (hasPos_iff_fp nodes k).1 h
  exact lookup_mem_keys_fp nodes k p hp

theorem posAt_of_lookup_fp (nodes : NodeMap F) (k : String) (p : NodePosition F)
    (h : nodes.lookup k = some p) : posAt nodes k = p := by
  simp [posAt, h]

theorem edgeLen_nonneg_fp {A : Arith F} {rank : F → Nat} (hA : Laws A rank)
    (nodes : NodeMap F) (u v : String) : 0 ≤ edgeLen A nodes u v := by
  unfold edgeLen distanceBetween
  exact hA.sqrt_nonneg _

theorem initState_pq_fp (A : Arith F) (nodes : NodeMap F) (start : String) :
    (initState A nodes start).pq = [start] := by
  simp [initState, pqPush_nil]

theorem initState_prev_fp (A : Arith F) (nodes : NodeMap F) (start k : String) :
    (initState A nodes start).prev k = none := rfl

theorem initState_dist_fp (A : Arith F) (nodes : NodeMap F) (start k : String) :
    distAt (initState A nodes start).dist k
      = if k = start then 0 else if hasPos nodes k then A.inf else 0 := by
  show distAt (mapSet (initInfinity A nodes) start 0) k = _
  rw [distAt_mapSet_fp]
  by_cases hk : k = start
  · simp [hk]
  · simp only [hk, if_false]
    unfold distAt initInfinity
    rw [foldl_infinity_apply_fp]
    unfold hasPos
    split <;> simp

/-- The two ways a pass of the inner loop can go when `u` has a position:
nothing changes, or `v` is improved through `u`. -/
theorem relaxStep_cases_fp (A : Arith F) (nodes : NodeMap F) (u v : String)
    (st : SearchState F) (hu : hasPos nodes u) :
    (relaxStep A nodes u v st = .done st ∧
        (hasPos nodes v → ¬ altDist A nodes st.dist u v < distAt st.dist v)) ∨
      (hasPos nodes v ∧ altDist A nodes st.dist u v < distAt st.dist v ∧
        relaxStep A nodes u v st = .done (improve st u v (altDist A nodes st.dist u v))) := by
  obtain ⟨pu, hpu⟩ := (hasPos_iff_fp nodes u).1 hu
  cases hpv : nodes.lookup v with
  | none =>
    left
    refine ⟨by simp [relaxStep, hpv], fun h => ?_⟩
    obtain ⟨p, hp⟩ := (hasPos_iff_fp nodes v).1 h
    rw [hpv] at hp; cases hp
  | some pv =>
    have he : altDist A nodes st.dist u v
        = A.add (distAt st.dist u) (distanceBetween A pu pv) := by
      simp [altDist, edgeLen, posAt_of_lookup_fp nodes u pu hpu,
        posAt_of_lookup_fp nodes v pv hpv]
    by_cases hlt : altDist A nodes st.dist u v < distAt st.dist v
    · right
      refine ⟨(hasPos_iff_fp nodes v).2 ⟨pv, hpv⟩, hlt, ?_⟩
      have hlt' := hlt
      rw [he] at hlt'
      simp only [relaxStep, hpv, hpu, hlt', if_true, improve, he]
    · left
      refine ⟨?_, fun _ => hlt⟩
      have hlt' := hlt
      rw [he] at hlt'
      simp only [relaxStep, hpv, hpu, hlt', if_false]

theorem altDist_nonneg_fp {A : Arith F} {rank : F → Nat} (hA : Laws A rank)
    (nodes : NodeMap F) (dist : DistMap F) (u v : String) (h : 0 ≤ distAt dist u) :
    0 ≤ altDist A nodes dist u v :=
  h.trans (hA.add_le _ _ h (edgeLen_nonneg_fp hA nodes u v))

theorem le_altDist_fp {A : Arith F} {rank : F → Nat} (hA : Laws A rank)
    (nodes : NodeMap F) (dist : DistMap F) (u v : String) (h : 0 ≤ distAt dist u) :
    distAt dist u ≤ altDist A nodes dist u v :=
  hA.add_le _ _ h (edgeLen_nonneg_fp hA nodes u v)

/-- Along a chain of predecessors the tentative distance does not grow. -/
theorem inv_chain_le_fp {A : Arith F} {rank : F → Nat} {nodes : NodeMap F}
    {adjacency : AdjMap} {start : String} {st : SearchState F} (hA : Laws A rank)
    (hinv : Inv A nodes adjacency start st) :
    ∀ (C : List String) (y : String), PrevChain st.prev start (y :: C) →
      ∀ z ∈ y :: C, distAt st.dist z ≤ distAt st.dist y := by
  intro C
  induction C with
  | nil =>
    intro y _ z hz
    have : z = y := by simpa using hz
    rw [this]
  | cons y' C ih =>
    intro y hc z hz
    obtain ⟨hp, hc'⟩ := (prevChain_cons_cons _ _ _ _ _).1 hc
    have hstep : distAt st.dist y' ≤ distAt st.dist y :=
      (le_altDist_fp hA nodes st.dist y' y (hinv.nonneg y')).trans
        (hinv.prev_edge y y' hp).2.2.2.1
    rcases List.mem_cons.1 hz with rfl | hz'
    · exact le_refl _
    · exact (ih y' hc' z hz').trans hstep

end FpBasics

end Fp

namespace Fp

section FpImprove

variable {F : Type} [LinearOrder F] [Zero F]

/-! ## A successful relaxation keeps the invariants -/

theorem revLen_cons_cons_fp (A : Arith F) (nodes : NodeMap F) (v u : String)
    (rest : List String) :
    revLen A nodes (v :: u :: rest)
      = A.add (revLen A nodes (u :: rest)) (edgeLen A nodes u v) :=
  rfl

theorem revLen_nonneg_fp {A : Arith F} {rank : F → Nat} (hA : Laws A rank)
    (nodes : NodeMap F) : ∀ P : List String, 0 ≤ revLen A nodes P
  | [] => le_refl _
  | [_] => le_refl _
  | v :: u :: rest => by
    rw [revLen_cons_cons_fp]
    exact (revLen_nonneg_fp hA nodes (u :: rest)).trans
      (hA.add_le _ _ (revLen_nonneg_fp hA nodes (u :: rest)) (edgeLen_nonneg_fp hA nodes u v))

theorem revLen_le_cons_fp {A : Arith F} {rank : F → Nat} (hA : Laws A rank)
    (nodes : NodeMap F) (x : String) (P : List String) :
    revLen A nodes P ≤ revLen A nodes (x :: P) := by
  cases P with
  | nil => exact revLen_nonneg_fp hA nodes _
  | cons u rest =>
    rw [revLen_cons_cons_fp]
    exact hA.add_le _ _ (revLen_nonneg_fp hA nodes _) (edgeLen_nonneg_fp hA nodes u x)

/-- A backward route to `u` within the tentative distance of `u`, extended by
the link to `v`, is a backward route to `v` within the candidate. -/
theorem backRoute_extend {A : Arith F} {rank : F → Nat} (hA : Laws A rank)
    (nodes : NodeMap F) (adjacency : AdjMap) (start u v : String) (b : F) (P : List String)
    (hP : BackRoute A nodes adjacency start u b P) (hv : hasPos nodes v)
    (hl : v ∈ linksOf adjacency u) :
    BackRoute A nodes adjacency start v (A.add b (edgeLen A nodes u v)) (v :: P) := by
  obtain ⟨hhead, hlast, hpos, hch, hlen⟩ := hP
  cases P with
  | nil => simp at hhead
  | cons a rest =>
    have ha : a = u := by simpa using hhead
    subst ha
    refine ⟨rfl, ?_, ?_, List.chain'_cons.2 ⟨hl, hch⟩, ?_⟩
    · rw [List.getLast?_cons_cons]; exact hlast
    · intro x hx
      rcases List.mem_cons.1 hx with rfl | hx'
      · exact hv
      · exact hpos x hx'
    · rw [revLen_cons_cons_fp]
      exact hA.add_mono _ _ _ (revLen_nonneg_fp hA nodes _) hlen (edgeLen_nonneg_fp hA nodes a v)

theorem inv_improve_fp {A : Arith F} {rank : F → Nat} {nodes : NodeMap F}
    {adjacency : AdjMap} {start : String} {st : SearchState F} (hA : Laws A rank)
    (hinv : Inv A nodes adjacency start st) (u v : String)
    (hu : hasPos nodes u) (hv : hasPos nodes v) (hl : v ∈ linksOf adjacency u)
    (hlt : altDist A nodes st.dist u v < distAt st.dist v) :
    Inv A nodes adjacency start (improve st u v (altDist A nodes st.dist u v)) := by
  have halt0 : 0 ≤ altDist A nodes st.dist u v :=
    altDist_nonneg_fp hA nodes st.dist u v (hinv.nonneg u)
  have haltTop : altDist A nodes st.dist u v < A.inf := lt_of_lt_of_le hlt (hinv.le_inf v)
  have hufin : distAt st.dist u < A.inf :=
    lt_of_le_of_lt (le_altDist_fp hA nodes st.dist u v (hinv.nonneg u)) haltTop
  have hvs : v ≠ start := by
    intro h
    have h0 : distAt st.dist v = 0 := by rw [h]; exact hinv.start_zero
    rw [h0] at hlt
    exact absurd (lt_of_lt_of_le hlt halt0) (lt_irrefl _)
  have hmono : ∀ k, distAt (mapSet st.dist v (altDist A nodes st.dist u v)) k
      ≤ distAt st.dist k := fun k => distAt_mapSet_le_fp st.dist v k _ (le_of_lt hlt)
  have hself : distAt (mapSet st.dist v (altDist A nodes st.dist u v)) v
      = altDist A nodes st.dist u v := by simp [distAt_mapSet_fp]
  have hother : ∀ k, k ≠ v → distAt (mapSet st.dist v (altDist A nodes st.dist u v)) k
      = distAt st.dist k := fun k hk => by simp [distAt_mapSet_fp, hk]
  have hnn : ∀ k, 0 ≤ distAt (mapSet st.dist v (altDist A nodes st.dist u v)) k := by
    intro k
    by_cases hk : k = v
    · rw [hk, hself]; exact halt0
    · rw [hother k hk]; exact hinv.nonneg k
  have haltmono : ∀ b a, altDist A nodes (mapSet st.dist v (altDist A nodes st.dist u v)) b a
      ≤ altDist A nodes st.dist b a := fun b a =>
    hA.add_mono _ _ _ (hnn b) (hmono b) (edgeLen_nonneg_fp hA nodes b a)
  -- the chain of `u` avoids `v`
  obtain ⟨CU, hCU⟩ := hinv.chain u hu hufin
  have hCU' : PrevChain (mapSet st.prev v u) start (u :: CU) := by
    refine prevChain_avoid st.prev start v u CU u hCU ?_
    intro z hz hzv
    have h1 := inv_chain_le_fp hA hinv CU u hCU z hz
    rw [hzv] at h1
    exact absurd (lt_of_lt_of_le hlt
      (h1.trans (le_altDist_fp hA nodes st.dist u v (hinv.nonneg u)))) (lt_irrefl _)
  refine ⟨?_, hnn, ?_, ?_, ?_, ?_, ?_, ?_⟩
  · show distAt (mapSet st.dist v _) start = 0
    rw [hother start (Ne.symm hvs)]
    exact hinv.start_zero
  · intro k
    exact (hmono k).trans (hinv.le_inf k)
  · intro k hk
    have hk' : k ∈ v :: st.pq := (pqPush_perm _ st.pq v).mem_iff.1 hk
    show hasPos nodes k ∧ distAt (mapSet st.dist v _) k < A.inf
    rcases List.mem_cons.1 hk' with rfl | hk''
    · exact ⟨hv, by rw [hself]; exact haltTop⟩
    · exact ⟨(hinv.queued k hk'').1, lt_of_le_of_lt (hmono k) (hinv.queued k hk'').2⟩
  · intro a b hab
    show hasPos nodes b ∧ hasPos nodes a ∧ a ∈ linksOf adjacency b ∧
      altDist A nodes (mapSet st.dist v _) b a ≤ distAt (mapSet st.dist v _) a ∧
        distAt (mapSet st.dist v _) a < A.inf
    have hab' : mapSet st.prev v u a = some b := hab
    by_cases ha : a = v
    · have hb : b = u := by
        have : some u = some b := by simpa [mapSet, ha] using hab'
        exact (Option.some.inj this).symm
      subst hb
      rw [ha, hself]
      exact ⟨hu, hv, hl, haltmono b v, haltTop⟩
    · have hold : st.prev a = some b := by simpa [mapSet, ha] using hab'
      obtain ⟨h1, h2, h3, h4, h5⟩ := hinv.prev_edge a b hold
      rw [hother a ha]
      exact ⟨h1, h2, h3, (haltmono b a).trans h4, h5⟩
  · show mapSet st.prev v u start = none
    simp [mapSet, Ne.symm hvs, hinv.prev_start]
  · intro k hk hfin
    show ∃ C, PrevChain (mapSet st.prev v u) start (k :: C)
    by_cases hkv : k = v
    · exact ⟨u :: CU, (prevChain_cons_cons _ _ _ _ _).2 ⟨by simp [mapSet, hkv], hCU'⟩⟩
    · have hfin' : distAt st.dist k < A.inf := by
        have : distAt (mapSet st.dist v (altDist A nodes st.dist u v)) k < A.inf := hfin
        rwa [hother k hkv] at this
      obtain ⟨C, hC⟩ := hinv.chain k hk hfin'
      exact prevChain_reroute st.prev start v u CU hCU' C k hC
  · intro k hk hfin
    show ∃ P, BackRoute A nodes adjacency start k (distAt (mapSet st.dist v _) k) P
    by_cases hkv : k = v
    · obtain ⟨P, hP⟩ := hinv.route u hu hufin
      rw [hkv, hself]
      exact ⟨v :: P, backRoute_extend hA nodes adjacency start u v _ P hP hv hl⟩
    · have hfin' : distAt st.dist k < A.inf := by
        have : distAt (mapSet st.dist v (altDist A nodes st.dist u v)) k < A.inf := hfin
        rwa [hother k hkv] at this
      rw [hother k hkv]
      exact hinv.route k hk hfin'

/-- A successful relaxation does not raise the bound on the iterations to come. -/
theorem potential_improve_fp {A : Arith F} {rank : F → Nat} {nodes : NodeMap F}
    {adjacency : AdjMap} {start : String} {st : SearchState F} (hA : Laws A rank)
    (hinv : Inv A nodes adjacency start st) (u v : String) (hv : hasPos nodes v)
    (hlt : altDist A nodes st.dist u v < distAt st.dist v) :
    potential rank nodes (improve st u v (altDist A nodes st.dist u v))
      ≤ potential rank nodes st := by
  have halt0 : 0 ≤ altDist A nodes st.dist u v :=
    altDist_nonneg_fp hA nodes st.dist u v (hinv.nonneg u)
  have hlenpq : (improve st u v (altDist A nodes st.dist u v)).pq.length = st.pq.length + 1 := by
    have := (pqPush_perm (cmp (mapSet st.dist v (altDist A nodes st.dist u v))) st.pq v).length_eq
    simpa [improve] using this
  have hsum : ((nodes.map Prod.fst).map
        (fun k => rank (distAt (mapSet st.dist v (altDist A nodes st.dist u v)) k))).sum
      < ((nodes.map Prod.fst).map (fun k => rank (distAt st.dist k))).sum := by
    refine List.sum_lt_sum _ _ ?_ ⟨v, hasPos_mem_keys_fp nodes v hv, ?_⟩
    · intro k _
      rw [distAt_mapSet_fp]
      split
      · rename_i hk
        rw [hk]
        exact le_of_lt (hA.rank_lt _ _ halt0 hlt)
      · exact le_refl _
    · rw [distAt_mapSet_fp]
      simp only [if_true]
      exact hA.rank_lt _ _ halt0 hlt
  unfold potential
  have : (improve st u v (altDist A nodes st.dist u v)).dist
      = mapSet st.dist v (altDist A nodes st.dist u v) := rfl
  rw [this, hlenpq]
  omega

end FpImprove

end Fp

namespace Fp

section FpLoop

variable {F : Type} [LinearOrder F] [Zero F]

/-! ## The inner loop and the main loop -/

theorem advances_refl_fp (rank : F → Nat) (nodes : NodeMap F) (st : SearchState F) :
    Advances rank nodes st st :=
  ⟨fun _ => le_refl _, fun _ h => h, fun _ h => absurd h (lt_irrefl _), le_refl _⟩

theorem advances_trans_fp {rank : F → Nat} {nodes : NodeMap F} {s1 s2 s3 : SearchState F}
    (h12 : Advances rank nodes s1 s2) (h23 : Advances rank nodes s2 s3) :
    Advances rank nodes s1 s3 := by
  refine ⟨fun k => (h23.le k).trans (h12.le k), fun k h => h23.sub k (h12.sub k h), ?_,
    h23.pot.trans h12.pot⟩
  intro k hk
  by_cases h : distAt s3.dist k < distAt s2.dist k
  · exact h23.fresh k h
  · have h' : distAt s2.dist k ≤ distAt s3.dist k := not_lt.1 h
    exact h23.sub k (h12.fresh k (lt_of_le_of_lt h' hk))

theorem advances_improve_fp {A : Arith F} {rank : F → Nat} {nodes : NodeMap F}
    {adjacency : AdjMap} {start : String} {st : SearchState F} (hA : Laws A rank)
    (hinv : Inv A nodes adjacency start st) (u v : String) (hv : hasPos nodes v)
    (hlt : altDist A nodes st.dist u v < distAt st.dist v) :
    Advances rank nodes st (improve st u v (altDist A nodes st.dist u v)) := by
  refine ⟨fun k => distAt_mapSet_le_fp st.dist v k _ (le_of_lt hlt), ?_, ?_,
    potential_improve_fp hA hinv u v hv hlt⟩
  · intro k hk
    exact (pqPush_perm _ st.pq v).mem_iff.2 (List.mem_cons_of_mem _ hk)
  · intro k hk
    have hk' : distAt (mapSet st.dist v (altDist A nodes st.dist u v)) k < distAt st.dist k := hk
    rw [distAt_mapSet_fp] at hk'
    by_cases hkv : k = v
    · exact (pqPush_perm _ st.pq v).mem_iff.2 (by simp [hkv])
    · simp [hkv] at hk'

theorem altDist_congr_fp (A : Arith F) (nodes : NodeMap F) (d d' : DistMap F) (u v : String)
    (h : distAt d' u = distAt d u) : altDist A nodes d' u v = altDist A nodes d u v := by
  unfold altDist
  rw [h]

/-- The inner loop over the links of a positioned `u` completes, keeps the
invariants and any property `X` that successful relaxations from `u` keep,
leaves the tentative distance of `u` as it was, and leaves no positioned link
of `u` with a tentative distance above the candidate through `u`. -/
theorem relax_spec_fp {A : Arith F} {rank : F → Nat} {nodes : NodeMap F}
    {adjacency : AdjMap} {start : String} (hA : Laws A rank) (u : String)
    (hu : hasPos nodes u) (X : SearchState F → Prop)
    (hX : ∀ st v, Inv A nodes adjacency start st → X st → hasPos nodes v →
      v ∈ linksOf adjacency u → altDist A nodes st.dist u v < distAt st.dist v →
      X (improve st u v (altDist A nodes st.dist u v))) :
    ∀ (links : List String) (st : SearchState F), Inv A nodes adjacency start st → X st →
      (∀ v ∈ links, v ∈ linksOf adjacency u) →
      ∃ st', relax A nodes u links st = .done st' ∧ Inv A nodes adjacency start st' ∧
        X st' ∧ Advances rank nodes st st' ∧ distAt st'.dist u = distAt st.dist u ∧
        ∀ v ∈ links, hasPos nodes v → distAt st'.dist v ≤ altDist A nodes st'.dist u v := by
  intro links
  induction links with
  | nil =>
    intro st hinv hx _
    exact ⟨st, rfl, hinv, hx, advances_refl_fp rank nodes st, rfl,
      fun v hv => absurd hv (List.not_mem_nil v)⟩
  | cons v vs ih =>
    intro st hinv hx hl
    have hvl : v ∈ linksOf adjacency u := hl v (by simp)
    have hvs : ∀ w ∈ vs, w ∈ linksOf adjacency u := fun w hw => hl w (List.mem_cons_of_mem _ hw)
    rcases relaxStep_cases_fp A nodes u v st hu with ⟨heq, hno⟩ | ⟨hv, hlt, heq⟩
    · obtain ⟨st', h1, h2, h3, h4, h5, h6⟩ := ih st hinv hx hvs
      refine ⟨st', by simp only [relax, heq, h1], h2, h3, h4, h5, ?_⟩
      intro w hw hwp
      rcases List.mem_cons.1 hw with rfl | hw'
      · have : distAt st.dist w ≤ altDist A nodes st.dist u w := not_lt.1 (hno hwp)
        rw [altDist_congr_fp A nodes st.dist st'.dist u w h5]
        exact (h4.le w).trans this
      · exact h6 w hw' hwp
    · have hinv1 := inv_improve_fp hA hinv u v hu hv hvl hlt
      have hx1 := hX st v hinv hx hv hvl hlt
      have hadv1 := advances_improve_fp hA hinv u v hv hlt
      have huv : u ≠ v := by
        intro h
        rw [← h] at hlt
        exact absurd (lt_of_lt_of_le hlt (le_altDist_fp hA nodes st.dist u u (hinv.nonneg u)))
          (lt_irrefl _)
      have hu1 : distAt (improve st u v (altDist A nodes st.dist u v)).dist u
          = distAt st.dist u := by
        show distAt (mapSet st.dist v _) u = _
        rw [distAt_mapSet_fp]
        simp [huv]
      obtain ⟨st', h1, h2, h3, h4, h5, h6⟩ := ih _ hinv1 hx1 hvs
      refine ⟨st', by simp only [relax, heq, h1], h2, h3, advances_trans_fp hadv1 h4,
        h5.trans hu1, ?_⟩
      intro w hw hwp
      rcases List.mem_cons.1 hw with rfl | hw'
      · have h7 : distAt (improve st u w (altDist A nodes st.dist u w)).dist w
            = altDist A nodes st.dist u w := by
          show distAt (mapSet st.dist w _) w = _
          rw [distAt_mapSet_fp]; simp only [if_true]
        rw [altDist_congr_fp A nodes st.dist st'.dist u w (h5.trans hu1)]
        exact (h4.le w).trans (le_of_eq h7)
      · exact h6 w hw' hwp

theorem inv_pq_sub_fp {A : Arith F} {nodes : NodeMap F} {adjacency : AdjMap} {start : String}
    {st : SearchState F} (hinv : Inv A nodes adjacency start st) (pq' : List String)
    (hsub : ∀ k ∈ pq', k ∈ st.pq) :
    Inv A nodes adjacency start { st with pq := pq' } :=
  ⟨hinv.start_zero, hinv.nonneg, hinv.le_inf, fun k hk => hinv.queued k (hsub k hk),
    hinv.prev_edge, hinv.prev_start, hinv.chain, hinv.route⟩

theorem searchLoop_nil_fp (A : Arith F) (nodes : NodeMap F) (adjacency : AdjMap)
    (goal : String) (fuel : Nat) (st : SearchState F) (h : st.pq = []) :
    searchLoop A nodes adjacency goal fuel st = .done st := by
  cases fuel <;> simp [searchLoop, h]

theorem searchLoop_zero_fp (A : Arith F) (nodes : NodeMap F) (adjacency : AdjMap)
    (goal : String) (st : SearchState F) (u : String) (rest : List String)
    (h : st.pq = u :: rest) :
    searchLoop A nodes adjacency goal 0 st = .timeout := by
  simp [searchLoop, h]

theorem searchLoop_succ_fp (A : Arith F) (nodes : NodeMap F) (adjacency : AdjMap)
    (goal : String) (fuel : Nat) (st : SearchState F) (u : String) (rest : List String)
    (h : st.pq = u :: rest) :
    searchLoop A nodes adjacency goal (fuel + 1) st =
      if u = goal then .done { st with pq := pqPop (cmp st.dist) st.pq }
      else
        match adjacency.lookup u with
        | none => searchLoop A nodes adjacency goal fuel
            { st with pq := pqPop (cmp st.dist) st.pq }
        | some links =>
          match relax A nodes u links { st with pq := pqPop (cmp st.dist) st.pq } with
          | .done st2 => searchLoop A nodes adjacency goal fuel st2
          | .outOfRange => .outOfRange
          | .timeout => .timeout := by
  rw [searchLoop]
  simp only [h]

/-- The main loop, started in a state that satisfies the invariants with at
least `potential` iterations allowed, completes; the invariants (and any
property `X` kept by successful relaxations) hold on exit, and either the queue
ran empty or the goal was popped with a finite distance. -/
theorem searchLoop_spec_fp {A : Arith F} {rank : F → Nat} {nodes : NodeMap F}
    {adjacency : AdjMap} {start : String} (goal : String) (hA : Laws A rank)
    (X : SearchState F → Prop) (hXpq : ∀ st pq', X st → X { st with pq := pq' })
    (hX : ∀ st u v, Inv A nodes adjacency start st → X st → hasPos nodes u →
      hasPos nodes v → v ∈ linksOf adjacency u →
      altDist A nodes st.dist u v < distAt st.dist v →
      X (improve st u v (altDist A nodes st.dist u v))) :
    ∀ (fuel : Nat) (st : SearchState F), Inv A nodes adjacency start st → X st →
      Closed A nodes adjacency goal st → potential rank nodes st ≤ fuel →
      ∃ st', searchLoop A nodes adjacency goal fuel st = .done st' ∧
        Inv A nodes adjacency start st' ∧ X st' ∧
        ((Closed A nodes adjacency goal st' ∧ st'.pq = []) ∨
          (distAt st'.dist goal < A.inf ∧ hasPos nodes goal)) := by
  intro fuel
  induction fuel with
  | zero =>
    intro st hinv hx hcl hpot
    cases hpq : st.pq with
    | nil => exact ⟨st, searchLoop_nil_fp _ _ _ _ _ _ hpq, hinv, hx, Or.inl ⟨hcl, hpq⟩⟩
    | cons u rest =>
      exfalso
      simp [potential, hpq] at hpot
  | succ fuel ih =>
    intro st hinv hx hcl hpot
    cases hpq : st.pq with
    | nil => exact ⟨st, searchLoop_nil_fp _ _ _ _ _ _ hpq, hinv, hx, Or.inl ⟨hcl, hpq⟩⟩
    | cons u rest =>
      have hperm : (pqPop (cmp st.dist) st.pq).Perm rest := by
        rw [hpq]; exact pqPop_perm _ u rest
      have hsub : ∀ k ∈ pqPop (cmp st.dist) st.pq, k ∈ st.pq := by
        intro k hk
        rw [hpq]
        exact List.mem_cons_of_mem _ (hperm.mem_iff.1 hk)
      have huq := hinv.queued u (by rw [hpq]; simp)
      have hinv1 := inv_pq_sub_fp hinv _ hsub
      have hx1 := hXpq st (pqPop (cmp st.dist) st.pq) hx
      have hpot1 : potential rank nodes { st with pq := pqPop (cmp st.dist) st.pq } ≤ fuel := by
        have h1 := hperm.length_eq
        rw [hpq] at h1
        simp only [potential, hpq, List.length_cons] at hpot ⊢
        omega
      rw [searchLoop_succ_fp _ _ _ _ _ _ u rest hpq]
      by_cases hug : u = goal
      · rw [if_pos hug]
        exact ⟨_, rfl, hinv1, hx1, Or.inr ⟨by rw [← hug]; exact huq.2, by rw [← hug]; exact huq.1⟩⟩
      · rw [if_neg hug]
        have hnotin : ∀ u', u' ≠ u → u' ∉ pqPop (cmp st.dist) st.pq → u' ∉ st.pq := by
          intro u' hne hn hmem
          rw [hpq] at hmem
          rcases List.mem_cons.1 hmem with h | h
          · exact hne h
          · exact hn (hperm.mem_iff.2 h)
        cases hlk : adjacency.lookup u with
        | none =>
          simp only []
          refine ih _ hinv1 hx1 ?_ hpot1
          intro u' hu' hfin hnq hng v hv hvp
          by_cases hu : u' = u
          · rw [hu, linksOf_of_lookup_none adjacency u hlk] at hv
            exact absurd hv (List.not_mem_nil v)
          · exact hcl u' hu' hfin (hnotin u' hu hnq) hng v hv hvp
        | some links =>
          simp only []
          have hlinks := linksOf_of_lookup adjacency u links hlk
          obtain ⟨st2, h1, h2, h3, h4, _, h5⟩ := relax_spec_fp hA u huq.1 X
            (fun st v hi hx hv hl hlt => hX st u v hi hx huq.1 hv hl hlt)
            links _ hinv1 hx1 (fun v hv => by rw [hlinks]; exact hv)
          rw [h1]
          simp only []
          refine ih st2 h2 h3 ?_ (h4.pot.trans hpot1)
          intro u' hu' hfin hnq hng v hv hvp
          by_cases hu : u' = u
          · rw [hu, hlinks] at hv
            rw [hu]
            exact h5 v hv hvp
          · have hsame : distAt st2.dist u' = distAt st.dist u' := by
              refine le_antisymm (h4.le u') (not_lt.1 (fun hlt => hnq (h4.fresh u' hlt)))
            have hold : distAt st.dist u' < A.inf := by rw [← hsame]; exact hfin
            have hnq1 : u' ∉ pqPop (cmp st.dist) st.pq := fun hm => hnq (h4.sub u' hm)
            rw [altDist_congr_fp A nodes st.dist st2.dist u' v hsame]
            exact (h4.le v).trans (hcl u' hu' hold (hnotin u' hu hnq1) hng v hv hvp)

/-- More fuel does not change a run of the main loop that completed or threw. -/
theorem searchLoop_mono_fp (A : Arith F) (nodes : NodeMap F) (adjacency : AdjMap)
    (goal : String) (k : Nat) : ∀ (fuel : Nat) (st : SearchState F),
      searchLoop A nodes adjacency goal fuel st ≠ .timeout →
      searchLoop A nodes adjacency goal (fuel + k) st
        = searchLoop A nodes adjacency goal fuel st := by
  intro fuel
  induction fuel with
  | zero =>
    intro st h
    cases hpq : st.pq with
    | nil => rw [searchLoop_nil_fp _ _ _ _ _ _ hpq, searchLoop_nil_fp _ _ _ _ _ _ hpq]
    | cons u rest => exact absurd (searchLoop_zero_fp _ _ _ _ _ u rest hpq) h
  | succ fuel ih =>
    intro st h
    cases hpq : st.pq with
    | nil => rw [searchLoop_nil_fp _ _ _ _ _ _ hpq, searchLoop_nil_fp _ _ _ _ _ _ hpq]
    | cons u rest =>
      have e : fuel + 1 + k = (fuel + k) + 1 := by omega
      rw [e, searchLoop_succ_fp _ _ _ _ _ _ u rest hpq]
      rw [searchLoop_succ_fp _ _ _ _ _ _ u rest hpq] at h ⊢
      by_cases hug : u = goal
      · simp only [if_pos hug]
      · simp only [if_neg hug] at h ⊢
        cases hlk : adjacency.lookup u with
        | none =>
          simp only [hlk] at h ⊢
          exact ih _ h
        | some links =>
          simp only [hlk] at h ⊢
          cases hr : relax A nodes u links { st with pq := pqPop (cmp st.dist) st.pq } with
          | done st2 =>
            simp only [hr] at h ⊢
            exact ih _ h
          | outOfRange => rfl
          | timeout => rfl

end FpLoop

end Fp

namespace Fp

section FpResults

variable {F : Type} [LinearOrder F] [Zero F]

/-! ## The search as a whole, in the arithmetic of `double` -/

theorem inv_init_fp {A : Arith F} {rank : F → Nat} (hA : Laws A rank) (nodes : NodeMap F)
    (adjacency : AdjMap) (start : String) (hstart : hasPos nodes start) :
    Inv A nodes adjacency start (initState A nodes start) := by
  have hfin : ∀ k, hasPos nodes k → distAt (initState A nodes start).dist k < A.inf →
      k = start := by
    intro k hk hlt
    by_contra hne
    rw [initState_dist_fp] at hlt
    simp only [hne, hk, if_false, if_true] at hlt
    exact lt_irrefl _ hlt
  have hzero : distAt (initState A nodes start).dist start = 0 := by
    rw [initState_dist_fp]; simp
  refine ⟨hzero, ?_, ?_, ?_, ?_, rfl, ?_, ?_⟩
  · intro k
    rw [initState_dist_fp]
    split
    · exact le_refl _
    · split
      · exact le_of_lt hA.inf_pos
      · exact le_refl _
  · intro k
    rw [initState_dist_fp]
    split
    · exact le_of_lt hA.inf_pos
    · split
      · exact le_refl _
      · exact le_of_lt hA.inf_pos
  · intro k hk
    rw [initState_pq_fp] at hk
    have : k = start := by simpa using hk
    subst this
    refine ⟨hstart, ?_⟩
    rw [hzero]; exact hA.inf_pos
  · intro v u h
    rw [initState_prev_fp] at h
    cases h
  · intro v hv hlt
    have := hfin v hv hlt
    subst this
    exact ⟨[], rfl⟩
  · intro v hv hlt
    have := hfin v hv hlt
    subst this
    refine ⟨[v], rfl, rfl, ?_, List.chain'_singleton _, ?_⟩
    · intro x hx
      have : x = v := by simpa using hx
      rw [this]; exact hstart
    · rw [hzero]
      exact le_of_eq rfl

theorem closed_init_fp (A : Arith F) (nodes : NodeMap F) (adjacency : AdjMap)
    (start goal : String) : Closed A nodes adjacency goal (initState A nodes start) := by
  intro u hu hfin hnq _ v _ _
  exfalso
  rw [initState_pq_fp] at hnq
  have hne : u ≠ start := by simpa using hnq
  rw [initState_dist_fp] at hfin
  simp only [hne, hu, if_false, if_true] at hfin
  exact lt_irrefl _ hfin

/-- More fuel does not change a run of `findOptimalPath` that returned or threw. -/
theorem findOptimalPath_mono_fp (A : Arith F) (nodes : NodeMap F) (adjacency : AdjMap)
    (start goal : String) (fuel k : Nat)
    (h : findOptimalPath A fuel nodes adjacency start goal ≠ .timeout) :
    findOptimalPath A (fuel + k) nodes adjacency start goal
      = findOptimalPath A fuel nodes adjacency start goal := by
  unfold findOptimalPath at h ⊢
  cases hl : searchLoop A nodes adjacency goal fuel (initState A nodes start) with
  | done st =>
    have hm := searchLoop_mono_fp A nodes adjacency goal k fuel (initState A nodes start)
      (by rw [hl]; simp)
    rw [hm, hl]
    rw [hl] at h
    simp only [] at h ⊢
    by_cases ht : distAt st.dist goal = A.inf
    · simp only [ht, if_true]
    · simp only [ht, if_false] at h ⊢
      have hw : walkBack st.prev fuel goal [] ≠ .timeout := by
        intro hw; rw [hw] at h; exact h rfl
      rw [walkBack_mono st.prev k fuel goal [] hw]
  | outOfRange =>
    have hm := searchLoop_mono_fp A nodes adjacency goal k fuel (initState A nodes start)
      (by rw [hl]; simp)
    rw [hm, hl]
  | timeout =>
    rw [hl] at h
    exact absurd rfl h

theorem findOptimalPath_of_search_fp (A : Arith F) (nodes : NodeMap F) (adjacency : AdjMap)
    (start goal : String) (fuel : Nat) (st : SearchState F)
    (h : searchLoop A nodes adjacency goal fuel (initState A nodes start) = .done st) :
    findOptimalPath A fuel nodes adjacency start goal =
      if distAt st.dist goal = A.inf then .done []
      else
        match walkBack st.prev fuel goal [] with
        | .done path => .done path.reverse
        | .outOfRange => .outOfRange
        | .timeout => .timeout := by
  unfold findOptimalPath
  rw [h]

/-- Two runs that both return give the same list. -/
theorem findOptimalPath_unique_fp (A : Arith F) (nodes : NodeMap F) (adjacency : AdjMap)
    (start goal : String) (f1 f2 : Nat) (p1 p2 : List String)
    (h1 : findOptimalPath A f1 nodes adjacency start goal = .done p1)
    (h2 : findOptimalPath A f2 nodes adjacency start goal = .done p2) : p1 = p2 := by
  have e1 := findOptimalPath_mono_fp A nodes adjacency start goal f1 f2 (by rw [h1]; simp)
  have e2 := findOptimalPath_mono_fp A nodes adjacency start goal f2 f1 (by rw [h2]; simp)
  rw [Nat.add_comm f2 f1, e1, h1, h2] at e2
  exact Outcome.done.inj e2

/-- From the entry state the main loop completes for every fuel from
`potential` on, always in the same state. -/
theorem search_completes_fp {A : Arith F} {rank : F → Nat} {nodes : NodeMap F}
    {adjacency : AdjMap} {start : String} (goal : String) (hA : Laws A rank)
    (hstart : hasPos nodes start)
    (X : SearchState F → Prop) (hXpq : ∀ st pq', X st → X { st with pq := pq' })
    (hX : ∀ st u v, Inv A nodes adjacency start st → X st → hasPos nodes u →
      hasPos nodes v → v ∈ linksOf adjacency u →
      altDist A nodes st.dist u v < distAt st.dist v →
      X (improve st u v (altDist A nodes st.dist u v)))
    (hX0 : X (initState A nodes start)) :
    ∃ st', (∀ fuel, potential rank nodes (initState A nodes start) ≤ fuel →
        searchLoop A nodes adjacency goal fuel (initState A nodes start) = .done st') ∧
      Inv A nodes adjacency start st' ∧ X st' ∧
      ((Closed A nodes adjacency goal st' ∧ st'.pq = []) ∨
        (distAt st'.dist goal < A.inf ∧ hasPos nodes goal)) := by
  obtain ⟨st', h1, h2, h3, h4⟩ := searchLoop_spec_fp goal hA X hXpq hX
    (potential rank nodes (initState A nodes start)) (initState A nodes start)
    (inv_init_fp hA nodes adjacency start hstart) hX0
    (closed_init_fp A nodes adjacency start goal) (le_refl _)
  refine ⟨st', ?_, h2, h3, h4⟩
  intro fuel hf
  obtain ⟨k, rfl⟩ := Nat.exists_eq_add_of_le hf
  rw [searchLoop_mono_fp A nodes adjacency goal k _ _ (by rw [h1]; simp), h1]

/-- With an empty queue and the closure property, the tentative distance of
the goal is finite as soon as some backward path from a node to start has a
finite computed length and the goal lies on it or is that node; failing the
first, the node's tentative distance is at most the computed length. -/
theorem closed_route_fp {A : Arith F} {rank : F → Nat} {nodes : NodeMap F}
    {adjacency : AdjMap} {start goal : String} {st : SearchState F} (hA : Laws A rank)
    (hinv : Inv A nodes adjacency start st)
    (hcl : Closed A nodes adjacency goal st) (hpq : st.pq = []) :
    ∀ (P : List String) (x : String), (∀ z ∈ x :: P, hasPos nodes z) →
      (x :: P).Chain' (fun b a => b ∈ linksOf adjacency a) →
      (x :: P).getLast? = some start → revLen A nodes (x :: P) < A.inf →
      distAt st.dist goal < A.inf ∨ distAt st.dist x ≤ revLen A nodes (x :: P) := by
  intro P
  induction P with
  | nil =>
    intro x _ _ hlast _
    have : x = start := by simpa using hlast
    right
    rw [this, hinv.start_zero]
    exact le_of_eq rfl
  | cons u P ih =>
    intro x hpos hch hlast hfin
    obtain ⟨hxu, hch'⟩ := List.chain'_cons.1 hch
    rw [List.getLast?_cons_cons] at hlast
    have hle := revLen_le_cons_fp hA nodes x (u :: P)
    have hfin' : revLen A nodes (u :: P) < A.inf := lt_of_le_of_lt hle hfin
    rcases ih u (fun z hz => hpos z (List.mem_cons_of_mem _ hz)) hch' hlast hfin' with h | h
    · exact Or.inl h
    · have hdu : distAt st.dist u < A.inf := lt_of_le_of_lt h hfin'
      by_cases hug : u = goal
      · left; rw [← hug]; exact hdu
      · right
        have h1 := hcl u (hpos u (by simp)) hdu (by rw [hpq]; simp) hug x hxu (hpos x (by simp))
        refine h1.trans ?_
        rw [revLen_cons_cons_fp]
        exact hA.add_mono _ _ _ (hinv.nonneg u) h (edgeLen_nonneg_fp hA nodes u x)

/-- The shape of the result when start and goal have positions: the empty list
when the goal's distance stayed infinite, and otherwise the reversed chain of
predecessors from the goal, cut at the first empty name. -/
theorem findOptimalPath_shape_fp {A : Arith F} {rank : F → Nat} (hA : Laws A rank)
    (nodes : NodeMap F) (adjacency : AdjMap)
    (start goal : String) (hstart : hasPos nodes start) (hgoal : hasPos nodes goal) :
    ∃ (N : Nat) (st : SearchState F) (p : List String),
      (∀ fuel, N ≤ fuel → findOptimalPath A fuel nodes adjacency start goal = .done p) ∧
      Inv A nodes adjacency start st ∧
      ((Closed A nodes adjacency goal st ∧ st.pq = []) ∨ distAt st.dist goal < A.inf) ∧
      ((distAt st.dist goal = A.inf ∧ p = []) ∨
        (distAt st.dist goal < A.inf ∧ ∃ C, PrevChain st.prev start (goal :: C) ∧
          p = ((goal :: C).takeWhile (fun s => decide (s ≠ ""))).reverse)) := by
  obtain ⟨st, h1, h2, _, h4⟩ := search_completes_fp goal hA hstart (fun _ => True)
    (fun _ _ _ => trivial) (fun _ _ _ _ _ _ _ _ _ => trivial) trivial
  have hexit : (Closed A nodes adjacency goal st ∧ st.pq = []) ∨
      distAt st.dist goal < A.inf := by
    rcases h4 with h | h
    · exact Or.inl h
    · exact Or.inr h.1
  by_cases ht : distAt st.dist goal = A.inf
  · refine ⟨potential rank nodes (initState A nodes start), st, [], ?_, h2, hexit,
      Or.inl ⟨ht, rfl⟩⟩
    intro fuel hf
    rw [findOptimalPath_of_search_fp A nodes adjacency start goal fuel st (h1 fuel hf)]
    simp [ht]
  · have hfin : distAt st.dist goal < A.inf := lt_of_le_of_ne (h2.le_inf goal) ht
    obtain ⟨C, hC⟩ := h2.chain goal hgoal hfin
    refine ⟨max (potential rank nodes (initState A nodes start)) (goal :: C).length, st, _, ?_,
      h2, hexit, Or.inr ⟨hfin, C, hC, rfl⟩⟩
    intro fuel hf
    rw [findOptimalPath_of_search_fp A nodes adjacency start goal fuel st
      (h1 fuel (le_trans (le_max_left _ _) hf))]
    rw [if_neg ht, walkBack_chain st.prev start h2.prev_start C goal [] fuel hC
      (le_trans (le_max_right _ _) hf)]
    simp

/-- Emptiness of the result, in the arithmetic of `double`: when start and
goal have positions and the goal is not the empty name, `findOptimalPath`
returns, and the list is empty exactly when no route from start to goal has a
finite computed length. -/
theorem emptyIff_fp {A : Arith F} {rank : F → Nat} (hA : Laws A rank)
    (nodes : NodeMap F) (adjacency : AdjMap) (start goal : String)
    (hstart : hasPos nodes start) (hgoal : hasPos nodes goal) (hg : goal ≠ "") :
    ∃ N p, (∀ fuel, N ≤ fuel →
        findOptimalPath A fuel nodes adjacency start goal = .done p) ∧
      (p = [] ↔ ¬ ∃ r, IsRoute nodes adjacency r ∧ r.head? = some start ∧
        r.getLast? = some goal ∧ routeLen A nodes r < A.inf) := by
  obtain ⟨N, st, p, hrun, hinv, hexit, hshape⟩ :=
    findOptimalPath_shape_fp hA nodes adjacency start goal hstart hgoal
  refine ⟨N, p, hrun, ?_⟩
  rcases hshape with ⟨htop, hnil⟩ | ⟨hfin, C, _, hp⟩
  · refine ⟨fun _ => ?_, fun _ => hnil⟩
    rintro ⟨r, ⟨hpos, hch⟩, hhead, hlast, hlen⟩
    have hcontra : distAt st.dist goal < A.inf := by
      rcases hexit with ⟨hcl, hpq⟩ | h
      · cases hr : r.reverse with
        | nil =>
          have : r = [] := by simpa using hr
          rw [this] at hhead
          simp at hhead
        | cons x P =>
          have hx : x = goal := by
            have h1 : r.reverse.head? = some goal := by rw [List.head?_reverse]; exact hlast
            rw [hr] at h1
            simpa using h1
          have hlen' : revLen A nodes (x :: P) < A.inf := by
            rw [← hr]; exact hlen
          have hres := closed_route_fp hA hinv hcl hpq P x
            (fun z hz => hpos z (by
              have : z ∈ r.reverse := by rw [hr]; exact hz
              exact List.mem_reverse.1 this))
            (by rw [← hr, List.chain'_reverse]; exact hch)
            (by rw [← hr, List.getLast?_reverse]; exact hhead) hlen'
          rcases hres with h | h
          · exact h
          · rw [← hx]
            exact lt_of_le_of_lt h hlen'
      · exact h
    rw [htop] at hcontra
    exact absurd hcontra (lt_irrefl _)
  · have hpne : p ≠ [] := by
      rw [hp, List.takeWhile_cons]
      simp [hg]
    obtain ⟨P, h1, h2, h3, h4, h5⟩ := hinv.route goal hgoal hfin
    have hroute : ∃ r, IsRoute nodes adjacency r ∧ r.head? = some start ∧
        r.getLast? = some goal ∧ routeLen A nodes r < A.inf := by
      refine ⟨P.reverse, ⟨fun x hx => h3 x (List.mem_reverse.1 hx), ?_⟩, ?_, ?_, ?_⟩
      · rw [List.chain'_reverse]
        exact h4
      · rw [List.head?_reverse]; exact h2
      · rw [List.getLast?_reverse]; exact h1
      · unfold routeLen
        rw [List.reverse_reverse]
        exact lt_of_le_of_lt h5 hfin
    exact ⟨fun h => absurd h hpne, fun h => absurd hroute h⟩

end FpResults

end Fp

namespace Fp

section FpDirect

variable {F : Type} [LinearOrder F] [Zero F]

/-! ## The direct link, in the arithmetic of `double` -/

theorem totalDist_pair_fp {A : Arith F} {rank : F → Nat} (hA : Laws A rank)
    (nodes : NodeMap F) (a b : String) :
    totalDist A nodes [a, b] = callerDist A (posAt nodes a) (posAt nodes b) := by
  simp only [totalDist, totalDistLoop]
  exact hA.zero_add _ (hA.sqrt_nonneg _)

theorem callerDist_eq_fp (A : Arith F) (hsq : ∀ x, A.sq x = A.mul x x)
    (a b : NodePosition F) : callerDist A a b = distanceBetween A a b := by
  simp only [callerDist, distanceBetween, hsq]

/-- An improvement of a node other than the goal leaves the record of the
direct link as it is. -/
theorem directKept_improve_fp {A : Arith F} {nodes : NodeMap F} {start goal : String}
    {st : SearchState F} (hk : DirectKept A nodes start goal st) (u v : String) (a : F)
    (hvg : v ≠ goal) : DirectKept A nodes start goal (improve st u v a) := by
  refine ⟨?_, ?_⟩
  · show mapSet st.prev v u goal = some start
    simp [mapSet, Ne.symm hvg, hk.1]
  · show distAt (mapSet st.dist v _) goal = _
    rw [distAt_mapSet_fp]
    simp [Ne.symm hvg, hk.2]

/-- Direct link wins, in the arithmetic of `double`: for start and goal
distinct non-empty names with positions such that goal occurs in start's
declared link list, the computed length of that link is finite, and no route
from start to goal has a smaller computed length, `findOptimalPath` returns
exactly [start, goal]. -/
theorem directLink_fp {A : Arith F} {rank : F → Nat} (hA : Laws A rank)
    (nodes : NodeMap F) (adjacency : AdjMap)
    (start goal : String) (hsg : start ≠ goal) (hs0 : start ≠ "") (hg0 : goal ≠ "")
    (hstart : hasPos nodes start) (hgoal : hasPos nodes goal)
    (hlink : goal ∈ linksOf adjacency start)
    (hfinite : edgeLen A nodes start goal < A.inf)
    (hbest : ∀ r, IsRoute nodes adjacency r → r.head? = some start →
      r.getLast? = some goal → ¬ routeLen A nodes r < edgeLen A nodes start goal) :
    ∃ N, ∀ fuel, N ≤ fuel →
      findOptimalPath A fuel nodes adjacency start goal = .done [start, goal] := by
  have he0 : 0 ≤ edgeLen A nodes start goal := edgeLen_nonneg_fp hA nodes start goal
  -- the first iteration pops start and relaxes its links
  obtain ⟨links, hlk⟩ : ∃ links, adjacency.lookup start = some links := by
    cases h : adjacency.lookup start with
    | none => rw [linksOf_of_lookup_none adjacency start h] at hlink; simp at hlink
    | some l => exact ⟨l, rfl⟩
  have hlinks := linksOf_of_lookup adjacency start links hlk
  have hinv0 := inv_init_fp hA nodes adjacency start hstart
  have hpq0 := initState_pq_fp A nodes start
  have hsub0 : ∀ k ∈ pqPop (cmp (initState A nodes start).dist) (initState A nodes start).pq,
      k ∈ (initState A nodes start).pq := by
    intro k hk
    rw [hpq0, pqPop_singleton] at hk
    simp at hk
  have hinv1 := inv_pq_sub_fp hinv0 _ hsub0
  have hgtop : distAt (initState A nodes start).dist goal = A.inf := by
    rw [initState_dist_fp]
    simp [Ne.symm hsg, hgoal]
  obtain ⟨st2, r1, r2, r3, r4, r5, r6⟩ := relax_spec_fp hA start hstart
    (fun st => distAt st.dist goal = A.inf ∨ DirectKept A nodes start goal st)
    (by
      intro st v hi hy _ _ _
      by_cases hvg : v = goal
      · right
        subst hvg
        refine ⟨by simp [improve, mapSet], ?_⟩
        show distAt (mapSet st.dist v _) v = _
        rw [distAt_mapSet_fp]
        simp only [if_true, altDist, hi.start_zero]
        exact hA.zero_add _ he0
      · rcases hy with hy | hy
        · left
          show distAt (mapSet st.dist v _) goal = A.inf
          rw [distAt_mapSet_fp]
          simp [Ne.symm hvg, hy]
        · right
          exact directKept_improve_fp hy start v _ hvg)
    links { initState A nodes start with
      pq := pqPop (cmp (initState A nodes start).dist) (initState A nodes start).pq }
    hinv1 (Or.inl hgtop) (fun v hv => by rw [hlinks]; exact hv)
  have hstart2 : distAt st2.dist start = 0 := r2.start_zero
  have hgfin : distAt st2.dist goal < A.inf := by
    have h := r6 goal (by rw [← hlinks]; exact hlink) hgoal
    have e : altDist A nodes st2.dist start goal = edgeLen A nodes start goal := by
      unfold altDist
      rw [hstart2]
      exact hA.zero_add _ he0
    rw [e] at h
    exact lt_of_le_of_lt h hfinite
  have hk2 : DirectKept A nodes start goal st2 := by
    rcases r3 with h | h
    · rw [h] at hgfin; exact absurd hgfin (lt_irrefl _)
    · exact h
  have hcl2 : Closed A nodes adjacency goal st2 := by
    intro u' hu' hfin hnq _ v hv hvp
    by_cases hu : u' = start
    · rw [hu, hlinks] at hv
      rw [hu]
      exact r6 v hv hvp
    · exfalso
      have htop : distAt (initState A nodes start).dist u' = A.inf := by
        rw [initState_dist_fp]; simp [hu, hu']
      have : distAt st2.dist u' < distAt (initState A nodes start).dist u' := by
        rw [htop]; exact hfin
      exact hnq (r4.fresh u' this)
  -- the remaining iterations keep the direct link
  obtain ⟨st', l1, l2, l3, _⟩ := searchLoop_spec_fp goal hA
    (fun st => DirectKept A nodes start goal st)
    (fun _ _ h => h)
    (by
      intro st u v hi hk hu hv hl hlt
      refine directKept_improve_fp hk u v _ ?_
      intro hvg
      subst hvg
      have hi' := inv_improve_fp hA hi u v hu hv hl hlt
      have hnew : distAt (improve st u v (altDist A nodes st.dist u v)).dist v
          = altDist A nodes st.dist u v := by
        show distAt (mapSet st.dist v _) v = _
        rw [distAt_mapSet_fp]; simp only [if_true]
      have hlt' : altDist A nodes st.dist u v < edgeLen A nodes start v := by
        rw [← hk.2]; exact hlt
      obtain ⟨P, h1, h2, h3, h4, h5⟩ := hi'.route v hv
        (by rw [hnew]; exact lt_trans hlt' hfinite)
      rw [hnew] at h5
      refine hbest P.reverse ⟨fun x hx => h3 x (List.mem_reverse.1 hx), ?_⟩ ?_ ?_ ?_
      · rw [List.chain'_reverse]
        exact h4
      · rw [List.head?_reverse]; exact h2
      · rw [List.getLast?_reverse]; exact h1
      · unfold routeLen
        rw [List.reverse_reverse]
        exact lt_of_le_of_lt h5 hlt')
    (potential rank nodes st2) st2 r2 hk2 hcl2 (le_refl _)
  have hrun : searchLoop A nodes adjacency goal (potential rank nodes st2 + 1)
      (initState A nodes start) = .done st' := by
    rw [searchLoop_succ_fp _ _ _ _ _ _ start [] hpq0, if_neg hsg]
    simp only [hlk, r1]
    exact l1
  refine ⟨max (potential rank nodes st2 + 1) 2, ?_⟩
  intro fuel hf
  obtain ⟨k, hk⟩ := Nat.exists_eq_add_of_le (le_trans (le_max_left _ _) hf)
  have hrun' : searchLoop A nodes adjacency goal fuel (initState A nodes start)
      = .done st' := by
    rw [hk, searchLoop_mono_fp A nodes adjacency goal k _ _ (by rw [hrun]; simp), hrun]
  rw [findOptimalPath_of_search_fp A nodes adjacency start goal fuel st' hrun']
  have hne : distAt st'.dist goal ≠ A.inf := by
    rw [l3.2]; exact ne_of_lt hfinite
  rw [if_neg hne]
  have hchain : PrevChain st'.prev start [goal, start] := ⟨l3.1, rfl⟩
  rw [walkBack_chain st'.prev start l2.prev_start [start] goal [] fuel hchain
    (le_trans (le_max_right _ _) hf)]
  rw [takeWhile_all [goal, start] (by
    intro x hx
    rcases List.mem_cons.1 hx with rfl | hx
    · exact hg0
    · have : x = start := by simpa using hx
      rw [this]; exact hs0)]
  rfl

end FpDirect

end Fp

section FpConcrete

/-! ## A model of the laws: whole numbers -/

/-- The whole numbers with exact operations satisfy the laws, with the value
itself (zero below zero) as rank. -/
theorem intArith_laws : Fp.Laws intArith Int.toNat := by
  refine ⟨intSqrt_nonneg, ?_, ?_, ?_, by decide, ?_⟩
  · intro a b _ hb
    show a ≤ a + b
    omega
  · intro a a' b _ h _
    show a + b ≤ a' + b
    omega
  · intro b _
    show 0 + b = b
    omega
  · intro a b ha hab
    omega

/-- With the single declared link A → B, the only route from A to B is [A, B]. -/
theorem oneLink_route (nodes : NodeMap ℤ) (r : List String)
    (hr : Fp.IsRoute nodes oneLinkAdj r) (hh : r.head? = some "A")
    (hl : r.getLast? = some "B") : r = ["A", "B"] := by
  obtain ⟨_, hch⟩ := hr
  cases r with
  | nil => simp at hh
  | cons x r1 =>
    have hx : x = "A" := by simpa using hh
    subst hx
    cases r1 with
    | nil => simp at hl
    | cons y r2 =>
      obtain ⟨hxy, hch'⟩ := List.chain'_cons.1 hch
      have hy : y = "B" := by simpa [linksOf, oneLinkAdj, List.lookup] using hxy
      subst hy
      cases r2 with
      | nil => rfl
      | cons z r3 =>
        obtain ⟨hyz, _⟩ := List.chain'_cons.1 hch'
        simp [linksOf, oneLinkAdj, List.lookup] at hyz

end FpConcrete

/-! # The claims

Claims about `findOptimalPath` are stated over the real numbers with the real
square root, and the two on which rounding and overflow bear (C3, C4) for
every arithmetic that satisfies the laws `Fp.Laws`; the run that exhibits the
stale heap uses the integers, all of whose square roots are taken of perfect
squares. Claims about the two parsers
hold for every number type and every conversion `readNum`; the runs on
concrete texts use the integers and `readInt`. -/

section ClaimsPathFinder

/-- C1, failing input: six nodes on a line, S at 0, A at -2, U at 2,
G at 3, V at 4, X at 6, with links S → A, U; A → V, G, X; U → V; V → G. When U
lowers the distance of V, the copy of V already in the heap gets a smaller key
without moving, the new copy of V stops below it, and G stays on top: the
search returns [S, A, G] of length 2 + 5 = 7 although the chain of declared
links S → U → V → G has length 2 + 2 + 1 = 5. -/
theorem findOptimalPath_stale_heap_suboptimal :
    (∀ k, findOptimalPath intSqrt (4 + k) lineNodes lineAdj "S" "G" = .done ["S", "A", "G"]) ∧
      totalDist intSqrt lineNodes ["S", "A", "G"] = 7 ∧
      IsRoute lineNodes lineAdj ["S", "U", "V", "G"] ∧
      totalDist intSqrt lineNodes ["S", "U", "V", "G"] = 5 := by
  refine ⟨fun k => ?_, by decide!, ⟨?_, ?_⟩, by decide!⟩
  · have h : findOptimalPath intSqrt 4 lineNodes lineAdj "S" "G" = .done ["S", "A", "G"] := by
      decide!
    rw [findOptimalPath_mono intSqrt lineNodes lineAdj "S" "G" 4 k (by rw [h]; simp), h]
  · intro x hx
    simp only [List.mem_cons, List.mem_singleton, List.not_mem_nil, or_false] at hx
    rcases hx with rfl | rfl | rfl | rfl <;> decide
  · simp [linksOf, lineAdj, List.lookup]

/-- C2, as stated, fails: in the graph S → "" → G on a line (the middle node
is stored under the empty name) start and goal are non-empty names with
positions, and the search from S to G returns the non-empty list [G], whose
first element is not the start S. -/
theorem findOptimalPath_blank_node_cuts_path :
    "S" ≠ "" ∧ "G" ≠ "" ∧ hasPos (blankNodes ℝ) "S" ∧ hasPos (blankNodes ℝ) "G" ∧
      findOptimalPath Real.sqrt 3 (blankNodes ℝ) blankAdj "S" "G" = .done ["G"] ∧
      (["G"] : List String) ≠ [] ∧ (["G"] : List String).head? ≠ some "S" :=
  ⟨by decide, by decide, by simp [hasPos, blankNodes, List.lookup],
    by simp [hasPos, blankNodes, List.lookup], blank_run_middle Real.sqrt, by decide, by decide⟩

/-- C2 (amended): for every graph in which no name with a position is empty,
and every start and goal with positions, `findOptimalPath` returns (the same
list for every sufficient fuel), and whenever the returned list is non-empty
its first element is start, its last element is goal, every element has a
position, and each element occurs in the declared link list of the element
before it. -/
theorem findOptimalPath_wellFormed (nodes : NodeMap ℝ) (adjacency : AdjMap)
    (start goal : String) (hne : ∀ k, hasPos nodes k → k ≠ "")
    (hstart : hasPos nodes start) (hgoal : hasPos nodes goal) :
    (∃ N p, ∀ fuel, N ≤ fuel →
        findOptimalPath Real.sqrt fuel nodes adjacency start goal = .done p) ∧
      ∀ fuel p, findOptimalPath Real.sqrt fuel nodes adjacency start goal = .done p → p ≠ [] →
        p.head? = some start ∧ p.getLast? = some goal ∧ (∀ x ∈ p, hasPos nodes x) ∧
          p.Chain' (fun a b => b ∈ linksOf adjacency a) :=
  wellFormed_of_sqrt Real.sqrt Real.sqrt_nonneg nodes adjacency start goal hne hstart hgoal

/-- C2 (amended), instance: the three-node scenario, from A to C. -/
theorem findOptimalPath_wellFormed_witness :
    (∀ k, hasPos (nodesABC ℝ) k → k ≠ "") ∧ hasPos (nodesABC ℝ) "A" ∧
      hasPos (nodesABC ℝ) "C" ∧
      ((∃ N p, ∀ fuel, N ≤ fuel →
          findOptimalPath Real.sqrt fuel (nodesABC ℝ) adjABC "A" "C" = .done p) ∧
        ∀ fuel p, findOptimalPath Real.sqrt fuel (nodesABC ℝ) adjABC "A" "C" = .done p →
          p ≠ [] →
          p.head? = some "A" ∧ p.getLast? = some "C" ∧ (∀ x ∈ p, hasPos (nodesABC ℝ) x) ∧
            p.Chain' (fun a b => b ∈ linksOf adjABC a)) :=
  ⟨fun k hk h => by subst h; simp [hasPos, nodesABC, List.lookup] at hk,
    by simp [hasPos, nodesABC, List.lookup], by simp [hasPos, nodesABC, List.lookup],
    findOptimalPath_wellFormed (nodesABC ℝ) adjABC "A" "C"
      (fun k hk h => by subst h; simp [hasPos, nodesABC, List.lookup] at hk)
      (by simp [hasPos, nodesABC, List.lookup]) (by simp [hasPos, nodesABC, List.lookup])⟩

/-- C3, as stated, fails: in the graph S → "" the goal stored under the empty
name differs from S, both have positions, the goal is reachable from S by a
declared link, and yet the search returns the empty list. -/
theorem findOptimalPath_blank_goal_empty :
    "S" ≠ "" ∧ hasPos (blankNodes ℝ) "S" ∧ hasPos (blankNodes ℝ) "" ∧
      Reachable (blankNodes ℝ) blankAdj "S" "" ∧
      findOptimalPath Real.sqrt 3 (blankNodes ℝ) blankAdj "S" "" = .done [] := by
  refine ⟨by decide, by simp [hasPos, blankNodes, List.lookup],
    by simp [hasPos, blankNodes, List.lookup], ⟨["S", ""], ⟨?_, ?_⟩, rfl, rfl⟩,
    blank_run_goal Real.sqrt⟩
  · intro x hx
    rcases List.mem_cons.1 hx with rfl | hx
    · simp [hasPos, blankNodes, List.lookup]
    · have : x = "" := by simpa using hx
      subst this
      simp [hasPos, blankNodes, List.lookup]
  · simp [linksOf, blankAdj, List.lookup]

/-- C3 (amended): in the arithmetic of `double` (any operations that satisfy
the laws `Fp.Laws`), for every graph and every start and goal that have
positions, the goal not being the empty name, `findOptimalPath` returns (the
same list for every sufficient fuel), and that list is empty exactly when no
chain of declared directed links through nodes with positions leads from start
to goal with a finite computed length, the link lengths being added one after
the other from start on; in particular it is empty when no chain leads from
start to goal at all. -/
theorem findOptimalPath_empty_iff_no_finite_route {F : Type} [LinearOrder F] [Zero F]
    (A : Arith F) (rank : F → Nat) (nodes : NodeMap F) (adjacency : AdjMap)
    (start goal : String) (hA : Fp.Laws A rank) (hstart : Fp.hasPos nodes start)
    (hgoal : Fp.hasPos nodes goal) (hg : goal ≠ "") :
    ∃ N p, (∀ fuel, N ≤ fuel →
        Fp.findOptimalPath A fuel nodes adjacency start goal = .done p) ∧
      (p = [] ↔ ¬ ∃ r, Fp.IsRoute nodes adjacency r ∧ r.head? = some start ∧
        r.getLast? = some goal ∧ Fp.routeLen A nodes r < A.inf) ∧
      (¬ Fp.Reachable nodes adjacency start goal → p = []) := by
  obtain ⟨N, p, hrun, hiff⟩ := Fp.emptyIff_fp hA nodes adjacency start goal hstart hgoal hg
  refine ⟨N, p, hrun, hiff, fun hno => hiff.2 ?_⟩
  rintro ⟨r, hr, hh, hl, _⟩
  exact hno ⟨r, hr, hh, hl⟩

/-- C3 (amended), instance: the three-node scenario in whole numbers, from A
to C. -/
theorem findOptimalPath_empty_iff_no_finite_route_witness :
    Fp.Laws intArith Int.toNat ∧ Fp.hasPos (nodesABC ℤ) "A" ∧ Fp.hasPos (nodesABC ℤ) "C" ∧
      "C" ≠ "" ∧
      ∃ N p, (∀ fuel, N ≤ fuel →
          Fp.findOptimalPath intArith fuel (nodesABC ℤ) adjABC "A" "C" = .done p) ∧
        (p = [] ↔ ¬ ∃ r, Fp.IsRoute (nodesABC ℤ) adjABC r ∧ r.head? = some "A" ∧
          r.getLast? = some "C" ∧ Fp.routeLen intArith (nodesABC ℤ) r < intArith.inf) ∧
        (¬ Fp.Reachable (nodesABC ℤ) adjABC "A" "C" → p = []) :=
  ⟨intArith_laws, by decide, by decide, by decide,
    findOptimalPath_empty_iff_no_finite_route intArith Int.toNat (nodesABC ℤ) adjABC "A" "C"
      intArith_laws (by decide) (by decide) (by decide)⟩

/-- C4, as stated, fails: in the graph whose node at 1 is stored under the
empty name and links directly to G, start and goal are distinct names with
positions, and the search from that node to G returns [G], not the two-element
list of start and goal. -/
theorem findOptimalPath_blank_start_dropped :
    "" ≠ "G" ∧ hasPos (blankNodes ℝ) "" ∧ hasPos (blankNodes ℝ) "G" ∧
      "G" ∈ linksOf blankAdj "" ∧
      findOptimalPath Real.sqrt 3 (blankNodes ℝ) blankAdj "" "G" = .done ["G"] ∧
      (["G"] : List String) ≠ ["", "G"] :=
  ⟨by decide, by simp [hasPos, blankNodes, List.lookup],
    by simp [hasPos, blankNodes, List.lookup], by simp [linksOf, blankAdj, List.lookup],
    blank_run_start Real.sqrt, by decide⟩

/-- C4 (amended): in the arithmetic of `double` (any operations that satisfy
the laws `Fp.Laws`), for every graph in which start and goal are distinct
non-empty names that both have positions, goal occurs in start's declared link
list, the computed length of that link is finite, and no chain of declared
links from start to goal has a computed length below it, `findOptimalPath`
returns exactly [start, goal] (for every sufficient fuel); the total distance
the caller computes for that path is its formula
`sqrt(pow(dx, 2) + pow(dy, 2) + pow(dz, 2))` on the two positions, which is
the `distanceBetween` of the two positions when `pow(x, 2)` and `x * x` agree. -/
theorem findOptimalPath_direct_link_unbeaten {F : Type} [LinearOrder F] [Zero F]
    (A : Arith F) (rank : F → Nat) (nodes : NodeMap F) (adjacency : AdjMap)
    (start goal : String) (hA : Fp.Laws A rank) (hsg : start ≠ goal) (hs0 : start ≠ "")
    (hg0 : goal ≠ "") (hstart : Fp.hasPos nodes start) (hgoal : Fp.hasPos nodes goal)
    (hlink : goal ∈ linksOf adjacency start)
    (hfinite : Fp.edgeLen A nodes start goal < A.inf)
    (hbest : ∀ r, Fp.IsRoute nodes adjacency r → r.head? = some start →
      r.getLast? = some goal → ¬ Fp.routeLen A nodes r < Fp.edgeLen A nodes start goal) :
    (∃ N, ∀ fuel, N ≤ fuel →
        Fp.findOptimalPath A fuel nodes adjacency start goal = .done [start, goal]) ∧
      Fp.totalDist A nodes [start, goal]
        = Fp.callerDist A (Fp.posAt nodes start) (Fp.posAt nodes goal) ∧
      ((∀ x, A.sq x = A.mul x x) →
        Fp.totalDist A nodes [start, goal]
          = Fp.distanceBetween A (Fp.posAt nodes start) (Fp.posAt nodes goal)) := by
  refine ⟨Fp.directLink_fp hA nodes adjacency start goal hsg hs0 hg0 hstart hgoal hlink
    hfinite hbest, Fp.totalDist_pair_fp hA nodes start goal, fun hsq => ?_⟩
  rw [Fp.totalDist_pair_fp hA nodes start goal, Fp.callerDist_eq_fp A hsq]

/-- C4 (amended), instance: A(0,0,0) and B(3,4,0) of the three-node scenario
in whole numbers, with the single link A → B. -/
theorem findOptimalPath_direct_link_unbeaten_witness :
    Fp.Laws intArith Int.toNat ∧ "A" ≠ "B" ∧ "A" ≠ "" ∧ "B" ≠ "" ∧
      Fp.hasPos (nodesABC ℤ) "A" ∧ Fp.hasPos (nodesABC ℤ) "B" ∧
      "B" ∈ linksOf oneLinkAdj "A" ∧
      Fp.edgeLen intArith (nodesABC ℤ) "A" "B" < intArith.inf ∧
      (∀ r, Fp.IsRoute (nodesABC ℤ) oneLinkAdj r → r.head? = some "A" →
        r.getLast? = some "B" →
        ¬ Fp.routeLen intArith (nodesABC ℤ) r < Fp.edgeLen intArith (nodesABC ℤ) "A" "B") ∧
      ((∃ N, ∀ fuel, N ≤ fuel →
          Fp.findOptimalPath intArith fuel (nodesABC ℤ) oneLinkAdj "A" "B"
            = .done ["A", "B"]) ∧
        Fp.totalDist intArith (nodesABC ℤ) ["A", "B"]
          = Fp.callerDist intArith (Fp.posAt (nodesABC ℤ) "A") (Fp.posAt (nodesABC ℤ) "B") ∧
        ((∀ x, intArith.sq x = intArith.mul x x) →
          Fp.totalDist intArith (nodesABC ℤ) ["A", "B"]
            = Fp.distanceBetween intArith (Fp.posAt (nodesABC ℤ) "A")
                (Fp.posAt (nodesABC ℤ) "B"))) :=
  ⟨intArith_laws, by decide, by decide, by decide, by decide, by decide,
    by simp [linksOf, oneLinkAdj, List.lookup], by decide!,
    fun r hr hh hl => by rw [oneLink_route (nodesABC ℤ) r hr hh hl]; decide!,
    findOptimalPath_direct_link_unbeaten intArith Int.toNat (nodesABC ℤ) oneLinkAdj "A" "B"
      intArith_laws (by decide) (by decide) (by decide) (by decide) (by decide)
      (by simp [linksOf, oneLinkAdj, List.lookup]) (by decide!)
      (fun r hr hh hl => by rw [oneLink_route (nodesABC ℤ) r hr hh hl]; decide!)⟩

/-- C5: in the three-node scenario A(0,0,0), B(3,4,0), C(3,4,5) with links
A → B and B → C, `findOptimalPath(A, C)` returns exactly [A, B, C] (for every
sufficient fuel), and the total distance the caller sums over its consecutive
pairs is 5 + 5 = 10. -/
theorem findOptimalPath_three_nodes :
    (∃ N, ∀ fuel, N ≤ fuel →
        findOptimalPath Real.sqrt fuel (nodesABC ℝ) adjABC "A" "C" = .done ["A", "B", "C"]) ∧
      totalDist Real.sqrt (nodesABC ℝ) ["A", "B", "C"] = 5 + 5 ∧ (5 + 5 : ℝ) = 10 :=
  threeNodes_of_sqrt Real.sqrt Real.sqrt_nonneg (fun _ hx => Real.mul_self_sqrt hx)

/-- C6, failing input: with the single node A and the goal Z that
has no position, the read `dist[goal]` yields 0.0, not infinity, and the
function returns the one-element list [Z] instead of the empty list. -/
theorem findOptimalPath_unknown_goal_returned :
    hasPos (loneNodes ℝ) "A" ∧ ¬ hasPos (loneNodes ℝ) "Z" ∧ "Z" ≠ "A" ∧
      ∃ N, ∀ fuel, N ≤ fuel →
        findOptimalPath Real.sqrt fuel (loneNodes ℝ) [] "A" "Z" = .done ["Z"] :=
  ⟨by simp [hasPos, loneNodes, List.lookup], by simp [hasPos, loneNodes, List.lookup],
    by decide,
    unknownGoal_of_sqrt Real.sqrt Real.sqrt_nonneg (loneNodes ℝ) [] "A" "Z"
      (by simp [hasPos, loneNodes, List.lookup]) (by simp [hasPos, loneNodes, List.lookup])
      (by decide)⟩

/-- C7, failing input: start A has the declared link B but no
position, B has one; the lookup `nodes.at(u)` for u = A throws
`std::out_of_range`, so the function does not return a list. -/
theorem findOptimalPath_unpositioned_start_throws :
    ¬ hasPos (onlyBNodes ℝ) "A" ∧ hasPos (onlyBNodes ℝ) "B" ∧ "B" ∈ linksOf onlyBAdj "A" ∧
      ∀ k, findOptimalPath Real.sqrt (1 + k) (onlyBNodes ℝ) onlyBAdj "A" "B" = .outOfRange :=
  ⟨by simp [hasPos, onlyBNodes, List.lookup], by simp [hasPos, onlyBNodes, List.lookup],
    by simp [linksOf, onlyBAdj, List.lookup],
    unpositionedStart_throws Real.sqrt (onlyBNodes ℝ) onlyBAdj "A" "B"
      (by simp [hasPos, onlyBNodes, List.lookup]) (by decide) "B"
      (by simp [linksOf, onlyBAdj, List.lookup]) (by simp [hasPos, onlyBNodes, List.lookup])⟩

end ClaimsPathFinder

section ClaimsLinkPass

variable {D : Type} [LinearOrderedCommRing D]

/-- C8: the simulator invocations made by the link pass on a node list are
those of the enumeration `expectedCalls` (for each node in parse order, for
each of its links in declaration order that names an existing node, one call
with the distance, the frequency and power of the transmitter and the
effective rate), whatever was done before; a found receiver is a node of the
list with the name of the link; the pass returns the node list unchanged; and
running it twice yields the same sequence twice. -/
theorem linkPass_enumeration (sqrt : D → D) (nodes : List (NodeConfig D))
    (before : List (Effect D)) :
    simCalls (linkPass sqrt ⟨nodes, []⟩).trace = expectedCalls sqrt nodes ∧
      simCalls (linkPass sqrt ⟨nodes, before⟩).trace
        = simCalls before ++ expectedCalls sqrt nodes ∧
      (∀ target rx, nodes.find? (fun n => decide (n.name = target)) = some rx →
        rx ∈ nodes ∧ rx.name = target) ∧
      (linkPass sqrt ⟨nodes, before⟩).nodes = nodes ∧
      simCalls (linkPass sqrt (linkPass sqrt ⟨nodes, []⟩)).trace
        = expectedCalls sqrt nodes ++ expectedCalls sqrt nodes := by
  refine ⟨?_, ?_, ?_, ?_, ?_⟩
  · rw [linkPass_eq]
    simp [simCalls_passEffects]
  · rw [linkPass_eq]
    simp [simCalls_append, simCalls_passEffects]
  · intro target rx h
    exact ⟨List.mem_of_find?_eq_some h, by simpa using List.find?_some h⟩
  · rw [linkPass_eq]
  · rw [linkPass_eq, linkPass_eq]
    simp [simCalls_append, simCalls_passEffects]

/-- C9: the rate passed to the simulator for a transmitter and a found
receiver is `effectiveRate tx.txRate rx.rxRate`, which is the first string when
it is strictly smaller in character-wise lexicographic order and the second
otherwise; it is one of the two, is less than or equal to both, and does not
change when the two are swapped; for 6Mbps and 54Mbps in either role it is
54Mbps. -/
theorem effectiveRate_lexicographic_min (sqrt : D → D) (tx rx : NodeConfig D) (a b : String) :
    (simCallOf sqrt tx rx).rate = effectiveRate tx.txRate rx.rxRate ∧
      (a.data < b.data → effectiveRate a b = a) ∧
      (¬ a.data < b.data → effectiveRate a b = b) ∧
      (effectiveRate a b = a ∨ effectiveRate a b = b) ∧
      (effectiveRate a b).data ≤ a.data ∧ (effectiveRate a b).data ≤ b.data ∧
      effectiveRate a b = effectiveRate b a ∧
      effectiveRate "6Mbps" "54Mbps" = "54Mbps" ∧
      effectiveRate "54Mbps" "6Mbps" = "54Mbps" := by
  refine ⟨rfl, fun h => by simp [effectiveRate, h], fun h => by simp [effectiveRate, h], ?_, ?_,
    ?_, ?_, by decide, by decide⟩
  · unfold effectiveRate
    split
    · exact Or.inl rfl
    · exact Or.inr rfl
  · unfold effectiveRate
    split
    · exact le_refl _
    · rename_i h; exact not_lt.1 h
  · unfold effectiveRate
    split
    · rename_i h; exact le_of_lt h
    · exact le_refl _
  · unfold effectiveRate
    split
    · rename_i h1
      split
      · rename_i h2; exact absurd h2 (lt_asymm h1)
      · rfl
    · rename_i h1
      split
      · rfl
      · rename_i h2
        exact String.ext (le_antisymm (not_lt.1 h1) (not_lt.1 h2))

/-- C10: when a link entry `ghost` of the node `tx` matches the name of no
node of the list, processing that entry makes no simulator call and emits
exactly one warning, and the effects of the whole pass are those of the pass
over the list with that entry removed, with this one warning inserted at the
point the pass has reached (after the nodes before `tx` and the links of `tx`
before the entry); in particular the simulator calls of the two passes are
the same. -/
theorem linkPass_unknown_target_skipped (sqrt : D → D) (pre post : List (NodeConfig D))
    (tx : NodeConfig D) (l1 l2 : List String) (ghost : String) (before : List (Effect D))
    (hlinks : tx.links = l1 ++ ghost :: l2)
    (hghost : ∀ n ∈ pre ++ tx :: post, n.name ≠ ghost) :
    (linkStep sqrt tx ghost ⟨pre ++ tx :: post, before⟩).trace = before ++ [Effect.warn ghost] ∧
      (∃ T2,
        (linkPass sqrt ⟨pre ++ tx :: post, []⟩).trace
          = (linkLoop sqrt tx l1 (nodeLoop sqrt pre ⟨pre ++ tx :: post, []⟩)).trace
              ++ Effect.warn ghost :: T2 ∧
        (linkPass sqrt ⟨pre ++ { tx with links := l1 ++ l2 } :: post, []⟩).trace
          = (linkLoop sqrt tx l1 (nodeLoop sqrt pre ⟨pre ++ tx :: post, []⟩)).trace ++ T2) ∧
      simCalls (linkPass sqrt ⟨pre ++ tx :: post, []⟩).trace
        = simCalls (linkPass sqrt ⟨pre ++ { tx with links := l1 ++ l2 } :: post, []⟩).trace := by
  have hnone : findNode (pre ++ tx :: post) ghost = none :=
    findNode_none_of_no_match _ ghost hghost
  have hrel : List.Forall₂ SameButLinks (pre ++ tx :: post)
      (pre ++ { tx with links := l1 ++ l2 } :: post) :=
    List.rel_append (forall₂_sameButLinks_refl pre)
      (List.Forall₂.cons ⟨rfl, rfl, rfl, rfl, rfl, rfl, rfl, rfl, rfl⟩
        (forall₂_sameButLinks_refl post))
  have hsame : ∀ (a : NodeConfig D) (t : String),
      effectOf sqrt (pre ++ { tx with links := l1 ++ l2 } :: post) a t
        = effectOf sqrt (pre ++ tx :: post) a t := fun a t =>
    (effectOf_sameButLinks sqrt _ _ hrel a a (sameButLinks_refl a) t).symm
  have hg : effectOf sqrt (pre ++ tx :: post) tx ghost = Effect.warn ghost := by
    simp [effectOf, hnone]
  have hdecomp :
      (linkPass sqrt ⟨pre ++ tx :: post, []⟩).trace
          = (pre.flatMap (fun a => a.links.map (effectOf sqrt (pre ++ tx :: post) a))
              ++ l1.map (effectOf sqrt (pre ++ tx :: post) tx))
            ++ Effect.warn ghost ::
              (l2.map (effectOf sqrt (pre ++ tx :: post) tx)
                ++ post.flatMap (fun a => a.links.map (effectOf sqrt (pre ++ tx :: post) a))) ∧
      (linkPass sqrt ⟨pre ++ { tx with links := l1 ++ l2 } :: post, []⟩).trace
          = (pre.flatMap (fun a => a.links.map (effectOf sqrt (pre ++ tx :: post) a))
              ++ l1.map (effectOf sqrt (pre ++ tx :: post) tx))
            ++ (l2.map (effectOf sqrt (pre ++ tx :: post) tx)
                ++ post.flatMap (fun a => a.links.map (effectOf sqrt (pre ++ tx :: post) a))) := by
    constructor
    · rw [linkPass_eq]
      simp only [passEffects, List.nil_append, List.flatMap_append, List.flatMap_cons, hlinks,
        List.map_append, List.map_cons, hg, List.append_assoc, List.cons_append]
    · have hsameF : ∀ a : NodeConfig D,
          effectOf sqrt (pre ++ { tx with links := l1 ++ l2 } :: post) a
            = effectOf sqrt (pre ++ tx :: post) a := fun a => funext (hsame a)
      have hsameF' : effectOf sqrt (pre ++ tx :: post) { tx with links := l1 ++ l2 }
          = effectOf sqrt (pre ++ tx :: post) tx := funext (fun t =>
        (effectOf_sameButLinks sqrt _ _ (forall₂_sameButLinks_refl _) tx _
          ⟨rfl, rfl, rfl, rfl, rfl, rfl, rfl, rfl, rfl⟩ t).symm)
      rw [linkPass_eq]
      simp only [passEffects, List.nil_append, List.flatMap_append, List.flatMap_cons,
        List.map_append, hsameF, hsameF', List.append_assoc]
  have hT1 : (linkLoop sqrt tx l1 (nodeLoop sqrt pre ⟨pre ++ tx :: post, []⟩)).trace
      = pre.flatMap (fun a => a.links.map (effectOf sqrt (pre ++ tx :: post) a))
          ++ l1.map (effectOf sqrt (pre ++ tx :: post) tx) := by
    rw [linkLoop_eq, nodeLoop_eq]
    simp
  refine ⟨?_, ⟨_, by rw [hT1]; exact hdecomp.1, by rw [hT1]; exact hdecomp.2⟩, ?_⟩
  · rw [linkStep_eq]
    simp [hg]
  · rw [hdecomp.1, hdecomp.2]
    simp [simCalls_append, simCalls]

/-- C10, instance: node A links to Ghost and B, node B links to A. -/
theorem linkPass_unknown_target_skipped_witness :
    ghostA.links = [] ++ "Ghost" :: ["B"] ∧
      (∀ n ∈ [] ++ ghostA :: [ghostB], n.name ≠ "Ghost") ∧
      ((linkStep intSqrt ghostA "Ghost" ⟨[] ++ ghostA :: [ghostB], []⟩).trace
          = [] ++ [Effect.warn "Ghost"] ∧
        (∃ T2,
          (linkPass intSqrt ⟨[] ++ ghostA :: [ghostB], []⟩).trace
            = (linkLoop intSqrt ghostA [] (nodeLoop intSqrt [] ⟨[] ++ ghostA :: [ghostB], []⟩)).trace
                ++ Effect.warn "Ghost" :: T2 ∧
          (linkPass intSqrt ⟨[] ++ { ghostA with links := [] ++ ["B"] } :: [ghostB], []⟩).trace
            = (linkLoop intSqrt ghostA [] (nodeLoop intSqrt [] ⟨[] ++ ghostA :: [ghostB], []⟩)).trace
                ++ T2) ∧
        simCalls (linkPass intSqrt ⟨[] ++ ghostA :: [ghostB], []⟩).trace
          = simCalls (linkPass intSqrt
              ⟨[] ++ { ghostA with links := [] ++ ["B"] } :: [ghostB], []⟩).trace) :=
  ⟨rfl, by simp [ghostA, ghostB],
    linkPass_unknown_target_skipped intSqrt [] [ghostB] ghostA [] ["B"] "Ghost" [] rfl
      (by simp [ghostA, ghostB])⟩

end ClaimsLinkPass

section ClaimsTermination

/-- C20: for every node map, adjacency map, goal and start with a position,
the call returns once the fuel passes a bound: the main loop completes within
`potential` iterations and the backward walk ends. Each pass of the inner loop
that pushes a name has strictly lowered that name's tentative distance, and
each such decrease strictly lowers the natural number `slack`, so only
finitely many can occur. -/
theorem findOptimalPath_terminates (nodes : NodeMap ℝ) (adjacency : AdjMap)
    (start goal : String) (hstart : hasPos nodes start) :
    (∃ N p, ∀ fuel, N ≤ fuel →
        findOptimalPath Real.sqrt fuel nodes adjacency start goal = .done p) ∧
      (∃ st, ∀ fuel, potential Real.sqrt nodes (initState nodes start) ≤ fuel →
        searchLoop Real.sqrt nodes adjacency goal fuel (initState nodes start) = .done st) ∧
      (∀ u v st st', relaxStep Real.sqrt nodes u v st = .done st' →
        st' = st ∨
          (distAt st'.dist v < distAt st.dist v ∧
            (∀ k, k ≠ v → distAt st'.dist k = distAt st.dist k) ∧
            st'.pq.Perm (v :: st.pq))) ∧
      (∀ st u v, Inv Real.sqrt nodes adjacency start st → hasPos nodes u → hasPos nodes v →
        altDist Real.sqrt nodes st.dist u v < distAt st.dist v →
        slack Real.sqrt nodes (improve st u v (altDist Real.sqrt nodes st.dist u v)).dist
          < slack Real.sqrt nodes st.dist) := by
  refine ⟨returns_of_sqrt Real.sqrt Real.sqrt_nonneg nodes adjacency start goal hstart, ?_,
    fun u v st st' h => relaxStep_strict Real.sqrt nodes u v st st' h,
    fun st u v hinv hu hv hlt => slack_improve Real.sqrt_nonneg hinv u v hu hv hlt⟩
  obtain ⟨st, h1, _⟩ := search_completes goal Real.sqrt_nonneg hstart (fun _ => True)
    (fun _ _ _ => trivial) (fun _ _ _ _ _ _ _ _ _ => trivial) trivial
  exact ⟨st, h1⟩

/-- C20, instance: the three nodes with a self-link at A and the cycle A → B → A. -/
theorem findOptimalPath_terminates_witness :
    hasPos (nodesABC ℝ) "A" ∧
      ((∃ N p, ∀ fuel, N ≤ fuel →
          findOptimalPath Real.sqrt fuel (nodesABC ℝ) loopAdj "A" "C" = .done p) ∧
        (∃ st, ∀ fuel,
          potential Real.sqrt (nodesABC ℝ) (initState (nodesABC ℝ) "A") ≤ fuel →
          searchLoop Real.sqrt (nodesABC ℝ) loopAdj "C" fuel (initState (nodesABC ℝ) "A")
            = .done st) ∧
        (∀ u v st st', relaxStep Real.sqrt (nodesABC ℝ) u v st = .done st' →
          st' = st ∨
            (distAt st'.dist v < distAt st.dist v ∧
              (∀ k, k ≠ v → distAt st'.dist k = distAt st.dist k) ∧
              st'.pq.Perm (v :: st.pq))) ∧
        (∀ st u v, Inv Real.sqrt (nodesABC ℝ) loopAdj "A" st → hasPos (nodesABC ℝ) u →
          hasPos (nodesABC ℝ) v →
          altDist Real.sqrt (nodesABC ℝ) st.dist u v < distAt st.dist v →
          slack Real.sqrt (nodesABC ℝ)
              (improve st u v (altDist Real.sqrt (nodesABC ℝ) st.dist u v)).dist
            < slack Real.sqrt (nodesABC ℝ) st.dist)) :=
  ⟨by simp [hasPos, nodesABC, List.lookup],
    findOptimalPath_terminates (nodesABC ℝ) loopAdj "A" "C"
      (by simp [hasPos, nodesABC, List.lookup])⟩

end ClaimsTermination

section ClaimsDuplicates

variable {D : Type} [LinearOrderedCommRing D]

/-- C11, as stated, fails: the text `dupLines` parses to a transmitter A and
two records named B, at (3,4,0) with receiver rate 54Mbps and then at (0,0,10)
with receiver rate 1Mbps. The link A → B is simulated once, with the distance
5 and the rate 54Mbps of the earlier record, not with the distance 10 and the
rate 1Mbps of the later one. -/
theorem linkPass_duplicate_uses_first :
    parseNodes readInt blankConfig dupLines = Parsed.ok dupNodes ∧
      simCalls (linkPass intSqrt { nodes := dupNodes, trace := [] }).trace
        = [{ distance := 5, freqMHz := 0, txPowerdBm := 0, rate := "54Mbps" }] ∧
      simCalls (linkPass intSqrt { nodes := dupNodes, trace := [] }).trace
        ≠ [{ distance := 10, freqMHz := 0, txPowerdBm := 0, rate := "1Mbps" }] := by
  decide

/-- C11 (amended): when two records of the node vector carry the same name and
no record before the earlier one does, a link that names it resolves to the
earlier record: the call is made with the distance to the earlier record's
position and the effective rate taken against the earlier record's rxRate. -/
theorem linkPass_duplicate_first_wins (sqrt : D → D) (pre mid post : List (NodeConfig D))
    (a b tx : NodeConfig D) (trace : List (Effect D)) (hab : b.name = a.name)
    (hpre : ∀ n ∈ pre, n.name ≠ a.name) :
    findNode (pre ++ a :: (mid ++ b :: post)) b.name = some a ∧
      linkStep sqrt tx b.name { nodes := pre ++ a :: (mid ++ b :: post), trace := trace }
        = { nodes := pre ++ a :: (mid ++ b :: post),
            trace := trace ++ [Effect.sim
              { distance := sqrt ((tx.x - a.x) * (tx.x - a.x) + (tx.y - a.y) * (tx.y - a.y)
                  + (tx.z - a.z) * (tx.z - a.z)),
                freqMHz := tx.freqMHz, txPowerdBm := tx.txPowerBm,
                rate := effectiveRate tx.txRate a.rxRate }] } := by
  have hfind : findNode (pre ++ a :: (mid ++ b :: post)) b.name = some a := by
    rw [hab]
    induction pre with
    | nil => simp [findNode]
    | cons n pre ih =>
      have hn : n.name ≠ a.name := hpre n (List.mem_cons_self _ _)
      simp only [List.cons_append, findNode, hn, if_false]
      exact ih (fun m hm => hpre m (List.mem_cons_of_mem _ hm))
  refine ⟨hfind, ?_⟩
  simp [linkStep, hfind, simCallOf]

/-- C11 (amended), instance: the two records named B after the transmitter A. -/
theorem linkPass_duplicate_first_wins_witness :
    dupB2.name = dupB1.name ∧ (∀ n ∈ [dupA], n.name ≠ dupB1.name) ∧
      (findNode ([dupA] ++ dupB1 :: ([] ++ dupB2 :: [])) dupB2.name = some dupB1 ∧
        linkStep intSqrt dupA dupB2.name
            { nodes := [dupA] ++ dupB1 :: ([] ++ dupB2 :: []), trace := [] }
          = { nodes := [dupA] ++ dupB1 :: ([] ++ dupB2 :: []),
              trace := [] ++ [Effect.sim
                { distance := intSqrt ((dupA.x - dupB1.x) * (dupA.x - dupB1.x)
                    + (dupA.y - dupB1.y) * (dupA.y - dupB1.y)
                    + (dupA.z - dupB1.z) * (dupA.z - dupB1.z)),
                  freqMHz := dupA.freqMHz, txPowerdBm := dupA.txPowerBm,
                  rate := effectiveRate dupA.txRate dupB1.rxRate }] }) :=
  ⟨by decide, by decide,
    linkPass_duplicate_first_wins intSqrt [dupA] [] [] dupB1 dupB2 dupA [] (by decide)
      (by decide)⟩

end ClaimsDuplicates

section ClaimsPathParser

variable {D : Type} [LinearOrderedCommRing D]

end ClaimsPathParser

section ClaimsSimParser

variable {D : Type} [LinearOrderedCommRing D]

/-- C13: a block whose only name line is `Name: ""` is recorded, under the
empty name. The test `!current.name.empty()` sees the text after the colon, a
space and two double quotes; these are trimmed away only after the loop. So
the text of two blocks, of which one has a non-empty name, gives two records,
the first with an empty name. -/
theorem parseNodes_blank_name_recorded (uninit : NodeConfig ℤ) :
    parseNodes readInt uninit ["NODECONFIGHEADER", "Name: \"\""]
        = Parsed.ok [blankConfig] ∧
      (blankConfig : NodeConfig ℤ).name = "" ∧
      parseNodes readInt uninit
          ["NODECONFIGHEADER", "Name: \"\"", "NODECONFIGHEADER", "Name: \"A\""]
        = Parsed.ok [blankConfig, { (blankConfig : NodeConfig ℤ) with name := "A" }] := by
  refine ⟨?_, rfl, ?_⟩ <;> rfl

/-- C15, as stated, fails: in the block with the lines `Name: "A"` and
`Name: "B"` the first is no sentinel and contains `Name:`, and the text after
its colon trims to A, yet the record holds B, the text of the later line; the
same with two type lines, where the record holds the later type UE. And when
a later line of the text throws, as `Transmission Power: high` does, there is
no record at all. -/
theorem parseNodes_later_name_wins :
    hasSub "NODECONFIGHEADER".data "Name: \"A\"".data = false ∧
      hasSub "Name:".data "Name: \"A\"".data = true ∧
      trim (afterColon "Name: \"A\"".data) = "A".data ∧
      parseNodes readInt (blankConfig : NodeConfig ℤ)
          ["NODECONFIGHEADER", "Name: \"A\"", "Name: \"B\""]
        = Parsed.ok [{ (blankConfig : NodeConfig ℤ) with name := "B" }] ∧
      hasSub "NODECONFIGHEADER".data "Type: \"gNB\"".data = false ∧
      hasSub "Name:".data "Type: \"gNB\"".data = false ∧
      hasSub "Type:".data "Type: \"gNB\"".data = true ∧
      trim (afterColon "Type: \"gNB\"".data) = "gNB".data ∧
      parseNodes readInt (blankConfig : NodeConfig ℤ)
          ["NODECONFIGHEADER", "Name: \"A\"", "Type: \"gNB\"", "Type: \"UE\""]
        = Parsed.ok [{ (blankConfig : NodeConfig ℤ) with name := "A", type := "UE" }] ∧
      parseNodes readInt (blankConfig : NodeConfig ℤ)
          ["NODECONFIGHEADER", "Name: \"A\"", "Transmission Power: high"]
        = Parsed.invalidArgument := by
  decide

/-- C15 (amended): let a line that is no sentinel stand in a block that runs on, without
a sentinel, to the next sentinel or the end of the text, in a parse that
completes. With `cur` the block's record when the block ends: if the line
contains `Name:` and no later line of the block does, the name of `cur` is the
text after the first colon of the line and the cleaned record holds that text
trimmed; likewise for the type when the line contains `Type:` and not `Name:`
and no later line of the block sets the type. The cleaned record is in the
output when the name of `cur` is not empty, and every record of the output is
a cleaned one. Trimming removes a leading and a trailing stretch of space, tab,
carriage return, line feed and double quote and leaves the rest; it gives the
empty text when there is nothing else, and changes no trimmed text. -/
theorem parseNodes_name_type_trimmed (readNum : List Char → Option (D × List Char))
    (uninit : NodeConfig D) (pre mid rest : List String) (line : String)
    (out : List (NodeConfig D))
    (hparse : parseNodes readNum uninit (pre ++ line :: (mid ++ rest)) = Parsed.ok out)
    (hline : hasSub "NODECONFIGHEADER".data line.data = false)
    (hmid : ∀ l ∈ mid, hasSub "NODECONFIGHEADER".data l.data = false)
    (hrest : rest = [] ∨ ∃ s rest', rest = s :: rest' ∧
      hasSub "NODECONFIGHEADER".data s.data = true) :
    (∃ cur : NodeConfig D,
      (cur.name ≠ "" → cleanConfig cur ∈ out) ∧
      (hasSub "Name:".data line.data = true →
        (∀ l ∈ mid, hasSub "Name:".data l.data = false) →
        cur.name.data = afterColon line.data ∧
          (cleanConfig cur).name.data = trim (afterColon line.data)) ∧
      (hasSub "Name:".data line.data = false → hasSub "Type:".data line.data = true →
        (∀ l ∈ mid, hasSub "Name:".data l.data = true ∨ hasSub "Type:".data l.data = false) →
        cur.type.data = afterColon line.data ∧
          (cleanConfig cur).type.data = trim (afterColon line.data))) ∧
      (∀ r ∈ out, ∃ raw : NodeConfig D, r.name.data = trim raw.name.data ∧
        r.type.data = trim raw.type.data) ∧
      (∀ s : List Char, ∃ a b, s = a ++ trim s ++ b ∧ (∀ c ∈ a, isTrimChar c = true) ∧
        (∀ c ∈ b, isTrimChar c = true) ∧
        (∀ c, (trim s).head? = some c → isTrimChar c = false) ∧
        (∀ c, (trim s).getLast? = some c → isTrimChar c = false)) ∧
      (∀ c, isTrimChar c = true ↔ c = ' ' ∨ c = '\t' ∨ c = '\r' ∨ c = '\n' ∨ c = '"') ∧
      (∀ s : List Char, (∀ c ∈ s, isTrimChar c = true) → trim s = []) ∧
      (∀ s : List Char, trim (trim s) = trim s) := by
  obtain ⟨st1, st2, st3, h2, h3, hin, hall⟩ :=
    parseNodes_block readNum uninit pre mid rest line out hparse hrest
  obtain ⟨_, kn, kt⟩ := simLoop_block readNum mid st2 st3 h3 hmid
  refine ⟨⟨st3.current, hin, ?_, ?_⟩, ?_, trim_spec, isTrimChar_iff, trim_all, trim_trim⟩
  · intro hn hnone
    rw [simLine_name readNum st1 line hline hn] at h2
    have e : st3.current.name = String.mk (afterColon line.data) := by
      rw [kn hnone, ← Parsed.ok.inj h2]
    simp [cleanConfig, e]
  · intro hn ht hnone
    rw [simLine_type readNum st1 line hline hn ht] at h2
    have e : st3.current.type = String.mk (afterColon line.data) := by
      rw [kt hnone, ← Parsed.ok.inj h2]
    simp [cleanConfig, e]
  · intro r hr
    obtain ⟨raw, e⟩ := hall r hr
    exact ⟨raw, by rw [e]; rfl, by rw [e]; rfl⟩

/-- C15 (amended), instance: the block of a node named Base Station, followed by a
second block. -/
theorem parseNodes_name_type_trimmed_witness :
    parseNodes readInt (blankConfig : NodeConfig ℤ)
        (["NODECONFIGHEADER"] ++ "Name: \t\"Base Station\" \r" ::
          (["Type: \"gNB\""] ++ ["NODECONFIGHEADER", "Name: \"B\""]))
        = Parsed.ok [{ (blankConfig : NodeConfig ℤ) with name := "Base Station", type := "gNB" },
            { (blankConfig : NodeConfig ℤ) with name := "B" }] ∧
      hasSub "NODECONFIGHEADER".data "Name: \t\"Base Station\" \r".data = false ∧
      (∀ l ∈ ["Type: \"gNB\""], hasSub "NODECONFIGHEADER".data l.data = false) ∧
      ((∃ cur : NodeConfig ℤ,
        (cur.name ≠ "" → cleanConfig cur ∈
          [{ (blankConfig : NodeConfig ℤ) with name := "Base Station", type := "gNB" },
            { (blankConfig : NodeConfig ℤ) with name := "B" }]) ∧
        (hasSub "Name:".data "Name: \t\"Base Station\" \r".data = true →
          (∀ l ∈ ["Type: \"gNB\""], hasSub "Name:".data l.data = false) →
          cur.name.data = afterColon "Name: \t\"Base Station\" \r".data ∧
            (cleanConfig cur).name.data = trim (afterColon "Name: \t\"Base Station\" \r".data)) ∧
        (hasSub "Name:".data "Name: \t\"Base Station\" \r".data = false →
          hasSub "Type:".data "Name: \t\"Base Station\" \r".data = true →
          (∀ l ∈ ["Type: \"gNB\""],
            hasSub "Name:".data l.data = true ∨ hasSub "Type:".data l.data = false) →
          cur.type.data = afterColon "Name: \t\"Base Station\" \r".data ∧
            (cleanConfig cur).type.data
              = trim (afterColon "Name: \t\"Base Station\" \r".data))) ∧
        (∀ r ∈ [{ (blankConfig : NodeConfig ℤ) with name := "Base Station", type := "gNB" },
            { (blankConfig : NodeConfig ℤ) with name := "B" }],
          ∃ raw : NodeConfig ℤ, r.name.data = trim raw.name.data ∧
            r.type.data = trim raw.type.data) ∧
        (∀ s : List Char, ∃ a b, s = a ++ trim s ++ b ∧ (∀ c ∈ a, isTrimChar c = true) ∧
          (∀ c ∈ b, isTrimChar c = true) ∧
          (∀ c, (trim s).head? = some c → isTrimChar c = false) ∧
          (∀ c, (trim s).getLast? = some c → isTrimChar c = false)) ∧
        (∀ c, isTrimChar c = true ↔ c = ' ' ∨ c = '\t' ∨ c = '\r' ∨ c = '\n' ∨ c = '"') ∧
        (∀ s : List Char, (∀ c ∈ s, isTrimChar c = true) → trim s = []) ∧
        (∀ s : List Char, trim (trim s) = trim s)) ∧
      trim (afterColon "Name: \t\"Base Station\" \r".data) = "Base Station".data :=
  ⟨by decide, by decide, by decide,
    parseNodes_name_type_trimmed readInt (blankConfig : NodeConfig ℤ) ["NODECONFIGHEADER"]
      ["Type: \"gNB\""] ["NODECONFIGHEADER", "Name: \"B\""] "Name: \t\"Base Station\" \r"
      [{ (blankConfig : NodeConfig ℤ) with name := "Base Station", type := "gNB" },
        { (blankConfig : NodeConfig ℤ) with name := "B" }]
      (by decide) (by decide) (by decide) (Or.inr ⟨_, _, rfl, by decide⟩),
    by decide⟩

end ClaimsSimParser

section ClaimsLabels

variable {D : Type} [LinearOrderedCommRing D]

/-- C16, as stated, fails: the block written with the labels of the source
gives one record, and one node with one link in the path finder's graph; the
same block with the labels in other letter case gives no record and an empty
graph. -/
theorem parse_other_case_ignored :
    parseNodes readInt (blankConfig : NodeConfig ℤ) properCaseLines
        = Parsed.ok [{ (blankConfig : NodeConfig ℤ) with
            name := "A", x := 1, y := 2, z := 3, links := ["B"] }] ∧
      parseNodes readInt (blankConfig : NodeConfig ℤ) otherCaseLines = Parsed.ok [] ∧
      parseGraph readInt (⟨0, 0, 0⟩ : NodePosition ℤ) properCaseLines
        = ([("A", ⟨1, 2, 3⟩)], [("A", ["B"])]) ∧
      parseGraph readInt (⟨0, 0, 0⟩ : NodePosition ℤ) otherCaseLines = ([], []) := by
  decide

/-- C16 (amended): the labels are matched in the exact spelling of the source.
A line that contains none of the nine labels in that spelling leaves the state
of either parser as it was, whatever it contains in other letter case. -/
theorem parse_labels_case_sensitive (line : String) (h : simIgnores line) :
    (∀ (readNum : List Char → Option (D × List Char)) (st : SimParse D),
        simLine readNum st line = Parsed.ok st) ∧
      (∀ (readNum : List Char → Option (D × List Char)) (stale : NodePosition D)
        (st : PathParse D), pathLine readNum stale st line = st) :=
  ⟨fun readNum st => simLine_ignored readNum st line h,
    fun readNum stale st =>
      pathLine_ignored readNum stale st line (pathIgnores_of_simIgnores line h)⟩

/-- C16 (amended), instance: the line `name: "A"`. -/
theorem parse_labels_case_sensitive_witness :
    simIgnores "name: \"A\"" ∧
      ((∀ (readNum : List Char → Option (ℤ × List Char)) (st : SimParse ℤ),
          simLine readNum st "name: \"A\"" = Parsed.ok st) ∧
        (∀ (readNum : List Char → Option (ℤ × List Char)) (stale : NodePosition ℤ)
          (st : PathParse ℤ), pathLine readNum stale st "name: \"A\"" = st)) :=
  ⟨by decide, parse_labels_case_sensitive "name: \"A\"" (by decide)⟩

/-- C17: the two parsers build different graphs from `spacedNameLines`. The
simulation's record is named `Base Station` and links to B only; the path
finder stores the position under `BaseStation` and the links "" and B. -/
theorem parsers_disagree :
    parseNodes readInt (blankConfig : NodeConfig ℤ) spacedNameLines
        = Parsed.ok [{ (blankConfig : NodeConfig ℤ) with
            name := "Base Station", x := 1, y := 2, z := 3, links := ["B"] }] ∧
      parseGraph readInt (⟨0, 0, 0⟩ : NodePosition ℤ) spacedNameLines
        = ([("BaseStation", ⟨1, 2, 3⟩)], [("BaseStation", ["", "B"])]) ∧
      "Base Station" ≠ "BaseStation" ∧ (["B"] : List String) ≠ ["", "B"] := by
  decide

/-- C18: in `shortLocationLines` the location line holds the two numbers 1 and
2. The simulation's record has z = 0, but the path finder stores as z what the
uninitialised local `z` held, for instance 7. -/
theorem parseGraph_short_location_stale (stale : NodePosition ℤ) :
    parseNodes readInt (blankConfig : NodeConfig ℤ) shortLocationLines
        = Parsed.ok [{ (blankConfig : NodeConfig ℤ) with name := "A", x := 1, y := 2, z := 0 }] ∧
      parseGraph readInt stale shortLocationLines = ([("A", ⟨1, 2, stale.z⟩)], []) ∧
      parseGraph readInt (⟨0, 0, 7⟩ : NodePosition ℤ) shortLocationLines
        = ([("A", ⟨1, 2, 7⟩)], []) := by
  refine ⟨by decide, rfl, by decide⟩

end ClaimsLabels

section ClaimsMalformed

variable {D : Type} [LinearOrderedCommRing D]

/-- C19, as stated, fails: the block with the line `Location: abc` parses
without an error to a record at (0,0,0); and after `Location: 5, 6, 7` the
line `Location: 1, north` gives the position (1,0,7), zero for the word and
the earlier value for the coordinate after it. -/
theorem parseNodes_word_location_zero :
    parseNodes readInt (blankConfig : NodeConfig ℤ) wordLocationLines
        = Parsed.ok [{ (blankConfig : NodeConfig ℤ) with name := "A", x := 0, y := 0, z := 0 }] ∧
      parseNodes readInt (blankConfig : NodeConfig ℤ) staleLocationLines
        = Parsed.ok [{ (blankConfig : NodeConfig ℤ) with name := "A", x := 1, y := 0, z := 7 }] := by
  decide

/-- C19 (amended): take two lines that are no sentinels and contain neither
`Name:` nor `Type:`. The first contains `Location:` and the text after its
colon starts, after white space, with something that is no number: no error is
reported; the simulation's record gets x = 0 and keeps its y and z, and the
path finder stores for the current node a position whose x is 0. The second
does not contain `Location:` but `Transmission Frequency:` or
`Transmission Power:`, and the text after its colon starts with no number: the
line throws `std::invalid_argument`, and no text that contains the line gives a
vector. -/
theorem parse_malformed_number (readNum : List Char → Option (D × List Char))
    (loc num : String)
    (hlh : hasSub "NODECONFIGHEADER".data loc.data = false)
    (hln : hasSub "Name:".data loc.data = false)
    (hlt : hasSub "Type:".data loc.data = false)
    (hll : hasSub "Location:".data loc.data = true)
    (hlbad : ∃ c r, (commasToSpaces (afterColon loc.data)).dropWhile isSpace = c :: r ∧
      readNum (c :: r) = none)
    (hnh : hasSub "NODECONFIGHEADER".data num.data = false)
    (hnn : hasSub "Name:".data num.data = false)
    (hnt : hasSub "Type:".data num.data = false)
    (hnl : hasSub "Location:".data num.data = false)
    (hnf : hasSub "Transmission Frequency:".data num.data = true ∨
      hasSub "Transmission Power:".data num.data = true)
    (hnbad : readNum ((afterColon num.data).dropWhile isSpace) = none) :
    ((∀ st : SimParse D, simLine readNum st loc
        = Parsed.ok { st with current := { st.current with x := 0 } }) ∧
      (∀ stale : NodePosition D, (pathPos readNum stale loc.data).x = 0) ∧
      (∀ (stale : NodePosition D) (st : PathParse D), pathLine readNum stale st loc
        = if st.currentNode = "" then st
          else { st with nodes :=
            (assign st.nodes st.currentNode (pathPos readNum stale loc.data)) })) ∧
    ((∀ st : SimParse D, simLine readNum st num = Parsed.invalidArgument) ∧
      (∀ (uninit : NodeConfig D) (pre post : List String) (out : List (NodeConfig D)),
        parseNodes readNum uninit (pre ++ num :: post) ≠ Parsed.ok out)) := by
  obtain ⟨c, r, hd, hnone⟩ := hlbad
  refine ⟨⟨fun st => ?_, fun stale => ?_, fun stale st => ?_⟩, ?_⟩
  · rw [simLine_location readNum st loc hlh hln hlt hll,
      extract3_no_number readNum _ _ _ _ c r hd hnone]
  · unfold pathPos
    rw [extract3_no_number readNum _ _ _ _ c r hd hnone]
  · by_cases hc : st.currentNode = ""
    · simp [pathLine, hln, hc]
    · rw [if_neg hc]
      exact pathLine_location readNum stale st loc hln hll hc
  · have hthrow : ∀ st : SimParse D, simLine readNum st num = Parsed.invalidArgument :=
      fun st => simLine_stod_throws readNum st num hnh hnn hnt hnl hnf hnbad
    exact ⟨hthrow, fun uninit pre post out =>
      parseNodes_throws readNum uninit pre post num hthrow out⟩

/-- C19 (amended), instance: the lines `Location: abc` and
`Transmission Frequency: fast`. -/
theorem parse_malformed_number_witness :
    hasSub "NODECONFIGHEADER".data "Location: abc".data = false ∧
      hasSub "Name:".data "Location: abc".data = false ∧
      hasSub "Type:".data "Location: abc".data = false ∧
      hasSub "Location:".data "Location: abc".data = true ∧
      (∃ c r, (commasToSpaces (afterColon "Location: abc".data)).dropWhile isSpace = c :: r ∧
        readInt (c :: r) = none) ∧
      hasSub "NODECONFIGHEADER".data "Transmission Frequency: fast".data = false ∧
      hasSub "Name:".data "Transmission Frequency: fast".data = false ∧
      hasSub "Type:".data "Transmission Frequency: fast".data = false ∧
      hasSub "Location:".data "Transmission Frequency: fast".data = false ∧
      (hasSub "Transmission Frequency:".data "Transmission Frequency: fast".data = true ∨
        hasSub "Transmission Power:".data "Transmission Frequency: fast".data = true) ∧
      readInt ((afterColon "Transmission Frequency: fast".data).dropWhile isSpace) = none ∧
      (((∀ st : SimParse ℤ, simLine readInt st "Location: abc"
          = Parsed.ok { st with current := { st.current with x := 0 } }) ∧
        (∀ stale : NodePosition ℤ, (pathPos readInt stale "Location: abc".data).x = 0) ∧
        (∀ (stale : NodePosition ℤ) (st : PathParse ℤ), pathLine readInt stale st "Location: abc"
          = if st.currentNode = "" then st
            else { st with nodes :=
              (assign st.nodes st.currentNode (pathPos readInt stale "Location: abc".data)) })) ∧
      ((∀ st : SimParse ℤ,
          simLine readInt st "Transmission Frequency: fast" = Parsed.invalidArgument) ∧
        (∀ (uninit : NodeConfig ℤ) (pre post : List String) (out : List (NodeConfig ℤ)),
          parseNodes readInt uninit (pre ++ "Transmission Frequency: fast" :: post)
            ≠ Parsed.ok out))) :=
  ⟨by decide, by decide, by decide, by decide, ⟨'a', ['b', 'c'], by decide, by decide⟩,
    by decide, by decide, by decide, by decide, Or.inl (by decide), by decide,
    parse_malformed_number readInt "Location: abc" "Transmission Frequency: fast"
      (by decide) (by decide) (by decide) (by decide)
      ⟨'a', ['b', 'c'], by decide, by decide⟩
      (by decide) (by decide) (by decide) (by decide) (Or.inl (by decide)) (by decide)⟩

end ClaimsMalformed

section ClaimsRoundTrip

variable {D : Type} [LinearOrderedCommRing D]

/-- C14, as stated, fails: `Name:x` is not empty and free of white space,
commas and double quotes, but the line written for the one-name list holds
`Name:` and is taken as a name line. The record gets the name `Name:x` and an
empty link list. -/
theorem parseNodes_link_named_like_label :
    linkName "Name:x" ∧
      parseNodes readInt (blankConfig : NodeConfig ℤ)
          ["NODECONFIGHEADER", "Name: \"A\"", writeLinks ["Name:x"]]
        = Parsed.ok [{ (blankConfig : NodeConfig ℤ) with name := "Name:x", links := [] }] ∧
      ([] : List String) ≠ ["Name:x"] := by
  decide

/-- C14 (amended): for every list of names, each non-empty and free of white
space, commas and double quotes, such that the written line contains none of
`NODECONFIGHEADER`, `Name:`, `Type:`, `Location:`: the loop body appends
exactly the given names, in order and with multiplicity, to the links of the
current record; the names read from the written line are the given list; and
writing the list that was read and reading it again gives the same list. -/
theorem links_round_trip (readNum : List Char → Option (D × List Char)) (st : SimParse D)
    (names : List String) (hnames : ∀ n ∈ names, linkName n)
    (hclass : hasSub "NODECONFIGHEADER".data (writeLinks names).data = false ∧
      hasSub "Name:".data (writeLinks names).data = false ∧
      hasSub "Type:".data (writeLinks names).data = false ∧
      hasSub "Location:".data (writeLinks names).data = false) :
    simLine readNum st (writeLinks names)
        = Parsed.ok { st with current :=
            { st.current with links := st.current.links ++ names } } ∧
      parseLinks (writeLinks names).data = names ∧
      parseLinks (writeLinks (parseLinks (writeLinks names).data)).data
        = parseLinks (writeLinks names).data := by
  have h := parseLinks_writeLinks names hnames
  refine ⟨?_, h, ?_⟩
  · rw [simLine_writeLinks readNum st names hnames hclass, h]
  · rw [h, h]

/-- C14 (amended), instance: the list B, C-2, B, read into the record of a
block named A. -/
theorem links_round_trip_witness :
    (∀ n ∈ ["B", "C-2", "B"], linkName n) ∧
      (hasSub "NODECONFIGHEADER".data (writeLinks ["B", "C-2", "B"]).data = false ∧
        hasSub "Name:".data (writeLinks ["B", "C-2", "B"]).data = false ∧
        hasSub "Type:".data (writeLinks ["B", "C-2", "B"]).data = false ∧
        hasSub "Location:".data (writeLinks ["B", "C-2", "B"]).data = false) ∧
      writeLinks ["B", "C-2", "B"] = "Linked Nodes: \"B\", \"C-2\", \"B\"" ∧
      (simLine readInt { nodes := [], current := { (blankConfig : NodeConfig ℤ) with name := "A" } }
            (writeLinks ["B", "C-2", "B"])
          = Parsed.ok
              { nodes := [],
                current := { (blankConfig : NodeConfig ℤ) with
                              name := "A", links := [] ++ ["B", "C-2", "B"] } } ∧
        parseLinks (writeLinks ["B", "C-2", "B"]).data = ["B", "C-2", "B"] ∧
        parseLinks (writeLinks (parseLinks (writeLinks ["B", "C-2", "B"]).data)).data
          = parseLinks (writeLinks ["B", "C-2", "B"]).data) :=
  ⟨by decide, by decide, by decide,
    links_round_trip readInt
      { nodes := [], current := { (blankConfig : NodeConfig ℤ) with name := "A" } }
      ["B", "C-2", "B"] (by decide) (by decide)⟩

end ClaimsRoundTrip

section ClaimsSimplePath

/-- C21: for every node map, adjacency map and non-empty name `s`, the call
with start and goal both `s` returns the one-element list `[s]` for every fuel
from one on. The main loop ends after popping `s`, with the distances as on
entry and no predecessor recorded: no link has been expanded. Nothing is
assumed about `s` having a position or links. -/
theorem findOptimalPath_start_is_goal (nodes : NodeMap ℝ) (adjacency : AdjMap) (s : String)
    (hs : s ≠ "") :
    (∀ fuel, 1 ≤ fuel → findOptimalPath Real.sqrt fuel nodes adjacency s s = .done [s]) ∧
      (∀ fuel, 1 ≤ fuel →
        searchLoop Real.sqrt nodes adjacency s fuel (initState nodes s)
          = .done { dist := (initState nodes s).dist, prev := fun _ => none, pq := [] }) := by
  refine ⟨fun fuel hf => ?_, fun fuel hf => ?_⟩
  · obtain ⟨f, rfl⟩ : ∃ f, fuel = f + 1 := ⟨fuel - 1, by omega⟩
    exact startGoal_of_sqrt Real.sqrt nodes adjacency s hs f
  · obtain ⟨f, rfl⟩ : ∃ f, fuel = f + 1 := ⟨fuel - 1, by omega⟩
    exact searchLoop_start_goal Real.sqrt nodes adjacency s f

/-- C21, instance: the name Z, which has no position in the one-node map but
has a declared link. -/
theorem findOptimalPath_start_is_goal_witness :
    "Z" ≠ "" ∧ ¬ hasPos (loneNodes ℝ) "Z" ∧
      ((∀ fuel, 1 ≤ fuel →
          findOptimalPath Real.sqrt fuel (loneNodes ℝ) [("Z", ["A"])] "Z" "Z" = .done ["Z"]) ∧
        (∀ fuel, 1 ≤ fuel →
          searchLoop Real.sqrt (loneNodes ℝ) [("Z", ["A"])] "Z" fuel
              (initState (loneNodes ℝ) "Z")
            = .done { dist := (initState (loneNodes ℝ) "Z").dist, prev := fun _ => none,
                      pq := [] })) :=
  ⟨by decide, by simp [hasPos, loneNodes, List.lookup],
    findOptimalPath_start_is_goal (loneNodes ℝ) [("Z", ["A"])] "Z" (by decide)⟩

/-- C22: for every graph and every start and goal with positions the call
returns, and no name occurs twice in the returned list. In every state that
satisfies the invariants of the main loop, start has no predecessor, a
recorded predecessor link does not lead to a larger tentative distance, and
every name with a recorded predecessor heads a chain of predecessors that ends
at start and has no repetition; the invariants hold on entry and are kept by
every relaxation that lowers a distance. -/
theorem findOptimalPath_simple (nodes : NodeMap ℝ) (adjacency : AdjMap) (start goal : String)
    (hstart : hasPos nodes start) (hgoal : hasPos nodes goal) :
    (∃ N p, ∀ fuel, N ≤ fuel →
        findOptimalPath Real.sqrt fuel nodes adjacency start goal = .done p) ∧
      (∀ fuel p, findOptimalPath Real.sqrt fuel nodes adjacency start goal = .done p →
        p.Nodup) ∧
      (∀ st, Inv Real.sqrt nodes adjacency start st →
        st.prev start = none ∧
          (∀ v u, st.prev v = some u → distAt st.dist u ≤ distAt st.dist v) ∧
          ∀ v u, st.prev v = some u →
            ∃ C, PrevChain st.prev start (v :: C) ∧ (v :: C).Nodup) ∧
      Inv Real.sqrt nodes adjacency start (initState nodes start) ∧
      (∀ st u v, Inv Real.sqrt nodes adjacency start st → hasPos nodes u → hasPos nodes v →
        v ∈ linksOf adjacency u → altDist Real.sqrt nodes st.dist u v < distAt st.dist v →
        Inv Real.sqrt nodes adjacency start
          (improve st u v (altDist Real.sqrt nodes st.dist u v))) := by
  obtain ⟨h1, h2⟩ :=
    simple_of_sqrt Real.sqrt Real.sqrt_nonneg nodes adjacency start goal hstart hgoal
  refine ⟨h1, h2, ?_, inv_init Real.sqrt nodes adjacency start hstart,
    fun st u v hinv hu hv hl hlt => inv_improve Real.sqrt_nonneg hinv u v hu hv hl hlt⟩
  intro st hinv
  refine ⟨hinv.prev_start, ?_, ?_⟩
  · intro v u hp
    exact (le_altDist Real.sqrt Real.sqrt_nonneg nodes st.dist u v).trans
      (hinv.prev_edge v u hp).2.2.2.1
  · intro v u hp
    obtain ⟨_, hv, _, _, hfin⟩ := hinv.prev_edge v u hp
    obtain ⟨C, hC⟩ := hinv.chain v hv hfin
    exact ⟨C, hC, prevChain_nodup st.prev start hinv.prev_start C v hC⟩

/-- C22, instance: the graph in which A and B share a position and link to
each other with length zero, from S to B. -/
theorem findOptimalPath_simple_witness :
    hasPos (sharedNodes ℝ) "S" ∧ hasPos (sharedNodes ℝ) "B" ∧
      ((∃ N p, ∀ fuel, N ≤ fuel →
          findOptimalPath Real.sqrt fuel (sharedNodes ℝ) sharedAdj "S" "B" = .done p) ∧
        (∀ fuel p, findOptimalPath Real.sqrt fuel (sharedNodes ℝ) sharedAdj "S" "B" = .done p →
          p.Nodup) ∧
        (∀ st, Inv Real.sqrt (sharedNodes ℝ) sharedAdj "S" st →
          st.prev "S" = none ∧
            (∀ v u, st.prev v = some u → distAt st.dist u ≤ distAt st.dist v) ∧
            ∀ v u, st.prev v = some u →
              ∃ C, PrevChain st.prev "S" (v :: C) ∧ (v :: C).Nodup) ∧
        Inv Real.sqrt (sharedNodes ℝ) sharedAdj "S" (initState (sharedNodes ℝ) "S") ∧
        (∀ st u v, Inv Real.sqrt (sharedNodes ℝ) sharedAdj "S" st →
          hasPos (sharedNodes ℝ) u → hasPos (sharedNodes ℝ) v →
          v ∈ linksOf sharedAdj u →
          altDist Real.sqrt (sharedNodes ℝ) st.dist u v < distAt st.dist v →
          Inv Real.sqrt (sharedNodes ℝ) sharedAdj "S"
            (improve st u v (altDist Real.sqrt (sharedNodes ℝ) st.dist u v)))) :=
  ⟨by simp [hasPos, sharedNodes, List.lookup], by simp [hasPos, sharedNodes, List.lookup],
    findOptimalPath_simple (sharedNodes ℝ) sharedAdj "S" "B"
      (by simp [hasPos, sharedNodes, List.lookup]) (by simp [hasPos, sharedNodes, List.lookup])⟩

end ClaimsSimplePath
end LunarDT
